import Mathlib

/-! # Connect-Four engine (`backend/main.go`): shallow embedding and verified properties

A board is the Go value `[][]int`: a list of rows, row 0 being the bottom row.
Every Go index expression that can be out of range is modelled by an `Option`:
`none` stands for the runtime panic "index out of range".

Go `int` is taken to be 64 bits wide.  The only arithmetic of the engine whose
operands are not bounded by the size of the board is done on `depth`
(`depth + 1`, `depth - 1` and the terminal score); it is wrapped explicitly by
`wrapInt`.  The sums of `evaluate_board` are bounded by `50` per window and `4`
per row, so they cannot leave the 64 bit range for a board that fits in memory
and are left unwrapped.
-/

namespace Connect4

/-- The Go type `[][]int`. -/
abbrev Board := List (List Int)

/-- Two's complement wrap-around of a Go `int` (64 bits). -/
def wrapInt (x : Int) : Int :=
  (x + 9223372036854775808) % 18446744073709551616 - 9223372036854775808

/-- The constant `math.MinInt32`. -/
def MinInt32 : Int := -2147483648

/-- The constant `math.MaxInt32`. -/
def MaxInt32 : Int := 2147483647

/-- The constant `MAX_DEPTH`. -/
def MAX_DEPTH : Int := 5

/-- The constant `WIN_SCORE`. -/
def WIN_SCORE : Int := 100000

/-- The read `board[r][c]` for loop counters `r`, `c` (never negative). -/
def cell (board : Board) (r c : Nat) : Option Int :=
  match board[r]? with
  | none => none
  | some row => row[c]?

/-- The read `board[r][c]` where `c` is an arbitrary Go `int`. -/
def cellI (board : Board) (r : Nat) (c : Int) : Option Int :=
  if c < 0 then none else cell board r c.toNat

/-- The pairs `(a, b)` visited by `for a in outer { for b in inner { .. } }`, in order. -/
def nest (outer inner : List Nat) : List (Nat × Nat) :=
  List.product outer inner

/-- Cells `board[r][c], board[r][c+1], board[r][c+2], board[r][c+3]`. -/
def hLine (p : Nat × Nat) : List (Nat × Nat) :=
  [(p.1, p.2), (p.1, p.2 + 1), (p.1, p.2 + 2), (p.1, p.2 + 3)]

/-- Cells `board[r][c], board[r+1][c], board[r+2][c], board[r+3][c]`. -/
def vLine (p : Nat × Nat) : List (Nat × Nat) :=
  [(p.1, p.2), (p.1 + 1, p.2), (p.1 + 2, p.2), (p.1 + 3, p.2)]

/-- Cells `board[r][c], board[r+1][c+1], board[r+2][c+2], board[r+3][c+3]`. -/
def pLine (p : Nat × Nat) : List (Nat × Nat) :=
  [(p.1, p.2), (p.1 + 1, p.2 + 1), (p.1 + 2, p.2 + 2), (p.1 + 3, p.2 + 3)]

/-- Cells `board[r][c], board[r-1][c+1], board[r-2][c+2], board[r-3][c+3]`; the loops
keep `r ≥ 3`. -/
def nLine (p : Nat × Nat) : List (Nat × Nat) :=
  [(p.1, p.2), (p.1 - 1, p.2 + 1), (p.1 - 2, p.2 + 2), (p.1 - 3, p.2 + 3)]

/-- The chain `board[..] == p && board[..] == p && ..`: cells are read from the left
and reading stops at the first cell that differs from `p`. -/
def allEq (board : Board) (p : Int) : List (Nat × Nat) → Option Bool
  | [] => some true
  | q :: rest =>
    match cell board q.1 q.2 with
    | none => none
    | some v => if v = p then allEq board p rest else some false

/-- One loop body of `check_win`: `1` or `-1` when the body returns that value, `0` when
the loop goes on. -/
def lineWin (board : Board) (line : List (Nat × Nat)) : Option Int :=
  match allEq board 1 line with
  | none => none
  | some true => some 1
  | some false =>
    match allEq board (-1) line with
    | none => none
    | some true => some (-1)
    | some false => some 0

/-- Run the loop bodies in order until one of them returns; `0` when none does. -/
def scan (board : Board) : List (List (Nat × Nat)) → Option Int
  | [] => some 0
  | line :: rest =>
    match lineWin board line with
    | none => none
    | some w => if w ≠ 0 then some w else scan board rest

/-- The four-cell lines visited by the four loop nests of `check_win`, in the order of
the source: rows (`r` outer, `c < cols-3`), columns (`r < rows-3` outer, `c`), positive
diagonals (`r < rows-3` outer, `c < cols-3`), negative diagonals (`c < cols-3` outer,
`3 ≤ r < rows`).  A bound `cols-3` or `rows-3` that is not positive gives an empty loop,
as does the truncated subtraction. -/
def winLines (rows cols : Nat) : List (List (Nat × Nat)) :=
  (nest (List.range rows) (List.range (cols - 3))).map hLine
  ++ (nest (List.range (rows - 3)) (List.range cols)).map vLine
  ++ (nest (List.range (rows - 3)) (List.range (cols - 3))).map pLine
  ++ (nest (List.range (cols - 3)) (List.range' 3 (rows - 3))).map (fun p => nLine (p.2, p.1))

/-- The function `check_win`.  `len(board[0])` panics on a board without rows. -/
def check_win (board : Board) : Option Int :=
  match board[0]? with
  | none => none
  | some row0 => scan board (winLines board.length row0.length)

/-- The loop `for c := ..; c < cols; c++` of `valid_moves` over the remaining columns. -/
def validLoop (board : Board) (rows : Nat) (cs : List Nat) (moves : List Int) :
    Option (List Int) :=
  cs.foldlM
    (fun moves c =>
      match cell board (rows - 1) c with
      | none => none
      | some v => if v = 0 then some (moves ++ [(c : Int)]) else some moves)
    moves

/-- The function `valid_moves`. -/
def valid_moves (board : Board) : Option (List Int) :=
  if board.length = 0 then some []
  else
    match board[0]? with
    | none => none
    | some row0 => validLoop board board.length (List.range row0.length) []

/-- The assignment `board[r][col] = player`, done after `board[r][col]` was read. -/
def setCell (board : Board) (r : Nat) (col : Int) (player : Int) : Board :=
  board.modify (fun row => row.set col.toNat player) r

/-- The loop `for r := ..; r < rows; r++` of `make_move` and `makeMoveCopy`, with `n`
iterations left. -/
def dropLoop (board : Board) (player col : Int) : Nat → Nat → Option Board
  | 0, _ => some board
  | n + 1, r =>
    match cellI board r col with
    | none => none
    | some v =>
      if v = 0 then some (setCell board r col player)
      else dropLoop board player col n (r + 1)

/-- The function `make_move`; the updated board is the returned value. -/
def make_move (board : Board) (player col : Int) : Option Board :=
  dropLoop board player col board.length 0

/-- The function `makeMoveCopy`: the same loop, run on a deep copy. -/
def makeMoveCopy (board : Board) (col player : Int) : Option Board :=
  dropLoop board player col board.length 0

/-- The function `evaluateWindow`; the window holds four cells. -/
def evaluateWindow (window : List Int) : Int :=
  let redCount := window.count 1
  let yellowCount := window.count (-1)
  let score : Int := 0
  let score :=
    if redCount > 0 ∧ yellowCount = 0 then
      (if redCount = 3 then score + 50
       else if redCount = 2 then score + 10
       else if redCount = 1 then score + 1
       else score)
    else score
  let score :=
    if yellowCount > 0 ∧ redCount = 0 then
      (if yellowCount = 3 then score - 50
       else if yellowCount = 2 then score - 10
       else if yellowCount = 1 then score - 1
       else score)
    else score
  score

/-- The `if .. == 1 {score += 2} else if .. == -1 {score -= 2}` of the center loop. -/
def centerBonus (v : Int) : Int :=
  if v = 1 then 2 else if v = -1 then -2 else 0

/-- The center column loop of `evaluate_board`. -/
def centerLoop (board : Board) (centerCol1 centerCol2 : Int) (rs : List Nat)
    (score : Int) : Option Int :=
  rs.foldlM
    (fun score r =>
      match cellI board r centerCol1 with
      | none => none
      | some a =>
        match cellI board r centerCol2 with
        | none => none
        | some b => some (score + centerBonus a + centerBonus b))
    score

/-- The array literal `[4]int{board[..], board[..], board[..], board[..]}`. -/
def readWindow (board : Board) (line : List (Nat × Nat)) : Option (List Int) :=
  line.mapM (fun q => cell board q.1 q.2)

/-- The loops `score += evaluateWindow(window)` over a sequence of windows. -/
def windowLoop (board : Board) (lines : List (List (Nat × Nat))) (score : Int) :
    Option Int :=
  lines.foldlM
    (fun score line =>
      match readWindow board line with
      | none => none
      | some window => some (score + evaluateWindow window))
    score

/-- The windows visited by the four loop nests of `evaluate_board`, in the order of the
source: horizontal (`r` outer), vertical (`c` outer, `r < rows-3`), positive slope
(`r < rows-3` outer), negative slope (`3 ≤ r < rows` outer). -/
def evalLines (rows cols : Nat) : List (List (Nat × Nat)) :=
  (nest (List.range rows) (List.range (cols - 3))).map hLine
  ++ (nest (List.range cols) (List.range (rows - 3))).map (fun p => vLine (p.2, p.1))
  ++ (nest (List.range (rows - 3)) (List.range (cols - 3))).map pLine
  ++ (nest (List.range' 3 (rows - 3)) (List.range (cols - 3))).map nLine

/-- The function `evaluate_board`. -/
def evaluate_board (board : Board) : Option Int :=
  match board[0]? with
  | none => none
  | some row0 =>
    let rows : Nat := board.length
    let cols : Nat := row0.length
    let centerCol1 : Int := (cols : Int) / 2 - 1
    let centerCol2 : Int := (cols : Int) / 2
    match centerLoop board centerCol1 centerCol2 (List.range rows) 0 with
    | none => none
    | some score => windowLoop board (evalLines rows cols) score

/-- The loop of the maximizing branch of `minimax` over the remaining moves; `child` is
the recursive call `minimax(newBoard, depth-1, alpha, beta, false)`. -/
def maxLoop (child : Board → Int → Int → Option (Int × Int)) (board : Board) (beta : Int) :
    List Int → Int → Int → Int → Option (Int × Int)
  | [], _, bestVal, bestCol => some (bestVal, bestCol)
  | col :: rest, alpha, bestVal, bestCol =>
    match makeMoveCopy board col 1 with
    | none => none
    | some newBoard =>
      match child newBoard alpha beta with
      | none => none
      | some res =>
        let bestVal1 := if res.1 > bestVal then res.1 else bestVal
        let bestCol1 := if res.1 > bestVal then col else bestCol
        let alpha1 := max alpha bestVal1
        if beta ≤ alpha1 then some (bestVal1, bestCol1)
        else maxLoop child board beta rest alpha1 bestVal1 bestCol1

/-- The loop of the minimizing branch of `minimax` over the remaining moves; `child` is
the recursive call `minimax(newBoard, depth-1, alpha, beta, true)`. -/
def minLoop (child : Board → Int → Int → Option (Int × Int)) (board : Board) (alpha : Int) :
    List Int → Int → Int → Int → Option (Int × Int)
  | [], _, bestVal, bestCol => some (bestVal, bestCol)
  | col :: rest, beta, bestVal, bestCol =>
    match makeMoveCopy board col (-1) with
    | none => none
    | some newBoard =>
      match child newBoard alpha beta with
      | none => none
      | some res =>
        let bestVal1 := if res.1 < bestVal then res.1 else bestVal
        let bestCol1 := if res.1 < bestVal then col else bestCol
        let beta1 := min beta bestVal1
        if beta1 ≤ alpha then some (bestVal1, bestCol1)
        else minLoop child board alpha rest beta1 bestVal1 bestCol1

/-- The function `minimax` with a bound on the nesting of recursive calls; `none` is
returned when the bound is used up (and when the code panics). -/
def minimaxFuel : Nat → Board → Int → Int → Int → Bool → Option (Int × Int)
  | 0, _, _, _, _, _ => none
  | fuel + 1, board, depth, alpha, beta, maximizingPlayer =>
    match valid_moves board with
    | none => none
    | some validMoves =>
      match check_win board with
      | none => none
      | some winner =>
        if winner ≠ 0 ∨ depth = 0 ∨ validMoves.length = 0 then
          if winner ≠ 0 then some (wrapInt (winner * (depth + 1) * WIN_SCORE), -1)
          else if depth = 0 then
            match evaluate_board board with
            | none => none
            | some score => some (score, -1)
          else some (0, -1)
        else
          match validMoves with
          | [] => none
          | bestCol :: _ =>
            if maximizingPlayer then
              maxLoop (fun b a β => minimaxFuel fuel b (wrapInt (depth - 1)) a β false)
                board beta validMoves alpha MinInt32 bestCol
            else
              minLoop (fun b a β => minimaxFuel fuel b (wrapInt (depth - 1)) a β true)
                board alpha validMoves beta MaxInt32 bestCol

/-- Number of cells of the board that hold `0`. -/
def emptyCells (board : Board) : Nat :=
  (board.map (fun row => row.count 0)).sum

/-- The function `minimax`.  Every recursive call is made on a board with one empty cell
less, so `emptyCells board + 1` nested calls are never used up. -/
def minimax (board : Board) (depth alpha beta : Int) (maximizingPlayer : Bool) :
    Option (Int × Int) :=
  minimaxFuel (emptyCells board + 1) board depth alpha beta maximizingPlayer

/-! ## Vocabulary of the specification -/

/-- Every row of the board has `cols` cells (the board is rectangular). -/
def Rect (board : Board) (cols : Nat) : Prop :=
  ∀ row ∈ board, row.length = cols

instance instDecidableRect (board : Board) (cols : Nat) : Decidable (Rect board cols) :=
  inferInstanceAs (Decidable (∀ row ∈ board, row.length = cols))

/-- Every cell of the board holds `-1`, `0` or `1`. -/
def CellsOK (board : Board) : Prop :=
  ∀ row ∈ board, ∀ v ∈ row, v = -1 ∨ v = 0 ∨ v = 1

instance instDecidableCellsOK (board : Board) : Decidable (CellsOK board) :=
  inferInstanceAs (Decidable (∀ row ∈ board, ∀ v ∈ row, v = -1 ∨ v = 0 ∨ v = 1))

/-- All cells of the line exist on the board and hold `p`. -/
def LineOf (board : Board) (p : Int) (line : List (Nat × Nat)) : Prop :=
  ∀ q ∈ line, cell board q.1 q.2 = some p

instance instDecidableLineOf (board : Board) (p : Int) (line : List (Nat × Nat)) :
    Decidable (LineOf board p line) :=
  inferInstanceAs (Decidable (∀ q ∈ line, cell board q.1 q.2 = some p))

/-- Four consecutive cells along a row, a column, an ascending diagonal or a descending
diagonal of the board all hold `p`. -/
def HasLine (board : Board) (p : Int) : Prop :=
  ∃ r c : Nat, LineOf board p (hLine (r, c)) ∨ LineOf board p (vLine (r, c))
    ∨ LineOf board p (pLine (r, c)) ∨ LineOf board p (nLine (r + 3, c))

/-- The 6x7 board whose only discs are `+1` at row 0, columns 0, 1 and 2. -/
def boardThree : Board :=
  [[1, 1, 1, 0, 0, 0, 0],
   [0, 0, 0, 0, 0, 0, 0],
   [0, 0, 0, 0, 0, 0, 0],
   [0, 0, 0, 0, 0, 0, 0],
   [0, 0, 0, 0, 0, 0, 0],
   [0, 0, 0, 0, 0, 0, 0]]

/-- A 6x7 board with a descending diagonal of `-1` from row 3, column 0 to row 0, column 3. -/
def boardDiag : Board :=
  [[1, 1, 1, -1, 0, 0, 0],
   [-1, 1, -1, 0, 0, 0, 0],
   [1, -1, 0, 0, 0, 0, 0],
   [-1, 0, 0, 0, 0, 0, 0],
   [0, 0, 0, 0, 0, 0, 0],
   [0, 0, 0, 0, 0, 0, 0]]

/-- A 6x7 position after 39 moves, `-1` to move: `+1` threatens row 4, column 1 and `-1`
can win at once in column 3. -/
def boardBlunder : Board :=
  [[1, 1, -1, -1, 1, -1, 1],
   [-1, 1, 1, -1, 1, -1, 1],
   [1, -1, -1, 1, 1, -1, -1],
   [-1, 1, -1, 1, -1, 1, -1],
   [1, 0, 1, 1, 1, -1, 1],
   [-1, 0, -1, 0, -1, -1, 1]]

/-! ## The search without pruning -/

/-- The loop of the maximizing branch without `alpha`, `beta` and the `break`. -/
def plainMaxLoop (child : Board → Option (Int × Int)) (board : Board) :
    List Int → Int → Int → Option (Int × Int)
  | [], bestVal, bestCol => some (bestVal, bestCol)
  | col :: rest, bestVal, bestCol =>
    match makeMoveCopy board col 1 with
    | none => none
    | some newBoard =>
      match child newBoard with
      | none => none
      | some res =>
        let bestVal1 := if res.1 > bestVal then res.1 else bestVal
        let bestCol1 := if res.1 > bestVal then col else bestCol
        plainMaxLoop child board rest bestVal1 bestCol1

/-- The loop of the minimizing branch without `alpha`, `beta` and the `break`. -/
def plainMinLoop (child : Board → Option (Int × Int)) (board : Board) :
    List Int → Int → Int → Option (Int × Int)
  | [], bestVal, bestCol => some (bestVal, bestCol)
  | col :: rest, bestVal, bestCol =>
    match makeMoveCopy board col (-1) with
    | none => none
    | some newBoard =>
      match child newBoard with
      | none => none
      | some res =>
        let bestVal1 := if res.1 < bestVal then res.1 else bestVal
        let bestCol1 := if res.1 < bestVal then col else bestCol
        plainMinLoop child board rest bestVal1 bestCol1

/-- The recursion of `minimax` without `alpha`, `beta` and the two `break` statements:
the same base cases, the maximum over all legal columns when `+1` is to move and the
minimum when `-1` is to move, the first column that reaches it being kept. -/
def plainMinimaxFuel : Nat → Board → Int → Bool → Option (Int × Int)
  | 0, _, _, _ => none
  | fuel + 1, board, depth, maximizingPlayer =>
    match valid_moves board with
    | none => none
    | some validMoves =>
      match check_win board with
      | none => none
      | some winner =>
        if winner ≠ 0 ∨ depth = 0 ∨ validMoves.length = 0 then
          if winner ≠ 0 then some (wrapInt (winner * (depth + 1) * WIN_SCORE), -1)
          else if depth = 0 then
            match evaluate_board board with
            | none => none
            | some score => some (score, -1)
          else some (0, -1)
        else
          match validMoves with
          | [] => none
          | bestCol :: _ =>
            if maximizingPlayer then
              plainMaxLoop (fun b => plainMinimaxFuel fuel b (wrapInt (depth - 1)) false)
                board validMoves MinInt32 bestCol
            else
              plainMinLoop (fun b => plainMinimaxFuel fuel b (wrapInt (depth - 1)) true)
                board validMoves MaxInt32 bestCol

/-- The unpruned search, with the same bound on nested calls as `minimax`. -/
def plainMinimax (board : Board) (depth : Int) (maximizingPlayer : Bool) :
    Option (Int × Int) :=
  plainMinimaxFuel (emptyCells board + 1) board depth maximizingPlayer

/-- The exact (unpruned) value of dropping a disc of `player` in column `col`: the score
of the unpruned search on the successor board, `depth` plies deep, the other side to
move. -/
def exactValue (board : Board) (player col depth : Int) : Option Int :=
  match makeMoveCopy board col player with
  | none => none
  | some newBoard =>
    match plainMinimax newBoard depth (decide (player = -1)) with
    | none => none
    | some res => some res.1

/-- How the score `w` of a search with window `(alpha, beta)` relates to the exact
score `v`: it is exact inside the window, and a bound on the exact score in the
direction of the failure outside. -/
def WindowSound (alpha beta w v : Int) : Prop :=
  (w ≤ alpha → v ≤ w) ∧ (beta ≤ w → w ≤ v) ∧ (alpha < w → w < beta → v = w)

/-- A column `c` is safe for `+1`: after dropping `+1` in `c`, either `+1` has won or no
legal reply column of `-1` gives a board with `check_win = -1`. -/
def safeColumn (board : Board) (c : Int) : Bool :=
  match make_move board 1 c with
  | none => false
  | some b =>
    if check_win b = some 1 then true
    else
      match valid_moves b with
      | none => false
      | some replies =>
        replies.all (fun r =>
          match make_move b (-1) r with
          | none => false
          | some b2 => decide (check_win b2 ≠ some (-1)))

/-- A 6x7 position, `+1` to move: `-1` threatens to complete row 0 in column 3. -/
def boardThreat : Board :=
  [[-1, -1, -1, 0, 1, 1, 0],
   [1, 0, 0, 0, 0, 0, 0],
   [0, 0, 0, 0, 0, 0, 0],
   [0, 0, 0, 0, 0, 0, 0],
   [0, 0, 0, 0, 0, 0, 0],
   [0, 0, 0, 0, 0, 0, 0]]

/-- No cell of column `c` above row `r` holds a disc when the cell in row `r` holds `0`. -/
def EmptyAbove (board : Board) (c r : Nat) : Prop :=
  ∀ r2 < board.length, r < r2 → cell board r c = some 0 → cell board r2 c = some 0

instance instDecidableEmptyAbove (board : Board) (c r : Nat) :
    Decidable (EmptyAbove board c r) :=
  inferInstanceAs (Decidable (∀ r2 < board.length, r < r2 →
    cell board r c = some 0 → cell board r2 c = some 0))

/-- Gravity: in every column of the board no cell holding `0` lies below a cell that does
not hold `0`, so the non-zero cells form a contiguous run starting at row 0. -/
def Gravity (board : Board) (cols : Nat) : Prop :=
  ∀ c < cols, ∀ r < board.length, EmptyAbove board c r

instance instDecidableGravity (board : Board) (cols : Nat) : Decidable (Gravity board cols) :=
  inferInstanceAs (Decidable (∀ c < cols, ∀ r < board.length, EmptyAbove board c r))

/-- The board with every cell negated: all `+1` and `-1` discs swapped. -/
def negBoard (board : Board) : Board :=
  board.map (fun row => row.map (fun v => -v))

/-- A board of 6 rows and 1 column, all cells empty. -/
def boardOneColumn : Board :=
  [[0], [0], [0], [0], [0], [0]]

/-- The sum of the cells of column `c`, cells that cannot be read counting 0. -/
def columnSum (board : Board) (c : Nat) : Int :=
  ((List.range board.length).map (fun r => (cell board r c).getD 0)).sum

/-- The 6x7 board whose only disc is a `+1` at row 0, column 2. -/
def boardDiscCol2 : Board :=
  [[0, 0, 1, 0, 0, 0, 0],
   [0, 0, 0, 0, 0, 0, 0],
   [0, 0, 0, 0, 0, 0, 0],
   [0, 0, 0, 0, 0, 0, 0],
   [0, 0, 0, 0, 0, 0, 0],
   [0, 0, 0, 0, 0, 0, 0]]

/-- The 6x7 board whose only disc is a `+1` at row 0, column 4. -/
def boardDiscCol4 : Board :=
  [[0, 0, 0, 0, 1, 0, 0],
   [0, 0, 0, 0, 0, 0, 0],
   [0, 0, 0, 0, 0, 0, 0],
   [0, 0, 0, 0, 0, 0, 0],
   [0, 0, 0, 0, 0, 0, 0],
   [0, 0, 0, 0, 0, 0, 0]]

/-- The number of discs in column `col`: the rows whose cell in that column is not `0`. -/
def discsInColumn (board : Board) (col : Int) : Nat :=
  ((List.range board.length).filter (fun r => decide (cellI board r col ≠ some 0))).length

/-- The computer-move step of `computerMoveHandler`:
`_, col := minimax(board, MAX_DEPTH, math.MinInt32, math.MaxInt32, true)` followed by
`newBoard := make_move(board, -1, col)`. -/
def computerMove (board : Board) : Option Board :=
  match minimax board MAX_DEPTH MinInt32 MaxInt32 true with
  | none => none
  | some res => make_move board (-1) res.2

/-! ## Evaluation of the search on a bit encoding of 6x7 boards

The definitions of this section are not part of the model of the source.  They compute
the same results as `check_win`, `valid_moves`, `makeMoveCopy`, `evaluate_board` and
`minimax` on a 6x7 board that is given by two sets of bits, one for the cells holding `+1`
and one for the cells holding `-1`, the cell in row `r` and column `c` having the index
`7 * r + c`.  They are proved equal to the model below and serve to evaluate the search
on the empty board. -/

/-- Apply `k` to `x`, after `x` was computed. -/
def forceNat {α : Type} (x : Nat) (k : Nat → α) : α :=
  match x with
  | 0 => k 0
  | m + 1 => k (m + 1)

/-- Apply `k` to `x`, after `x` was computed. -/
def forceInt {α : Type} (x : Int) (k : Int → α) : α :=
  match x with
  | Int.ofNat n => forceNat n (fun n2 => k (Int.ofNat n2))
  | Int.negSucc n => forceNat n (fun n2 => k (Int.negSucc n2))

/-- The value of the cell with index `i` in the encoding by `red` and `yel`. -/
def bitGet (red yel i : Nat) : Int :=
  if red.testBit i then (if yel.testBit i then 2 else 1)
  else if yel.testBit i then -1 else 0

/-- The bit sets `red` and `yel` encode the cells of the 6x7 board. -/
def Encodes (red yel : Nat) (board : Board) : Prop :=
  ∀ r < 6, ∀ c < 7, cell board r c = some (bitGet red yel (7 * r + c))

instance instDecidableEncodes (red yel : Nat) (board : Board) :
    Decidable (Encodes red yel board) :=
  inferInstanceAs (Decidable (∀ r < 6, ∀ c < 7,
    cell board r c = some (bitGet red yel (7 * r + c))))

/-- The cell with index `i` holds `0` in the encoding. -/
def isEmp (red yel i : Nat) : Bool :=
  !red.testBit i && !yel.testBit i

/-- The legal columns of the encoded board, as `valid_moves` lists them. -/
def fastMoves (red yel : Nat) : List Int :=
  (([0, 1, 2, 3, 4, 5, 6] : List Nat).filter (fun c => isEmp red yel (35 + c))).map
    (fun c : Nat => (c : Int))

/-- The indices of the cells of a line. -/
def lineIdx (line : List (Nat × Nat)) : List Nat :=
  line.map (fun q => 7 * q.1 + q.2)

/-- The result of one loop body of `check_win` on the encoded board. -/
def fastLine (red yel : Nat) (idxs : List Nat) : Int :=
  if idxs.all (fun i => decide (bitGet red yel i = 1)) then 1
  else if idxs.all (fun i => decide (bitGet red yel i = -1)) then -1
  else 0

/-- The scanning loops of `check_win` on the encoded board. -/
def fastScan (red yel : Nat) : List (List Nat) → Int
  | [] => 0
  | idxs :: rest =>
    if fastLine red yel idxs ≠ 0 then fastLine red yel idxs else fastScan red yel rest

/-- Some index `j` has the bits `j`, `j + s`, `j + 2 * s` and `j + 3 * s` of `x` set. -/
def four (x s : Nat) : Bool :=
  ((x &&& (x >>> s)) &&& ((x &&& (x >>> s)) >>> (2 * s))) != 0

/-- A necessary condition for a line of four set bits along a row (step 1), a column
(step 7) or a diagonal (steps 8 and 6). -/
def anyFour (x : Nat) : Bool :=
  four x 1 || four x 7 || four x 8 || four x 6

/-- The value of `check_win` on the encoded board: the lines are scanned only when the
necessary condition holds for one of the sides. -/
def fastWin (red yel : Nat) : Int :=
  if anyFour red || anyFour yel then fastScan red yel ((winLines 6 7).map lineIdx) else 0

/-- The bits of `x` that are not bits of `y`. -/
def pureBits (x y : Nat) : Nat :=
  x ^^^ (x &&& y)

/-- Bit `i` of `x` as a number. -/
def bitAt (x i : Nat) : Nat :=
  (x >>> i) % 2

/-- The number of set bits of `x` among four indices. -/
def cnt4 (x i0 i1 i2 i3 : Nat) : Nat :=
  bitAt x i0 + bitAt x i1 + bitAt x i2 + bitAt x i3

/-- The score of a window of one side with `k` discs. -/
def tblN (k : Nat) : Nat :=
  if k = 1 then 1 else if k = 2 then 10 else if k = 3 then 50 else 0

/-- The four cell indices of a four-cell line. -/
def tupleOf (line : List (Nat × Nat)) : Nat × Nat × Nat × Nat :=
  match lineIdx line with
  | [i0, i1, i2, i3] => (i0, i1, i2, i3)
  | _ => (0, 0, 0, 0)

/-- The windows of `evaluate_board` on a 6x7 board, in the order of `evalLines 6 7`, each
given by the indices `7 * row + column` of its four cells. -/
def evalIdx : List (Nat × Nat × Nat × Nat) :=
  [(0, 1, 2, 3), (1, 2, 3, 4), (2, 3, 4, 5), (3, 4, 5, 6), (7, 8, 9, 10), (8, 9, 10, 11),
   (9, 10, 11, 12), (10, 11, 12, 13), (14, 15, 16, 17), (15, 16, 17, 18), (16, 17, 18, 19),
   (17, 18, 19, 20), (21, 22, 23, 24), (22, 23, 24, 25), (23, 24, 25, 26), (24, 25, 26, 27),
   (28, 29, 30, 31), (29, 30, 31, 32), (30, 31, 32, 33), (31, 32, 33, 34), (35, 36, 37, 38),
   (36, 37, 38, 39), (37, 38, 39, 40), (38, 39, 40, 41), (0, 7, 14, 21), (7, 14, 21, 28),
   (14, 21, 28, 35), (1, 8, 15, 22), (8, 15, 22, 29), (15, 22, 29, 36), (2, 9, 16, 23), (9,
   16, 23, 30), (16, 23, 30, 37), (3, 10, 17, 24), (10, 17, 24, 31), (17, 24, 31, 38), (4,
   11, 18, 25), (11, 18, 25, 32), (18, 25, 32, 39), (5, 12, 19, 26), (12, 19, 26, 33), (19,
   26, 33, 40), (6, 13, 20, 27), (13, 20, 27, 34), (20, 27, 34, 41), (0, 8, 16, 24), (1, 9,
   17, 25), (2, 10, 18, 26), (3, 11, 19, 27), (7, 15, 23, 31), (8, 16, 24, 32), (9, 17, 25,
   33), (10, 18, 26, 34), (14, 22, 30, 38), (15, 23, 31, 39), (16, 24, 32, 40), (17, 25, 33,
   41), (21, 15, 9, 3), (22, 16, 10, 4), (23, 17, 11, 5), (24, 18, 12, 6), (28, 22, 16, 10),
   (29, 23, 17, 11), (30, 24, 18, 12), (31, 25, 19, 13), (35, 29, 23, 17), (36, 30, 24, 18),
   (37, 31, 25, 19), (38, 32, 26, 20)]

/-- The window loops of `evaluate_board` on the encoded board: `p` collects the scores of
the windows of `+1`, `n` those of the windows of `-1`; `pr` and `py` are the bits of the
cells holding `+1` and `-1`. -/
def fastEvalLoop (pr py : Nat) : List (Nat × Nat × Nat × Nat) → Nat → Nat → Int
  | [], p, n => (p : Int) - (n : Int)
  | (i0, i1, i2, i3) :: rest, p, n =>
    match cnt4 pr i0 i1 i2 i3, cnt4 py i0 i1 i2 i3 with
    | 0, 0 => fastEvalLoop pr py rest p n
    | rc + 1, 0 => forceNat (p + tblN (rc + 1)) fun p2 => fastEvalLoop pr py rest p2 n
    | 0, yc + 1 => forceNat (n + tblN (yc + 1)) fun n2 => fastEvalLoop pr py rest p n2
    | _ + 1, _ + 1 => fastEvalLoop pr py rest p n

/-- The center column loop of `evaluate_board` on the encoded 7-column board. -/
def fastCenter (pr py : Nat) : List Nat → Nat → Nat → Nat × Nat
  | [], p, n => (p, n)
  | r :: rest, p, n =>
    fastCenter pr py rest
      (p + 2 * bitAt pr (7 * r + 2) + 2 * bitAt pr (7 * r + 3))
      (n + 2 * bitAt py (7 * r + 2) + 2 * bitAt py (7 * r + 3))

/-- The value of `evaluate_board` on the encoded board. -/
def fastEval (red yel : Nat) : Int :=
  forceNat (pureBits red yel) fun pr =>
  forceNat (pureBits yel red) fun py =>
  forceNat (fastCenter pr py [0, 1, 2, 3, 4, 5] 0 0).1 fun p =>
  forceNat (fastCenter pr py [0, 1, 2, 3, 4, 5] 0 0).2 fun n =>
  fastEvalLoop pr py evalIdx p n

/-- The drop loop on the encoded board, with `n` iterations left: the index of the first
cell of column `c`, from row `r` upward, that holds `0`. -/
def fastDrop (red yel c : Nat) : Nat → Nat → Option Nat
  | 0, _ => none
  | n + 1, r =>
    if isEmp red yel (7 * r + c) then some (7 * r + c) else fastDrop red yel c n (r + 1)

/-- The loop of the maximizing branch of `minimax` on the encoded board. -/
def fastMaxLoop (child : Nat → Nat → Int → Int → Option (Int × Int)) (red yel : Nat)
    (beta : Int) : List Int → Int → Int → Int → Option (Int × Int)
  | [], _, bestVal, bestCol => some (bestVal, bestCol)
  | col :: rest, alpha, bestVal, bestCol =>
    match fastDrop red yel col.toNat 6 0 with
    | none => none
    | some i =>
      forceNat (red ||| (1 <<< i)) fun red2 =>
      match child red2 yel alpha beta with
      | none => none
      | some res =>
        forceInt res.1 fun val =>
        forceInt (if val > bestVal then val else bestVal) fun bestVal1 =>
        forceInt (if val > bestVal then col else bestCol) fun bestCol1 =>
        forceInt (max alpha bestVal1) fun alpha1 =>
        if beta ≤ alpha1 then some (bestVal1, bestCol1)
        else fastMaxLoop child red yel beta rest alpha1 bestVal1 bestCol1

/-- The loop of the minimizing branch of `minimax` on the encoded board. -/
def fastMinLoop (child : Nat → Nat → Int → Int → Option (Int × Int)) (red yel : Nat)
    (alpha : Int) : List Int → Int → Int → Int → Option (Int × Int)
  | [], _, bestVal, bestCol => some (bestVal, bestCol)
  | col :: rest, beta, bestVal, bestCol =>
    match fastDrop red yel col.toNat 6 0 with
    | none => none
    | some i =>
      forceNat (yel ||| (1 <<< i)) fun yel2 =>
      match child red yel2 alpha beta with
      | none => none
      | some res =>
        forceInt res.1 fun val =>
        forceInt (if val < bestVal then val else bestVal) fun bestVal1 =>
        forceInt (if val < bestVal then col else bestCol) fun bestCol1 =>
        forceInt (min beta bestVal1) fun beta1 =>
        if beta1 ≤ alpha then some (bestVal1, bestCol1)
        else fastMinLoop child red yel alpha rest beta1 bestVal1 bestCol1

/-- The function `minimaxFuel` on the encoded board; a call that finds the bound on the
nesting used up is answered by `base`. -/
def fastSearch (base : Nat → Nat → Int → Int → Int → Bool → Option (Int × Int)) :
    Nat → Nat → Nat → Int → Int → Int → Bool → Option (Int × Int)
  | 0, red, yel, depth, alpha, beta, maximizingPlayer =>
    base red yel depth alpha beta maximizingPlayer
  | fuel + 1, red, yel, depth, alpha, beta, maximizingPlayer =>
    if fastWin red yel ≠ 0 ∨ depth = 0 ∨ (fastMoves red yel).length = 0 then
      if fastWin red yel ≠ 0 then
        some (wrapInt (fastWin red yel * (depth + 1) * WIN_SCORE), -1)
      else if depth = 0 then some (fastEval red yel, -1)
      else some (0, -1)
    else
      match fastMoves red yel with
      | [] => none
      | bestCol :: _ =>
        if maximizingPlayer then
          fastMaxLoop
            (fun r y a b => fastSearch base fuel r y (wrapInt (depth - 1)) a b false)
            red yel beta (fastMoves red yel) alpha MinInt32 bestCol
        else
          fastMinLoop
            (fun r y a b => fastSearch base fuel r y (wrapInt (depth - 1)) a b true)
            red yel alpha (fastMoves red yel) beta MaxInt32 bestCol

/-- The base of `minimaxFuel`: a call that finds the bound used up returns `none`. -/
def noBase : Nat → Nat → Int → Int → Int → Bool → Option (Int × Int) :=
  fun _ _ _ _ _ _ => none

/-- Calls of the search (the two bit sets, `depth`, `alpha`, `beta`, `maximizingPlayer`)
with their results. -/
abbrev CallTable := List ((Nat × Nat × Int × Int × Int × Bool) × Option (Int × Int))

/-- The result that the table records for a call, if any. -/
def lookupCall (key : Nat × Nat × Int × Int × Int × Bool) :
    CallTable → Option (Option (Int × Int))
  | [] => none
  | (k, v) :: rest => if k = key then some v else lookupCall key rest

/-- Answer a call from the table when the table records it, by `f` otherwise. -/
def memoBase (table : CallTable)
    (f : Nat → Nat → Int → Int → Int → Bool → Option (Int × Int)) :
    Nat → Nat → Int → Int → Int → Bool → Option (Int × Int) :=
  fun red yel depth alpha beta maximizingPlayer =>
    match lookupCall (red, yel, depth, alpha, beta, maximizingPlayer) table with
    | some res => res
    | none => f red yel depth alpha beta maximizingPlayer

/-- The calls `minimax(.., 3, alpha, beta, true)` that the search of depth 5 on the empty
board makes two moves below the root, with their results. -/
def openingTable : CallTable :=
  [((1, 128, 3, -2147483648, 2147483647, true), some (20, 3)),
   ((1, 2, 3, -2147483648, 20, true), some (20, 1)),
   ((1, 4, 3, -2147483648, 20, true), some (14, 2)),
   ((1, 8, 3, -2147483648, 14, true), some (12, 0)),
   ((1, 16, 3, -2147483648, 12, true), some (13, 0)),
   ((1, 32, 3, -2147483648, 12, true), some (12, 0)),
   ((1, 64, 3, -2147483648, 12, true), some (13, 0)),
   ((2, 1, 3, 12, 2147483647, true), some (24, 2)),
   ((2, 256, 3, 12, 24, true), some (24, 3)),
   ((2, 4, 3, 12, 24, true), some (28, 1)),
   ((2, 8, 3, 12, 24, true), some (17, 3)),
   ((2, 16, 3, 12, 17, true), some (17, 3)),
   ((2, 32, 3, 12, 17, true), some (19, 1)),
   ((2, 64, 3, 12, 17, true), some (17, 1)),
   ((4, 1, 3, 17, 2147483647, true), some (33, 3)),
   ((4, 2, 3, 17, 33, true), some (33, 3)),
   ((4, 512, 3, 17, 33, true), some (36, 3)),
   ((4, 8, 3, 17, 33, true), some (36, 2)),
   ((4, 16, 3, 17, 33, true), some (33, 3)),
   ((4, 32, 3, 17, 33, true), some (33, 3)),
   ((4, 64, 3, 17, 33, true), some (38, 2)),
   ((8, 1, 3, 33, 2147483647, true), some (53, 4)),
   ((8, 2, 3, 33, 53, true), some (33, 2)),
   ((16, 1, 3, 33, 2147483647, true), some (53, 3)),
   ((16, 2, 3, 33, 53, true), some (31, 3)),
   ((32, 1, 3, 33, 2147483647, true), some (27, 3)),
   ((64, 1, 3, 33, 2147483647, true), some (27, 2))]

/-- The empty 6x7 board. -/
def emptyBoard : Board :=
  [[0, 0, 0, 0, 0, 0, 0],
   [0, 0, 0, 0, 0, 0, 0],
   [0, 0, 0, 0, 0, 0, 0],
   [0, 0, 0, 0, 0, 0, 0],
   [0, 0, 0, 0, 0, 0, 0],
   [0, 0, 0, 0, 0, 0, 0]]

/-! # Verified properties

All definitions of the development are above this point; only theorems follow. -/

/-! ## Reading cells of a rectangular board -/

theorem cell_some_of_rect {board : Board} {cols : Nat} (h : Rect board cols) {r c : Nat}
    (hr : r < board.length) (hc : c < cols) : ∃ v, cell board r c = some v := by
  unfold cell
  rw [List.getElem?_eq_getElem hr]
  have hlen : (board[r]).length = cols := h _ (List.getElem_mem hr)
  have hc2 : c < (board[r]).length := by omega
  exact ⟨_, List.getElem?_eq_getElem hc2⟩

theorem cell_bounds_of_rect {board : Board} {cols : Nat} (h : Rect board cols) {r c : Nat}
    {v : Int} (hv : cell board r c = some v) : r < board.length ∧ c < cols := by
  unfold cell at hv
  by_cases hr : r < board.length
  · rw [List.getElem?_eq_getElem hr] at hv
    have hlen : (board[r]).length = cols := h _ (List.getElem_mem hr)
    simp only at hv
    have hc : c < (board[r]).length := by
      by_contra hcon
      rw [List.getElem?_eq_none (by omega)] at hv
      cases hv
    exact ⟨hr, by omega⟩
  · rw [List.getElem?_eq_none (by omega)] at hv
    cases hv

theorem rect_head {board : Board} {cols : Nat} (h : Rect board cols) {row0 : List Int}
    (h0 : board[0]? = some row0) : row0.length = cols :=
  h _ (List.getElem?_mem h0)

theorem head_of_pos {board : Board} (h : 0 < board.length) :
    ∃ row0, board[0]? = some row0 :=
  ⟨_, List.getElem?_eq_getElem h⟩

/-! ## `check_win` -/

theorem allEq_spec (board : Board) (p : Int) (line : List (Nat × Nat))
    (hread : ∀ q ∈ line, ∃ v, cell board q.1 q.2 = some v) :
    allEq board p line = some (decide (LineOf board p line)) := by
  induction line with
  | nil => simp [allEq, LineOf]
  | cons q rest ih =>
    obtain ⟨v, hv⟩ := hread q (List.mem_cons_self _ _)
    have ih2 := ih (fun q2 hq2 => hread q2 (List.mem_cons_of_mem _ hq2))
    unfold allEq
    rw [hv]
    by_cases hvp : v = p
    · subst hvp
      simp only [if_true, ih2]
      congr 1
      simp [LineOf, hv]
    · simp only [hvp, if_false]
      congr 1
      simp [LineOf, hv, hvp]

theorem lineOf_one_not_neg {board : Board} {line : List (Nat × Nat)} (hne : line ≠ [])
    (h1 : LineOf board 1 line) : ¬ LineOf board (-1) line := by
  intro h2
  cases line with
  | nil => exact hne rfl
  | cons q rest =>
    have a := h1 q (List.mem_cons_self _ _)
    have b := h2 q (List.mem_cons_self _ _)
    rw [a] at b
    cases b

theorem lineWin_spec (board : Board) (line : List (Nat × Nat))
    (hread : ∀ q ∈ line, ∃ v, cell board q.1 q.2 = some v) :
    lineWin board line =
      some (if LineOf board 1 line then 1 else if LineOf board (-1) line then -1 else 0) := by
  unfold lineWin
  rw [allEq_spec board 1 line hread, allEq_spec board (-1) line hread]
  by_cases h1 : LineOf board 1 line <;> by_cases h2 : LineOf board (-1) line <;> simp [h1, h2]

/-- The result of the scanning loops over lines whose cells can all be read. -/
theorem scan_spec (board : Board) (lines : List (List (Nat × Nat)))
    (hread : ∀ line ∈ lines, ∀ q ∈ line, ∃ v, cell board q.1 q.2 = some v)
    (hne : ∀ line ∈ lines, line ≠ []) :
    ∃ w, scan board lines = some w ∧ (w = 1 ∨ w = -1 ∨ w = 0)
      ∧ (w ≠ 0 → ∃ line ∈ lines, LineOf board w line)
      ∧ (w = 0 → ∀ line ∈ lines, ¬ LineOf board 1 line ∧ ¬ LineOf board (-1) line) := by
  induction lines with
  | nil => exact ⟨0, rfl, by simp, by simp, by simp⟩
  | cons line rest ih =>
    obtain ⟨w, hw, hrange, hnz, hz⟩ :=
      ih (fun l hl => hread l (List.mem_cons_of_mem _ hl))
        (fun l hl => hne l (List.mem_cons_of_mem _ hl))
    have hl := lineWin_spec board line (hread line (List.mem_cons_self _ _))
    have hlne := hne line (List.mem_cons_self _ _)
    unfold scan
    rw [hl]
    by_cases h1 : LineOf board 1 line
    · refine ⟨1, by simp [h1], by simp, ?_, by simp⟩
      intro _
      exact ⟨line, List.mem_cons_self _ _, h1⟩
    · by_cases h2 : LineOf board (-1) line
      · refine ⟨-1, by simp [h1, h2], by simp, ?_, by simp⟩
        intro _
        exact ⟨line, List.mem_cons_self _ _, h2⟩
      · refine ⟨w, by simp [h1, h2, hw], hrange, ?_, ?_⟩
        · intro hw0
          obtain ⟨l, hlm, hlo⟩ := hnz hw0
          exact ⟨l, List.mem_cons_of_mem _ hlm, hlo⟩
        · intro hw0 l hlm
          rcases List.mem_cons.1 hlm with rfl | hlm2
          · exact ⟨h1, h2⟩
          · exact hz hw0 l hlm2

theorem mem_nest {a b : Nat} {outer inner : List Nat} :
    (a, b) ∈ nest outer inner ↔ a ∈ outer ∧ b ∈ inner := by
  simp [nest, List.mem_product]

theorem mem_winLines {rows cols : Nat} {line : List (Nat × Nat)} :
    line ∈ winLines rows cols ↔
      ∃ r c : Nat, (line = hLine (r, c) ∧ r < rows ∧ c + 3 < cols)
        ∨ (line = vLine (r, c) ∧ r + 3 < rows ∧ c < cols)
        ∨ (line = pLine (r, c) ∧ r + 3 < rows ∧ c + 3 < cols)
        ∨ (line = nLine (r + 3, c) ∧ r + 3 < rows ∧ c + 3 < cols) := by
  simp only [winLines, List.mem_append, List.mem_map, Prod.exists, mem_nest, List.mem_range,
    List.mem_range'_1]
  constructor
  · rintro (((⟨r, c, ⟨hr, hc⟩, rfl⟩ | ⟨r, c, ⟨hr, hc⟩, rfl⟩) | ⟨r, c, ⟨hr, hc⟩, rfl⟩)
      | ⟨c, r, ⟨hc, hr⟩, rfl⟩)
    · exact ⟨r, c, Or.inl ⟨rfl, hr, by omega⟩⟩
    · exact ⟨r, c, Or.inr (Or.inl ⟨rfl, by omega, hc⟩)⟩
    · exact ⟨r, c, Or.inr (Or.inr (Or.inl ⟨rfl, by omega, by omega⟩))⟩
    · refine ⟨r - 3, c, Or.inr (Or.inr (Or.inr ⟨?_, by omega, by omega⟩))⟩
      have : r - 3 + 3 = r := by omega
      rw [this]
  · rintro ⟨r, c, (⟨rfl, hr, hc⟩ | ⟨rfl, hr, hc⟩ | ⟨rfl, hr, hc⟩ | ⟨rfl, hr, hc⟩)⟩
    · exact Or.inl (Or.inl (Or.inl ⟨r, c, ⟨hr, by omega⟩, rfl⟩))
    · exact Or.inl (Or.inl (Or.inr ⟨r, c, ⟨by omega, hc⟩, rfl⟩))
    · exact Or.inl (Or.inr ⟨r, c, ⟨by omega, by omega⟩, rfl⟩)
    · exact Or.inr ⟨c, r + 3, ⟨by omega, by omega, by omega⟩, rfl⟩

theorem winLines_inBounds {rows cols : Nat} {line : List (Nat × Nat)}
    (h : line ∈ winLines rows cols) : line ≠ [] ∧ ∀ q ∈ line, q.1 < rows ∧ q.2 < cols := by
  obtain ⟨r, c, (⟨rfl, hr, hc⟩ | ⟨rfl, hr, hc⟩ | ⟨rfl, hr, hc⟩ | ⟨rfl, hr, hc⟩)⟩ :=
    mem_winLines.1 h
  all_goals
    refine ⟨by simp [hLine, vLine, pLine, nLine], ?_⟩
    intro q hq
    simp only [hLine, vLine, pLine, nLine, List.mem_cons, List.mem_singleton,
      List.not_mem_nil, or_false] at hq
    rcases hq with rfl | rfl | rfl | rfl <;> constructor <;> simp <;> omega

/-- On a rectangular board a four-cell line of `p` is one of the lines the loops visit. -/
theorem hasLine_iff {board : Board} {cols : Nat} (hrect : Rect board cols) (p : Int) :
    HasLine board p ↔ ∃ line ∈ winLines board.length cols, LineOf board p line := by
  constructor
  · rintro ⟨r, c, h⟩
    have key : ∀ line : List (Nat × Nat), LineOf board p line →
        ∀ q ∈ line, q.1 < board.length ∧ q.2 < cols :=
      fun line hl q hq => cell_bounds_of_rect hrect (hl q hq)
    rcases h with h | h | h | h
    · refine ⟨_, mem_winLines.2 ⟨r, c, Or.inl ⟨rfl, ?_, ?_⟩⟩, h⟩
      · exact (key _ h (r, c) (by simp [hLine])).1
      · exact (key _ h (r, c + 3) (by simp [hLine])).2
    · refine ⟨_, mem_winLines.2 ⟨r, c, Or.inr (Or.inl ⟨rfl, ?_, ?_⟩)⟩, h⟩
      · exact (key _ h (r + 3, c) (by simp [vLine])).1
      · exact (key _ h (r, c) (by simp [vLine])).2
    · refine ⟨_, mem_winLines.2 ⟨r, c, Or.inr (Or.inr (Or.inl ⟨rfl, ?_, ?_⟩))⟩, h⟩
      · exact (key _ h (r + 3, c + 3) (by simp [pLine])).1
      · exact (key _ h (r + 3, c + 3) (by simp [pLine])).2
    · refine ⟨_, mem_winLines.2 ⟨r, c, Or.inr (Or.inr (Or.inr ⟨rfl, ?_, ?_⟩))⟩, h⟩
      · exact (key _ h (r + 3, c) (by simp [nLine])).1
      · exact (key _ h (r + 3 - 3, c + 3) (by simp [nLine])).2
  · rintro ⟨line, hmem, hl⟩
    obtain ⟨r, c, (⟨rfl, -, -⟩ | ⟨rfl, -, -⟩ | ⟨rfl, -, -⟩ | ⟨rfl, -, -⟩)⟩ := mem_winLines.1 hmem
    · exact ⟨r, c, Or.inl hl⟩
    · exact ⟨r, c, Or.inr (Or.inl hl)⟩
    · exact ⟨r, c, Or.inr (Or.inr (Or.inl hl))⟩
    · exact ⟨r, c, Or.inr (Or.inr (Or.inr hl))⟩

/-- What `check_win` returns on a rectangular board with at least one row. -/
theorem check_win_spec {board : Board} {cols : Nat} (hrows : 0 < board.length)
    (hrect : Rect board cols) :
    ∃ w, check_win board = some w ∧ (w = 1 ∨ w = -1 ∨ w = 0)
      ∧ (w ≠ 0 → HasLine board w)
      ∧ (w = 0 ↔ ¬ HasLine board 1 ∧ ¬ HasLine board (-1)) := by
  obtain ⟨row0, h0⟩ := head_of_pos hrows
  have hcols := rect_head hrect h0
  have hread : ∀ line ∈ winLines board.length cols, ∀ q ∈ line,
      ∃ v, cell board q.1 q.2 = some v := by
    intro line hl q hq
    have hb := (winLines_inBounds hl).2 q hq
    exact cell_some_of_rect hrect hb.1 hb.2
  obtain ⟨w, hw, hrange, hnz, hz⟩ :=
    scan_spec board (winLines board.length cols) hread (fun l hl => (winLines_inBounds hl).1)
  refine ⟨w, ?_, hrange, ?_, ?_⟩
  · unfold check_win
    rw [h0]
    simp only [hcols, hw]
  · intro hw0
    exact (hasLine_iff hrect w).2 (hnz hw0)
  · constructor
    · intro hw0
      constructor
      · intro hl
        obtain ⟨l, hlm, hlo⟩ := (hasLine_iff hrect 1).1 hl
        exact (hz hw0 l hlm).1 hlo
      · intro hl
        obtain ⟨l, hlm, hlo⟩ := (hasLine_iff hrect (-1)).1 hl
        exact (hz hw0 l hlm).2 hlo
    · rintro ⟨hn1, hn2⟩
      by_contra hw0
      have hl := (hasLine_iff hrect w).2 (hnz hw0)
      rcases hrange with rfl | rfl | rfl
      · exact hn1 hl
      · exact hn2 hl
      · exact hw0 rfl

/-- C1: on a rectangular board with at least one row and one column and cells in
`{-1, 0, 1}`, `check_win` returns a value `w`; `w` is non-zero only if four consecutive
cells along a row, a column or a diagonal all hold `w`; `w` is `0` exactly when neither
`+1` nor `-1` has such a line; and when exactly one side has a line, `w` is its sign. -/
theorem check_win_correct (board : Board) (cols : Nat) (hrows : 0 < board.length)
    (_hcols : 0 < cols) (hrect : Rect board cols) (_hcells : CellsOK board) :
    ∃ w, check_win board = some w
      ∧ (w ≠ 0 → HasLine board w)
      ∧ (w = 0 ↔ ¬ HasLine board 1 ∧ ¬ HasLine board (-1))
      ∧ (HasLine board 1 ∧ ¬ HasLine board (-1) → w = 1)
      ∧ (HasLine board (-1) ∧ ¬ HasLine board 1 → w = -1) := by
  obtain ⟨w, hw, hrange, hnz, hz⟩ := check_win_spec hrows hrect
  refine ⟨w, hw, hnz, hz, ?_, ?_⟩
  · rintro ⟨h1, h2⟩
    rcases hrange with rfl | rfl | rfl
    · rfl
    · exact absurd (hnz (by decide)) h2
    · exact absurd h1 (hz.1 rfl).1
  · rintro ⟨h1, h2⟩
    rcases hrange with rfl | rfl | rfl
    · exact absurd (hnz (by decide)) h2
    · rfl
    · exact absurd h1 (hz.1 rfl).2

/-- Witness for C1: the hypotheses hold on `boardDiag`. -/
theorem check_win_correct_witness :
    (0 < boardDiag.length ∧ 0 < 7 ∧ Rect boardDiag 7 ∧ CellsOK boardDiag)
      ∧ ∃ w, check_win boardDiag = some w
        ∧ (w ≠ 0 → HasLine boardDiag w)
        ∧ (w = 0 ↔ ¬ HasLine boardDiag 1 ∧ ¬ HasLine boardDiag (-1))
        ∧ (HasLine boardDiag 1 ∧ ¬ HasLine boardDiag (-1) → w = 1)
        ∧ (HasLine boardDiag (-1) ∧ ¬ HasLine boardDiag 1 → w = -1) :=
  ⟨by decide, check_win_correct boardDiag 7 (by decide) (by decide) (by decide) (by decide)⟩

/-! ## `valid_moves` -/

/-- The loop collects the columns of the top row that hold `0`, in the order visited. -/
theorem validLoop_spec (board : Board) (rows : Nat) (l : List Nat)
    (hl : ∀ c ∈ l, ∃ v, cell board (rows - 1) c = some v) (acc : List Int) :
    validLoop board rows l acc
      = some (acc ++ (l.filter (fun c => cell board (rows - 1) c = some 0)).map
          (fun c : Nat => (c : Int))) := by
  induction l generalizing acc with
  | nil => simp [validLoop]
  | cons c rest ih =>
    obtain ⟨v, hv⟩ := hl c (List.mem_cons_self _ _)
    have ih2 := ih (fun c2 hc2 => hl c2 (List.mem_cons_of_mem _ hc2))
    unfold validLoop at ih2 ⊢
    rw [List.foldlM_cons]
    simp only [hv]
    by_cases hv0 : v = 0
    · subst hv0
      simp only [if_true, Option.bind_eq_bind, Option.some_bind, ih2]
      simp [List.filter_cons, hv]
    · simp only [hv0, if_false, Option.bind_eq_bind, Option.some_bind, ih2]
      simp [List.filter_cons, hv, hv0]

theorem valid_moves_spec {board : Board} {cols : Nat} (hrows : 0 < board.length)
    (hrect : Rect board cols) :
    valid_moves board =
      some (((List.range cols).filter
        (fun c => cell board (board.length - 1) c = some 0)).map
          (fun c : Nat => (c : Int))) := by
  obtain ⟨row0, h0⟩ := head_of_pos hrows
  have hcols := rect_head hrect h0
  unfold valid_moves
  rw [if_neg (by omega), h0]
  simp only [hcols]
  rw [validLoop_spec board board.length (List.range cols) _ []]
  · simp
  · intro c hc
    exact cell_some_of_rect hrect (by omega) (List.mem_range.1 hc)

theorem mem_valid_moves {board : Board} {cols : Nat} (hrows : 0 < board.length)
    (hrect : Rect board cols) {moves : List Int} (hm : valid_moves board = some moves)
    (c : Int) :
    c ∈ moves ↔ 0 ≤ c ∧ c < cols ∧ cellI board (board.length - 1) c = some 0 := by
  rw [valid_moves_spec hrows hrect] at hm
  cases hm
  simp only [List.mem_map, List.mem_filter, List.mem_range, decide_eq_true_eq]
  constructor
  · rintro ⟨n, ⟨hn, hcell⟩, rfl⟩
    refine ⟨Int.ofNat_nonneg n, Int.ofNat_lt.2 hn, ?_⟩
    simp [cellI, hcell]
  · rintro ⟨h0, hlt, hcell⟩
    refine ⟨c.toNat, ⟨by omega, ?_⟩, by simp [Int.toNat_of_nonneg h0]⟩
    simpa [cellI, not_lt.2 h0] using hcell

theorem valid_moves_sorted {board : Board} {cols : Nat} (hrows : 0 < board.length)
    (hrect : Rect board cols) {moves : List Int} (hm : valid_moves board = some moves) :
    moves.Pairwise (· < ·) := by
  rw [valid_moves_spec hrows hrect] at hm
  cases hm
  refine List.Pairwise.map _ ?_ ((List.pairwise_lt_range cols).filter _)
  intro a b hab
  exact Int.ofNat_lt.2 hab

/-- C2: on a rectangular board with at least one row, `valid_moves` returns exactly the
columns `c` with `0 ≤ c < cols` whose top-row cell `board[rows-1][c]` is `0`, in strictly
ascending order (hence without repeats); on a board without rows (also the nil board) it
returns the empty list. -/
theorem valid_moves_correct (board : Board) (cols : Nat) (hrect : Rect board cols) :
    (board.length = 0 → valid_moves board = some [])
      ∧ (0 < board.length → ∃ moves, valid_moves board = some moves
          ∧ moves = ((List.range cols).filter
              (fun c => cell board (board.length - 1) c = some 0)).map (fun c : Nat => (c : Int))
          ∧ moves.Pairwise (· < ·) ∧ moves.Nodup
          ∧ ∀ c : Int, c ∈ moves ↔
              0 ≤ c ∧ c < cols ∧ cellI board (board.length - 1) c = some 0) := by
  constructor
  · intro h
    simp [valid_moves, h]
  · intro hrows
    have hm := valid_moves_spec hrows hrect
    refine ⟨_, hm, rfl, valid_moves_sorted hrows hrect hm, ?_,
      mem_valid_moves hrows hrect hm⟩
    exact (valid_moves_sorted hrows hrect hm).imp (fun h => ne_of_lt h)

/-- Witness for C2: `boardDiag` is rectangular with 7 columns. -/
theorem valid_moves_correct_witness :
    Rect boardDiag 7
      ∧ (boardDiag.length = 0 → valid_moves boardDiag = some [])
      ∧ (0 < boardDiag.length → ∃ moves, valid_moves boardDiag = some moves
          ∧ moves = ((List.range 7).filter
              (fun c => cell boardDiag (boardDiag.length - 1) c = some 0)).map (fun c : Nat => (c : Int))
          ∧ moves.Pairwise (· < ·) ∧ moves.Nodup
          ∧ ∀ c : Int, c ∈ moves ↔
              0 ≤ c ∧ c < (7 : Nat) ∧ cellI boardDiag (boardDiag.length - 1) c = some 0) :=
  ⟨by decide, valid_moves_correct boardDiag 7 (by decide)⟩

/-! ## `make_move` and `makeMoveCopy` -/

theorem cellI_natCast (board : Board) (r c : Nat) : cellI board r (c : Int) = cell board r c := by
  simp [cellI]

theorem cellI_of_nonneg (board : Board) (r : Nat) {col : Int} (h : 0 ≤ col) :
    cellI board r col = cell board r col.toNat := by
  simp [cellI, not_lt.2 h]

theorem length_setCell (board : Board) (r : Nat) (col player : Int) :
    (setCell board r col player).length = board.length := by
  simp [setCell]

theorem cell_setCell_same {board : Board} {r c : Nat} {v : Int} (player : Int)
    (h : cell board r c = some v) : cell (setCell board r (c : Int) player) r c = some player := by
  unfold cell at h
  cases hrow : board[r]? with
  | none => rw [hrow] at h; cases h
  | some row =>
    rw [hrow] at h
    simp only at h
    have hc : c < row.length := by
      by_contra hcon
      rw [List.getElem?_eq_none (by omega)] at h
      cases h
    simp [cell, setCell, List.getElem?_modify, hrow, List.getElem?_set, hc]

theorem cell_setCell_other (board : Board) (r c : Nat) (player : Int) (r2 c2 : Nat)
    (h : r2 ≠ r ∨ c2 ≠ c) : cell (setCell board r (c : Int) player) r2 c2 = cell board r2 c2 := by
  unfold cell setCell
  by_cases hr : r = r2
  · subst hr
    have hc : c ≠ c2 := by
      rcases h with h | h
      · exact absurd rfl h
      · exact fun e => h e.symm
    cases hrow : board[r]? with
    | none => simp [List.getElem?_modify, hrow]
    | some row => simp [List.getElem?_modify, hrow, List.getElem?_set, hc]
  · rw [List.getElem?_modify_ne _ _ hr]

theorem rect_setCell {board : Board} {cols : Nat} (h : Rect board cols) (r : Nat)
    (col player : Int) : Rect (setCell board r col player) cols := by
  intro row hrow
  obtain ⟨i, hi⟩ := List.mem_iff_getElem?.1 hrow
  unfold setCell at hi
  rw [List.getElem?_modify] at hi
  cases hb : board[i]? with
  | none => rw [hb] at hi; cases hi
  | some row0 =>
    rw [hb] at hi
    have hlen := h row0 (List.getElem?_mem hb)
    simp only [Option.map_eq_map, Option.map_some', Option.some.injEq] at hi
    rw [← hi]
    by_cases hir : r = i
    · simp [hir, hlen]
    · simp [hir, hlen]

/-- The drop loop started at row `r` stops at the first row `rs ≥ r` whose cell is `0`. -/
theorem dropLoop_found (board : Board) (player : Int) (c : Nat) (rs : Nat)
    (hzero : cell board rs c = some 0) :
    ∀ (n r : Nat), r ≤ rs → rs < r + n →
      (∀ r2, r ≤ r2 → r2 < rs → ∃ v, cell board r2 c = some v ∧ v ≠ 0) →
      dropLoop board player (c : Int) n r = some (setCell board rs (c : Int) player) := by
  intro n
  induction n with
  | zero => intro r h1 h2; omega
  | succ n ih =>
    intro r h1 h2 hbelow
    unfold dropLoop
    rw [cellI_natCast]
    by_cases hr : r = rs
    · subst hr
      simp [hzero]
    · obtain ⟨v, hv, hv0⟩ := hbelow r (le_refl r) (by omega)
      simp only [hv, hv0, if_false]
      exact ih (r + 1) (by omega) (by omega) (fun r2 h3 h4 => hbelow r2 (by omega) h4)

/-- The drop loop started at row `r` leaves the board as it is when no cell is `0`. -/
theorem dropLoop_full (board : Board) (player : Int) (c : Nat) :
    ∀ (n r : Nat),
      (∀ r2, r ≤ r2 → r2 < r + n → ∃ v, cell board r2 c = some v ∧ v ≠ 0) →
      dropLoop board player (c : Int) n r = some board := by
  intro n
  induction n with
  | zero => intro r _; rfl
  | succ n ih =>
    intro r hall
    unfold dropLoop
    rw [cellI_natCast]
    obtain ⟨v, hv, hv0⟩ := hall r (le_refl r) (by omega)
    simp only [hv, hv0, if_false]
    exact ih (r + 1) (fun r2 h3 h4 => hall r2 (by omega) (by omega))

/-- On a rectangular board, a column with an empty cell has a lowest empty cell, and every
cell below it is occupied. -/
theorem exists_lowest_empty {board : Board} {cols : Nat} (hrect : Rect board cols) {c : Nat}
    (hc : c < cols) (hex : ∃ r, cell board r c = some 0) :
    ∃ rs, cell board rs c = some 0 ∧ rs < board.length
      ∧ ∀ r2, r2 < rs → ∃ v, cell board r2 c = some v ∧ v ≠ 0 := by
  classical
  refine ⟨Nat.find hex, Nat.find_spec hex, (cell_bounds_of_rect hrect (Nat.find_spec hex)).1, ?_⟩
  intro r2 hr2
  have hlt : r2 < board.length :=
    lt_trans hr2 (cell_bounds_of_rect hrect (Nat.find_spec hex)).1
  obtain ⟨v, hv⟩ := cell_some_of_rect hrect hlt hc
  refine ⟨v, hv, ?_⟩
  rintro rfl
  exact Nat.find_min hex hr2 hv

/-- Dropping into a column of a rectangular board that has an empty cell. -/
theorem make_move_spec {board : Board} {cols : Nat} (hrect : Rect board cols) (player : Int)
    {c : Nat} (hc : c < cols) (hex : ∃ r, cell board r c = some 0) :
    ∃ rs, cell board rs c = some 0 ∧ rs < board.length
      ∧ (∀ r2, r2 < rs → ∃ v, cell board r2 c = some v ∧ v ≠ 0)
      ∧ make_move board player (c : Int) = some (setCell board rs (c : Int) player) := by
  obtain ⟨rs, hz, hlt, hbelow⟩ := exists_lowest_empty hrect hc hex
  refine ⟨rs, hz, hlt, hbelow, ?_⟩
  unfold make_move
  exact dropLoop_found board player c rs hz board.length 0 (Nat.zero_le _) (by omega)
    (fun r2 _ h => hbelow r2 h)

/-- C3: on a rectangular board, for a column `col` with `0 ≤ col < cols` that has a cell
holding `0`, `make_move(board, player, col)` returns a board of the same shape in which the
cell `(rs, col)`, `rs` being the least row index with `board[rs][col] = 0`, holds `player`
and every other cell is the cell of the input board. -/
theorem make_move_correct (board : Board) (cols : Nat) (player col : Int)
    (hrect : Rect board cols) (h0 : 0 ≤ col) (hlt : col < cols)
    (hex : ∃ r, cellI board r col = some 0) :
    ∃ rs newBoard, make_move board player col = some newBoard
      ∧ cellI board rs col = some 0
      ∧ (∀ r, r < rs → cellI board r col ≠ some 0)
      ∧ cellI newBoard rs col = some player
      ∧ (∀ r c : Nat, (r ≠ rs ∨ (c : Int) ≠ col) → cell newBoard r c = cell board r c)
      ∧ newBoard.length = board.length ∧ Rect newBoard cols := by
  obtain ⟨c, rfl⟩ := Int.eq_ofNat_of_zero_le h0
  have hc : c < cols := by exact_mod_cast hlt
  simp only [cellI_natCast] at hex ⊢
  obtain ⟨rs, hz, _, hbelow, hmove⟩ := make_move_spec hrect player hc hex
  refine ⟨rs, _, hmove, hz, ?_, cell_setCell_same player hz, ?_, length_setCell _ _ _ _,
    rect_setCell hrect _ _ _⟩
  · intro r hr hcon
    obtain ⟨v, hv, hv0⟩ := hbelow r hr
    rw [hv] at hcon
    exact hv0 (Option.some.inj hcon)
  · intro r c2 h
    apply cell_setCell_other
    rcases h with h | h
    · exact Or.inl h
    · exact Or.inr (fun e => h (by rw [e]))

/-- Witness for C3: column 3 of `boardDiag`. -/
theorem make_move_correct_witness :
    (Rect boardDiag 7 ∧ (0 : Int) ≤ 3 ∧ (3 : Int) < (7 : Nat)
        ∧ ∃ r, cellI boardDiag r 3 = some 0)
      ∧ ∃ rs newBoard, make_move boardDiag 1 3 = some newBoard
        ∧ cellI boardDiag rs 3 = some 0
        ∧ (∀ r, r < rs → cellI boardDiag r 3 ≠ some 0)
        ∧ cellI newBoard rs 3 = some 1
        ∧ (∀ r c : Nat, (r ≠ rs ∨ (c : Int) ≠ 3) → cell newBoard r c = cell boardDiag r c)
        ∧ newBoard.length = boardDiag.length ∧ Rect newBoard 7 :=
  ⟨⟨by decide, by decide, by decide, ⟨1, by decide⟩⟩,
    make_move_correct boardDiag 7 1 3 (by decide) (by decide) (by decide) ⟨1, by decide⟩⟩

/-- C4: on a rectangular board, for a column `col` with `0 ≤ col < cols` in which no cell
holds `0`, `make_move(board, player, col)` does not fail and returns the input board. -/
theorem make_move_full_column (board : Board) (cols : Nat) (player col : Int)
    (hrect : Rect board cols) (h0 : 0 ≤ col) (hlt : col < cols)
    (hfull : ∀ r, r < board.length → cellI board r col ≠ some 0) :
    make_move board player col = some board := by
  obtain ⟨c, rfl⟩ := Int.eq_ofNat_of_zero_le h0
  have hc : c < cols := by exact_mod_cast hlt
  simp only [cellI_natCast] at hfull
  unfold make_move
  apply dropLoop_full
  intro r2 _ hr2
  obtain ⟨v, hv⟩ := cell_some_of_rect hrect (by omega : r2 < board.length) hc
  refine ⟨v, hv, ?_⟩
  rintro rfl
  exact hfull r2 (by omega) hv

/-- Witness for C4: column 0 of `boardBlunder` is full. -/
theorem make_move_full_column_witness :
    (Rect boardBlunder 7 ∧ (0 : Int) ≤ 0 ∧ (0 : Int) < (7 : Nat)
        ∧ ∀ r, r < boardBlunder.length → cellI boardBlunder r 0 ≠ some 0)
      ∧ make_move boardBlunder 1 0 = some boardBlunder :=
  ⟨by decide, make_move_full_column boardBlunder 7 1 0 (by decide) (by decide) (by decide)
    (by decide)⟩

/-! ## Successor boards of the search -/

theorem makeMoveCopy_eq_make_move (board : Board) (col player : Int) :
    makeMoveCopy board col player = make_move board player col := rfl

theorem count_set_zero (player : Int) (hp : player ≠ 0) :
    ∀ (row : List Int) (c : Nat), row[c]? = some 0 →
      (row.set c player).count 0 + 1 = row.count 0 := by
  intro row
  induction row with
  | nil => intro c h; simp at h
  | cons x xs ih =>
    intro c h
    cases c with
    | zero =>
      simp only [List.getElem?_cons_zero, Option.some.injEq] at h
      subst h
      simp [List.set, List.count_cons, hp]
    | succ c =>
      simp only [List.getElem?_cons_succ] at h
      have := ih c h
      simp only [List.set, List.count_cons]
      omega

theorem emptyCells_setCell (player : Int) (hp : player ≠ 0) (c : Nat) :
    ∀ (board : Board) (r : Nat), cell board r c = some 0 →
      emptyCells (setCell board r (c : Int) player) + 1 = emptyCells board := by
  intro board
  induction board with
  | nil => intro r h; simp [cell] at h
  | cons row rows ih =>
    intro r h
    cases r with
    | zero =>
      have h2 : row[c]? = some 0 := by simpa [cell] using h
      have := count_set_zero player hp row c h2
      simp only [emptyCells, setCell, Int.toNat_ofNat, List.modify_zero_cons, List.map_cons,
        List.sum_cons]
      omega
    | succ r =>
      have h2 : cell rows r c = some 0 := by simpa [cell] using h
      have := ih r h2
      simp only [emptyCells, setCell, Int.toNat_ofNat, List.modify_succ_cons, List.map_cons,
        List.sum_cons] at this ⊢
      omega

theorem cellsOK_setCell {board : Board} (h : CellsOK board) (r : Nat) (col : Int)
    {player : Int} (hp : player = -1 ∨ player = 0 ∨ player = 1) :
    CellsOK (setCell board r col player) := by
  intro row hrow v hv
  obtain ⟨i, hi⟩ := List.mem_iff_getElem?.1 hrow
  unfold setCell at hi
  rw [List.getElem?_modify] at hi
  cases hb : board[i]? with
  | none => rw [hb] at hi; cases hi
  | some row0 =>
    rw [hb] at hi
    have hrow0 := h row0 (List.getElem?_mem hb)
    simp only [Option.map_eq_map, Option.map_some', Option.some.injEq] at hi
    by_cases hir : r = i
    · simp only [hir, if_true] at hi
      rw [← hi] at hv
      rcases List.mem_or_eq_of_mem_set hv with h1 | h1
      · exact hrow0 v h1
      · rw [h1]; exact hp
    · simp only [hir, if_false] at hi
      rw [← hi] at hv
      exact hrow0 v hv

/-- A line of `p` on the board after a disc `player ≠ p` was placed is a line of `p` on the
board before. -/
theorem lineOf_of_setCell {board : Board} {r c : Nat} {v player p : Int}
    (hcell : cell board r c = some v) (hne : p ≠ player) {line : List (Nat × Nat)}
    (h : LineOf (setCell board r (c : Int) player) p line) : LineOf board p line := by
  intro q hq
  have hq2 := h q hq
  by_cases hsame : q.1 = r ∧ q.2 = c
  · obtain ⟨h1, h2⟩ := hsame
    rw [h1, h2, cell_setCell_same player hcell] at hq2
    exact absurd (Option.some.inj hq2).symm hne
  · rw [cell_setCell_other] at hq2
    · exact hq2
    · by_contra hcon
      push_neg at hcon
      exact hsame hcon

theorem hasLine_of_setCell {board : Board} {r c : Nat} {v player p : Int}
    (hcell : cell board r c = some v) (hne : p ≠ player)
    (h : HasLine (setCell board r (c : Int) player) p) : HasLine board p := by
  obtain ⟨r2, c2, hl⟩ := h
  refine ⟨r2, c2, ?_⟩
  rcases hl with hl | hl | hl | hl
  · exact Or.inl (lineOf_of_setCell hcell hne hl)
  · exact Or.inr (Or.inl (lineOf_of_setCell hcell hne hl))
  · exact Or.inr (Or.inr (Or.inl (lineOf_of_setCell hcell hne hl)))
  · exact Or.inr (Or.inr (Or.inr (lineOf_of_setCell hcell hne hl)))

/-- The successor board of a legal column: a disc is placed in the lowest empty cell. -/
theorem child_of_valid {board : Board} {cols : Nat} (hrows : 0 < board.length)
    (hrect : Rect board cols) {moves : List Int} (hm : valid_moves board = some moves)
    {col : Int} (hcol : col ∈ moves) (player : Int) :
    ∃ (rs c : Nat), col = (c : Int) ∧ c < cols ∧ cell board rs c = some 0
      ∧ makeMoveCopy board col player = some (setCell board rs (c : Int) player) := by
  obtain ⟨h0, hlt, hcell⟩ := (mem_valid_moves hrows hrect hm col).1 hcol
  obtain ⟨c, rfl⟩ := Int.eq_ofNat_of_zero_le h0
  have hc : c < cols := by exact_mod_cast hlt
  rw [cellI_natCast] at hcell
  obtain ⟨rs, hz, _, _, hmove⟩ := make_move_spec hrect player hc ⟨_, hcell⟩
  exact ⟨rs, c, rfl, hc, hz, hmove⟩

/-! ## `evaluate_board` -/

theorem evaluateWindow_bounds (window : List Int) :
    -50 ≤ evaluateWindow window ∧ evaluateWindow window ≤ 50 := by
  unfold evaluateWindow
  simp only
  split_ifs <;> omega

theorem centerBonus_bounds (v : Int) : -2 ≤ centerBonus v ∧ centerBonus v ≤ 2 := by
  unfold centerBonus
  split_ifs <;> omega

theorem centerLoop_spec {board : Board} {cols : Nat} (hrect : Rect board cols)
    (c1 c2 : Int) (h1 : 0 ≤ c1) (h1' : c1 < cols) (h2 : 0 ≤ c2) (h2' : c2 < cols) :
    ∀ (rs : List Nat), (∀ r ∈ rs, r < board.length) → ∀ score : Int,
      ∃ s, centerLoop board c1 c2 rs score = some s
        ∧ score - 4 * (rs.length : Int) ≤ s ∧ s ≤ score + 4 * (rs.length : Int) := by
  intro rs
  induction rs with
  | nil => intro _ score; exact ⟨score, by simp [centerLoop], by simp, by simp⟩
  | cons r rest ih =>
    intro hrs score
    have hr := hrs r (List.mem_cons_self _ _)
    obtain ⟨a, ha⟩ := cell_some_of_rect hrect hr (by omega : c1.toNat < cols)
    obtain ⟨b, hb⟩ := cell_some_of_rect hrect hr (by omega : c2.toNat < cols)
    obtain ⟨s, hs, hlo, hhi⟩ := ih (fun r2 h => hrs r2 (List.mem_cons_of_mem _ h))
      (score + centerBonus a + centerBonus b)
    refine ⟨s, ?_, ?_, ?_⟩
    · unfold centerLoop at hs ⊢
      rw [List.foldlM_cons]
      simp only [cellI_of_nonneg board r h1, cellI_of_nonneg board r h2, ha, hb,
        Option.bind_eq_bind, Option.some_bind]
      exact hs
    · have := centerBonus_bounds a
      have := centerBonus_bounds b
      simp only [List.length_cons, Nat.cast_add, Nat.cast_one]
      omega
    · have := centerBonus_bounds a
      have := centerBonus_bounds b
      simp only [List.length_cons, Nat.cast_add, Nat.cast_one]
      omega

theorem readWindow_some {board : Board} {cols : Nat} (hrect : Rect board cols) :
    ∀ (line : List (Nat × Nat)), (∀ q ∈ line, q.1 < board.length ∧ q.2 < cols) →
      ∃ w, readWindow board line = some w := by
  intro line
  induction line with
  | nil => intro _; exact ⟨[], rfl⟩
  | cons q rest ih =>
    intro h
    have hq := h q (List.mem_cons_self _ _)
    obtain ⟨v, hv⟩ := cell_some_of_rect hrect hq.1 hq.2
    obtain ⟨w, hw⟩ := ih (fun q2 h2 => h q2 (List.mem_cons_of_mem _ h2))
    refine ⟨v :: w, ?_⟩
    unfold readWindow at hw ⊢
    rw [List.mapM_cons, hv, hw]
    rfl

theorem windowLoop_spec {board : Board} {cols : Nat} (hrect : Rect board cols) :
    ∀ (lines : List (List (Nat × Nat))),
      (∀ line ∈ lines, ∀ q ∈ line, q.1 < board.length ∧ q.2 < cols) → ∀ score : Int,
      ∃ s, windowLoop board lines score = some s
        ∧ score - 50 * (lines.length : Int) ≤ s ∧ s ≤ score + 50 * (lines.length : Int) := by
  intro lines
  induction lines with
  | nil => intro _ score; exact ⟨score, by simp [windowLoop], by simp, by simp⟩
  | cons line rest ih =>
    intro h score
    obtain ⟨w, hw⟩ := readWindow_some hrect line (h line (List.mem_cons_self _ _))
    obtain ⟨s, hs, hlo, hhi⟩ := ih (fun l hl => h l (List.mem_cons_of_mem _ hl))
      (score + evaluateWindow w)
    have hb := evaluateWindow_bounds w
    refine ⟨s, ?_, ?_, ?_⟩
    · unfold windowLoop at hs ⊢
      rw [List.foldlM_cons]
      simp only [hw, Option.bind_eq_bind, Option.some_bind]
      exact hs
    · simp only [List.length_cons, Nat.cast_add, Nat.cast_one]
      omega
    · simp only [List.length_cons, Nat.cast_add, Nat.cast_one]
      omega

theorem evalLines_inBounds {rows cols : Nat} {line : List (Nat × Nat)}
    (h : line ∈ evalLines rows cols) : ∀ q ∈ line, q.1 < rows ∧ q.2 < cols := by
  simp only [evalLines, List.mem_append, List.mem_map, Prod.exists, mem_nest, List.mem_range,
    List.mem_range'_1] at h
  rcases h with ((⟨r, c, ⟨hr, hc⟩, rfl⟩ | ⟨c, r, ⟨hc, hr⟩, rfl⟩) | ⟨r, c, ⟨hr, hc⟩, rfl⟩)
      | ⟨r, c, ⟨hr, hc⟩, rfl⟩
  all_goals
    intro q hq
    simp only [hLine, vLine, pLine, nLine, List.mem_cons, List.mem_singleton,
      List.not_mem_nil, or_false] at hq
    rcases hq with rfl | rfl | rfl | rfl <;> constructor <;> simp <;> omega

/-- On a rectangular board with at least one row and two columns `evaluate_board` returns
a score, bounded by 4 per row and 50 per window. -/
theorem evaluate_board_spec {board : Board} {cols : Nat} (hrows : 0 < board.length)
    (hcols : 2 ≤ cols) (hrect : Rect board cols) :
    ∃ s, evaluate_board board = some s
      ∧ -(4 * (board.length : Int) + 50 * ((evalLines board.length cols).length : Int)) ≤ s
      ∧ s ≤ 4 * (board.length : Int) + 50 * ((evalLines board.length cols).length : Int) := by
  obtain ⟨row0, h0⟩ := head_of_pos hrows
  have hlen := rect_head hrect h0
  obtain ⟨s1, hs1, hlo1, hhi1⟩ :=
    centerLoop_spec hrect ((cols : Int) / 2 - 1) ((cols : Int) / 2)
      (by omega) (by omega) (by omega) (by omega) (List.range board.length)
      (fun r hr => List.mem_range.1 hr) 0
  obtain ⟨s, hs, hlo, hhi⟩ := windowLoop_spec hrect (evalLines board.length cols)
    (fun line hl => evalLines_inBounds hl) s1
  refine ⟨s, ?_, ?_, ?_⟩
  · unfold evaluate_board
    rw [h0]
    simp only [hlen, hs1, hs]
  · simp only [List.length_range] at hlo1 hhi1
    omega
  · simp only [List.length_range] at hlo1 hhi1
    omega

/-- The board has 6 rows of 7 cells. -/
theorem evaluate_board_bound_6x7 {board : Board} (hrows : board.length = 6)
    (hrect : Rect board 7) :
    ∃ s, evaluate_board board = some s ∧ -3474 ≤ s ∧ s ≤ 3474 := by
  obtain ⟨s, hs, hlo, hhi⟩ := evaluate_board_spec (by omega) (by omega : 2 ≤ 7) hrect
  rw [hrows] at hlo hhi
  have hlen : (evalLines 6 7).length = 69 := by decide
  rw [hlen] at hlo hhi
  exact ⟨s, hs, by omega, by omega⟩

/-! ## `minimax` returns, and returns a legal column -/

theorem maxLoop_total (child : Board → Int → Int → Option (Int × Int)) (board : Board)
    (beta : Int) :
    ∀ (moves : List Int) (alpha bestVal bestCol : Int),
      (∀ col ∈ moves, ∃ b, makeMoveCopy board col 1 = some b
        ∧ ∀ a β, ∃ res, child b a β = some res) →
      ∃ v c, maxLoop child board beta moves alpha bestVal bestCol = some (v, c)
        ∧ (c = bestCol ∨ c ∈ moves) := by
  intro moves
  induction moves with
  | nil => intro alpha bv bc _; exact ⟨bv, bc, rfl, Or.inl rfl⟩
  | cons col rest ih =>
    intro alpha bv bc h
    obtain ⟨b, hb, hchild⟩ := h col (List.mem_cons_self _ _)
    obtain ⟨res, hres⟩ := hchild alpha beta
    unfold maxLoop
    simp only [hb, hres]
    split_ifs with h1 h2 h2
    · exact ⟨_, _, rfl, Or.inr (List.mem_cons_self _ _)⟩
    · obtain ⟨v, c, hvc, hc⟩ := ih (max alpha res.1) res.1 col
        (fun c2 hc2 => h c2 (List.mem_cons_of_mem _ hc2))
      refine ⟨v, c, hvc, ?_⟩
      rcases hc with hc | hc
      · exact Or.inr (hc ▸ List.mem_cons_self _ _)
      · exact Or.inr (List.mem_cons_of_mem _ hc)
    · exact ⟨_, _, rfl, Or.inl rfl⟩
    · obtain ⟨v, c, hvc, hc⟩ := ih (max alpha bv) bv bc
        (fun c2 hc2 => h c2 (List.mem_cons_of_mem _ hc2))
      refine ⟨v, c, hvc, ?_⟩
      rcases hc with hc | hc
      · exact Or.inl hc
      · exact Or.inr (List.mem_cons_of_mem _ hc)

theorem minLoop_total (child : Board → Int → Int → Option (Int × Int)) (board : Board)
    (alpha : Int) :
    ∀ (moves : List Int) (beta bestVal bestCol : Int),
      (∀ col ∈ moves, ∃ b, makeMoveCopy board col (-1) = some b
        ∧ ∀ a β, ∃ res, child b a β = some res) →
      ∃ v c, minLoop child board alpha moves beta bestVal bestCol = some (v, c)
        ∧ (c = bestCol ∨ c ∈ moves) := by
  intro moves
  induction moves with
  | nil => intro beta bv bc _; exact ⟨bv, bc, rfl, Or.inl rfl⟩
  | cons col rest ih =>
    intro beta bv bc h
    obtain ⟨b, hb, hchild⟩ := h col (List.mem_cons_self _ _)
    obtain ⟨res, hres⟩ := hchild alpha beta
    unfold minLoop
    simp only [hb, hres]
    split_ifs with h1 h2 h2
    · exact ⟨_, _, rfl, Or.inr (List.mem_cons_self _ _)⟩
    · obtain ⟨v, c, hvc, hc⟩ := ih (min beta res.1) res.1 col
        (fun c2 hc2 => h c2 (List.mem_cons_of_mem _ hc2))
      refine ⟨v, c, hvc, ?_⟩
      rcases hc with hc | hc
      · exact Or.inr (hc ▸ List.mem_cons_self _ _)
      · exact Or.inr (List.mem_cons_of_mem _ hc)
    · exact ⟨_, _, rfl, Or.inl rfl⟩
    · obtain ⟨v, c, hvc, hc⟩ := ih (min beta bv) bv bc
        (fun c2 hc2 => h c2 (List.mem_cons_of_mem _ hc2))
      refine ⟨v, c, hvc, ?_⟩
      rcases hc with hc | hc
      · exact Or.inl hc
      · exact Or.inr (List.mem_cons_of_mem _ hc)

/-- The successor board of a legal column is again rectangular, has the same number of
rows and one empty cell less. -/
theorem child_shape {board : Board} {cols : Nat} (hrows : 0 < board.length)
    (hrect : Rect board cols) {moves : List Int} (hm : valid_moves board = some moves)
    {col : Int} (hcol : col ∈ moves) {player : Int} (hp : player ≠ 0) :
    ∃ b, makeMoveCopy board col player = some b ∧ b.length = board.length ∧ Rect b cols
      ∧ emptyCells b + 1 = emptyCells board := by
  obtain ⟨rs, c, rfl, _, hz, hmove⟩ := child_of_valid hrows hrect hm hcol player
  exact ⟨_, hmove, length_setCell _ _ _ _, rect_setCell hrect _ _ _,
    emptyCells_setCell player hp c board rs hz⟩

/-- On a rectangular board with at least one row and two columns `minimax` returns a
result for every depth and every window; the returned column is `-1` at a leaf and a
legal column otherwise. -/
theorem minimaxFuel_total {cols : Nat} (hcols : 2 ≤ cols) :
    ∀ (n : Nat) (board : Board), emptyCells board = n → 0 < board.length → Rect board cols →
      ∀ (depth alpha beta : Int) (m : Bool),
        ∃ v c moves w, minimaxFuel (n + 1) board depth alpha beta m = some (v, c)
          ∧ valid_moves board = some moves ∧ check_win board = some w
          ∧ ((w ≠ 0 ∨ depth = 0 ∨ moves = []) → c = -1)
          ∧ ((w = 0 ∧ depth ≠ 0 ∧ moves ≠ []) → c ∈ moves) := by
  intro n
  induction n using Nat.strong_induction_on with
  | _ n ih =>
    intro board hn hrows hrect depth alpha beta m
    have hm := valid_moves_spec hrows hrect
    obtain ⟨w, hw, -, -, -⟩ := check_win_spec hrows hrect
    obtain ⟨s, hs, -, -⟩ := evaluate_board_spec hrows hcols hrect
    generalize hmoves : ((List.range cols).filter
        (fun c => cell board (board.length - 1) c = some 0)).map
          (fun c : Nat => (c : Int)) = moves at hm
    have hchild : ∀ (player : Int), player ≠ 0 → ∀ (d : Int) (m2 : Bool), ∀ col ∈ moves,
        ∃ b, makeMoveCopy board col player = some b
          ∧ ∀ a β, ∃ res, minimaxFuel n b d a β m2 = some res := by
      intro player hp d m2 col hcol
      obtain ⟨b, hb, hlen, hrb, hempty⟩ := child_shape hrows hrect hm hcol hp
      refine ⟨b, hb, ?_⟩
      intro a β
      have hlt : emptyCells b < n := by omega
      obtain ⟨v, c, -, -, hres, -⟩ :=
        ih (emptyCells b) hlt b rfl (by omega) hrb d a β m2
      have hfuel : emptyCells b + 1 = n := by omega
      rw [hfuel] at hres
      exact ⟨_, hres⟩
    unfold minimaxFuel
    simp only [hm, hw]
    by_cases hterm : w ≠ 0 ∨ depth = 0 ∨ moves.length = 0
    · rw [if_pos hterm]
      by_cases hw0 : w ≠ 0
      · rw [if_pos hw0]
        exact ⟨_, -1, moves, w, rfl, rfl, rfl, fun _ => rfl, fun h => absurd h.1 hw0⟩
      · rw [if_neg hw0]
        by_cases hd : depth = 0
        · rw [if_pos hd]
          simp only [hs]
          exact ⟨_, -1, moves, w, rfl, rfl, rfl, fun _ => rfl, fun h => absurd hd h.2.1⟩
        · rw [if_neg hd]
          refine ⟨_, -1, moves, w, rfl, rfl, rfl, fun _ => rfl, ?_⟩
          rintro ⟨-, -, hne⟩
          rcases hterm with h | h | h
          · exact absurd h hw0
          · exact absurd h hd
          · exact absurd (List.length_eq_zero.1 h) hne
    · rw [if_neg hterm]
      push_neg at hterm
      obtain ⟨hw0, hd, hlen⟩ := hterm
      cases hmv : moves with
      | nil => rw [hmv] at hlen; exact absurd rfl hlen
      | cons first rest =>
        simp only
        rw [← hmv]
        have hfirst : first ∈ moves := by rw [hmv]; exact List.mem_cons_self _ _
        cases m with
        | true =>
          obtain ⟨v, c, hvc, hc⟩ := maxLoop_total
            (fun b a β => minimaxFuel n b (wrapInt (depth - 1)) a β false) board beta
            moves alpha MinInt32 first (hchild 1 (by decide) _ false)
          refine ⟨v, c, moves, w, by simpa using hvc, rfl, rfl, ?_, ?_⟩
          · rintro (h | h | h)
            · exact absurd hw0 h
            · exact absurd h hd
            · rw [h] at hlen; exact absurd rfl hlen
          · intro _
            rcases hc with hc | hc
            · rw [hc]; exact hfirst
            · exact hc
        | false =>
          obtain ⟨v, c, hvc, hc⟩ := minLoop_total
            (fun b a β => minimaxFuel n b (wrapInt (depth - 1)) a β true) board alpha
            moves beta MaxInt32 first (hchild (-1) (by decide) _ true)
          refine ⟨v, c, moves, w, by simpa using hvc, rfl, rfl, ?_, ?_⟩
          · rintro (h | h | h)
            · exact absurd hw0 h
            · exact absurd h hd
            · rw [h] at hlen; exact absurd rfl hlen
          · intro _
            rcases hc with hc | hc
            · rw [hc]; exact hfirst
            · exact hc

/-- C5: on a well-formed board (rectangular, at least one row and two columns, cells in
`{-1, 0, 1}`), for every depth `≥ 1`, every `alpha`, `beta` and either side to move,
`minimax` returns a result whose column is never illegal: it is an element of
`valid_moves(board)` when the board has no winner and a legal move exists, and the absent
marker `-1` otherwise. -/
theorem minimax_column_legal (board : Board) (cols : Nat) (depth alpha beta : Int)
    (maximizingPlayer : Bool) (hrows : 0 < board.length) (hcols : 2 ≤ cols)
    (hrect : Rect board cols) (_hcells : CellsOK board) (hdepth : 1 ≤ depth) :
    ∃ v c moves w, minimax board depth alpha beta maximizingPlayer = some (v, c)
      ∧ valid_moves board = some moves ∧ check_win board = some w
      ∧ ((w = 0 ∧ moves ≠ []) → c ∈ moves)
      ∧ ((w ≠ 0 ∨ moves = []) → c = -1) := by
  obtain ⟨v, c, moves, w, hres, hm, hw, hleaf, hinner⟩ :=
    minimaxFuel_total hcols (emptyCells board) board rfl hrows hrect depth alpha beta
      maximizingPlayer
  refine ⟨v, c, moves, w, hres, hm, hw, ?_, ?_⟩
  · rintro ⟨h1, h2⟩
    exact hinner ⟨h1, by omega, h2⟩
  · rintro (h | h)
    · exact hleaf (Or.inl h)
    · exact hleaf (Or.inr (Or.inr h))

/-- Witness for C5: `boardThree`, depth 1, the full window, `+1` to move. -/
theorem minimax_column_legal_witness :
    (0 < boardThree.length ∧ 2 ≤ 7 ∧ Rect boardThree 7 ∧ CellsOK boardThree ∧ (1 : Int) ≤ 1)
      ∧ ∃ v c moves w, minimax boardThree 1 MinInt32 MaxInt32 true = some (v, c)
        ∧ valid_moves boardThree = some moves ∧ check_win boardThree = some w
        ∧ ((w = 0 ∧ moves ≠ []) → c ∈ moves)
        ∧ ((w ≠ 0 ∨ moves = []) → c = -1) :=
  ⟨by decide, minimax_column_legal boardThree 7 1 MinInt32 MaxInt32 true (by decide)
    (by decide) (by decide) (by decide) (by decide)⟩

/-! ## The computer-move step -/

/-- C6 (evaluation of the code at `boardBlunder`, a well-formed 6x7 board without winner
whose legal columns are 1 and 3): the computer-move step searches with
`maximizingPlayer = true` and gets column 1, where it drops its `-1` disc; the search
with `-1` as the side to move selects column 3, where the `-1` disc wins at once, while
the board after the step has no winner. -/
theorem computerMove_not_best_for_own_side :
    (boardBlunder.length = 6 ∧ Rect boardBlunder 7 ∧ CellsOK boardBlunder
        ∧ check_win boardBlunder = some 0 ∧ valid_moves boardBlunder = some [1, 3])
      ∧ minimax boardBlunder MAX_DEPTH MinInt32 MaxInt32 true = some (500000, 1)
      ∧ minimax boardBlunder MAX_DEPTH MinInt32 MaxInt32 false = some (-500000, 3)
      ∧ (make_move boardBlunder (-1) 1).bind check_win = some 0
      ∧ (make_move boardBlunder (-1) 3).bind check_win = some (-1) := by
  refine ⟨by decide, ?_, ?_, ?_, ?_⟩ <;> decide

/-! ## The unpruned search -/

/-- The value of one step of the maximizing loop, as a function of the column. -/
theorem plainMaxLoop_spec (child : Board → Option (Int × Int)) (board : Board)
    (val : Int → Int) :
    ∀ (moves : List Int) (bestVal bestCol : Int),
      (∀ col ∈ moves, ∃ b res, makeMoveCopy board col 1 = some b ∧ child b = some res
        ∧ res.1 = val col) →
      ∃ v c, plainMaxLoop child board moves bestVal bestCol = some (v, c)
        ∧ bestVal ≤ v ∧ (∀ col ∈ moves, val col ≤ v)
        ∧ ((v = bestVal ∧ c = bestCol)
          ∨ (bestVal < v ∧ ∃ l1 l2, moves = l1 ++ c :: l2 ∧ val c = v
              ∧ ∀ col ∈ l1, val col < v)) := by
  intro moves
  induction moves with
  | nil =>
    intro bv bc _
    exact ⟨bv, bc, rfl, le_refl _, by simp, Or.inl ⟨rfl, rfl⟩⟩
  | cons col rest ih =>
    intro bv bc h
    obtain ⟨b, res, hb, hres, hval⟩ := h col (List.mem_cons_self _ _)
    have hrest := fun c2 hc2 => h c2 (List.mem_cons_of_mem col hc2)
    unfold plainMaxLoop
    simp only [hb, hres]
    by_cases hgt : res.1 > bv
    · simp only [hgt, if_true]
      obtain ⟨v, c, hvc, hle, hall, hcase⟩ := ih res.1 col hrest
      refine ⟨v, c, hvc, by omega, ?_, ?_⟩
      · intro c2 hc2
        rcases List.mem_cons.1 hc2 with rfl | hc2
        · omega
        · exact hall c2 hc2
      · right
        rcases hcase with ⟨h1, h2⟩ | ⟨h1, l1, l2, hl, hv, hbefore⟩
        · refine ⟨by omega, [], rest, by rw [h2]; rfl, by rw [h2]; omega, by simp⟩
        · refine ⟨by omega, col :: l1, l2, by rw [hl]; rfl, hv, ?_⟩
          intro c2 hc2
          rcases List.mem_cons.1 hc2 with rfl | hc2
          · omega
          · exact hbefore c2 hc2
    · simp only [hgt, if_false]
      obtain ⟨v, c, hvc, hle, hall, hcase⟩ := ih bv bc hrest
      refine ⟨v, c, hvc, hle, ?_, ?_⟩
      · intro c2 hc2
        rcases List.mem_cons.1 hc2 with rfl | hc2
        · omega
        · exact hall c2 hc2
      · rcases hcase with ⟨h1, h2⟩ | ⟨h1, l1, l2, hl, hv, hbefore⟩
        · exact Or.inl ⟨h1, h2⟩
        · refine Or.inr ⟨h1, col :: l1, l2, by rw [hl]; rfl, hv, ?_⟩
          intro c2 hc2
          rcases List.mem_cons.1 hc2 with rfl | hc2
          · omega
          · exact hbefore c2 hc2

/-- The value of one step of the minimizing loop, as a function of the column. -/
theorem plainMinLoop_spec (child : Board → Option (Int × Int)) (board : Board)
    (val : Int → Int) :
    ∀ (moves : List Int) (bestVal bestCol : Int),
      (∀ col ∈ moves, ∃ b res, makeMoveCopy board col (-1) = some b ∧ child b = some res
        ∧ res.1 = val col) →
      ∃ v c, plainMinLoop child board moves bestVal bestCol = some (v, c)
        ∧ v ≤ bestVal ∧ (∀ col ∈ moves, v ≤ val col)
        ∧ ((v = bestVal ∧ c = bestCol)
          ∨ (v < bestVal ∧ ∃ l1 l2, moves = l1 ++ c :: l2 ∧ val c = v
              ∧ ∀ col ∈ l1, v < val col)) := by
  intro moves
  induction moves with
  | nil =>
    intro bv bc _
    exact ⟨bv, bc, rfl, le_refl _, by simp, Or.inl ⟨rfl, rfl⟩⟩
  | cons col rest ih =>
    intro bv bc h
    obtain ⟨b, res, hb, hres, hval⟩ := h col (List.mem_cons_self _ _)
    have hrest := fun c2 hc2 => h c2 (List.mem_cons_of_mem col hc2)
    unfold plainMinLoop
    simp only [hb, hres]
    by_cases hlt : res.1 < bv
    · simp only [hlt, if_true]
      obtain ⟨v, c, hvc, hle, hall, hcase⟩ := ih res.1 col hrest
      refine ⟨v, c, hvc, by omega, ?_, ?_⟩
      · intro c2 hc2
        rcases List.mem_cons.1 hc2 with rfl | hc2
        · omega
        · exact hall c2 hc2
      · right
        rcases hcase with ⟨h1, h2⟩ | ⟨h1, l1, l2, hl, hv, hbefore⟩
        · refine ⟨by omega, [], rest, by rw [h2]; rfl, by rw [h2]; omega, by simp⟩
        · refine ⟨by omega, col :: l1, l2, by rw [hl]; rfl, hv, ?_⟩
          intro c2 hc2
          rcases List.mem_cons.1 hc2 with rfl | hc2
          · omega
          · exact hbefore c2 hc2
    · simp only [hlt, if_false]
      obtain ⟨v, c, hvc, hle, hall, hcase⟩ := ih bv bc hrest
      refine ⟨v, c, hvc, hle, ?_, ?_⟩
      · intro c2 hc2
        rcases List.mem_cons.1 hc2 with rfl | hc2
        · omega
        · exact hall c2 hc2
      · rcases hcase with ⟨h1, h2⟩ | ⟨h1, l1, l2, hl, hv, hbefore⟩
        · exact Or.inl ⟨h1, h2⟩
        · refine Or.inr ⟨h1, col :: l1, l2, by rw [hl]; rfl, hv, ?_⟩
          intro c2 hc2
          rcases List.mem_cons.1 hc2 with rfl | hc2
          · omega
          · exact hbefore c2 hc2

/-! ## Alpha-beta pruning against the unpruned search -/

theorem windowSound_refl (alpha beta x : Int) : WindowSound alpha beta x x :=
  ⟨fun _ => le_refl _, fun _ => le_refl _, fun _ _ => rfl⟩

theorem plainMaxLoop_ge (child : Board → Option (Int × Int)) (board : Board) :
    ∀ (moves : List Int) (bestVal bestCol : Int),
      (∀ col ∈ moves, ∃ b res, makeMoveCopy board col 1 = some b ∧ child b = some res) →
      ∃ v c, plainMaxLoop child board moves bestVal bestCol = some (v, c) ∧ bestVal ≤ v := by
  intro moves
  induction moves with
  | nil => intro bv bc _; exact ⟨bv, bc, rfl, le_refl _⟩
  | cons col rest ih =>
    intro bv bc h
    obtain ⟨b, res, hb, hres⟩ := h col (List.mem_cons_self _ _)
    have hrest := fun c2 hc2 => h c2 (List.mem_cons_of_mem col hc2)
    unfold plainMaxLoop
    simp only [hb, hres]
    by_cases hgt : res.1 > bv
    · simp only [hgt, if_true]
      obtain ⟨v, c, hvc, hle⟩ := ih res.1 col hrest
      exact ⟨v, c, hvc, by omega⟩
    · simp only [hgt, if_false]
      exact ih bv bc hrest

theorem plainMinLoop_le (child : Board → Option (Int × Int)) (board : Board) :
    ∀ (moves : List Int) (bestVal bestCol : Int),
      (∀ col ∈ moves, ∃ b res, makeMoveCopy board col (-1) = some b ∧ child b = some res) →
      ∃ v c, plainMinLoop child board moves bestVal bestCol = some (v, c) ∧ v ≤ bestVal := by
  intro moves
  induction moves with
  | nil => intro bv bc _; exact ⟨bv, bc, rfl, le_refl _⟩
  | cons col rest ih =>
    intro bv bc h
    obtain ⟨b, res, hb, hres⟩ := h col (List.mem_cons_self _ _)
    have hrest := fun c2 hc2 => h c2 (List.mem_cons_of_mem col hc2)
    unfold plainMinLoop
    simp only [hb, hres]
    by_cases hlt : res.1 < bv
    · simp only [hlt, if_true]
      obtain ⟨v, c, hvc, hle⟩ := ih res.1 col hrest
      exact ⟨v, c, hvc, by omega⟩
    · simp only [hlt, if_false]
      exact ih bv bc hrest

/-- The maximizing loop with pruning against the loop without: `a0` is the value of
`alpha` on entry of `minimax`, `alpha` its current value. -/
theorem maxLoop_sound (child : Board → Int → Int → Option (Int × Int))
    (pchild : Board → Option (Int × Int)) (board : Board) (a0 beta : Int) :
    ∀ (moves : List Int) (alpha bv bc pbv pbc : Int),
      (∀ col ∈ moves, ∃ b pres, makeMoveCopy board col 1 = some b ∧ pchild b = some pres
        ∧ ∀ a, a < beta → ∃ res, child b a beta = some res
            ∧ WindowSound a beta res.1 pres.1) →
      alpha < beta → a0 ≤ alpha → alpha ≤ max a0 bv → (bv ≤ a0 → pbv ≤ bv) →
      (a0 < bv → pbv = bv) →
      ∃ pv pc w c, plainMaxLoop pchild board moves pbv pbc = some (pv, pc)
        ∧ maxLoop child board beta moves alpha bv bc = some (w, c)
        ∧ WindowSound a0 beta w pv := by
  intro moves
  induction moves with
  | nil =>
    intro alpha bv bc pbv pbc _ h1 h2 h3 h4 h5
    refine ⟨pbv, pbc, bv, bc, rfl, rfl, ?_, ?_, ?_⟩
    · exact h4
    · intro h; omega
    · intro h _; exact h5 h
  | cons col rest ih =>
    intro alpha bv bc pbv pbc h h1 h2 h3 h4 h5
    obtain ⟨b, pres, hb, hpres, hchild⟩ := h col (List.mem_cons_self _ _)
    obtain ⟨res, hres, hs1, hs2, hs3⟩ := hchild alpha h1
    have hrest := fun c2 hc2 => h c2 (List.mem_cons_of_mem col hc2)
    unfold plainMaxLoop maxLoop
    simp only [hb, hpres, hres]
    by_cases hcut : beta ≤ max alpha (if res.1 > bv then res.1 else bv)
    · rw [if_pos hcut]
      obtain ⟨pv, pc, hpv, hge⟩ := plainMaxLoop_ge pchild board rest
        (if pres.1 > pbv then pres.1 else pbv) (if pres.1 > pbv then col else pbc)
        (fun c2 hc2 => by
          obtain ⟨b2, p2, hb2, hp2, -⟩ := hrest c2 hc2
          exact ⟨b2, p2, hb2, hp2⟩)
      refine ⟨pv, pc, _, _, hpv, rfl, ?_, ?_, ?_⟩
      · intro hle
        split_ifs at hcut hle hge <;> omega
      · intro _
        split_ifs at hcut hge ⊢ <;> omega
      · intro hlt1 hlt2
        split_ifs at hcut hlt2 <;> omega
    · rw [if_neg hcut]
      apply ih _ _ _ _ _ hrest
      · omega
      · omega
      · split_ifs at hcut ⊢ <;> omega
      · intro hle
        split_ifs at hcut hle ⊢ <;> omega
      · intro hlt
        split_ifs at hcut hlt ⊢ <;> omega

/-- The minimizing loop with pruning against the loop without: `b0` is the value of
`beta` on entry of `minimax`, `beta` its current value. -/
theorem minLoop_sound (child : Board → Int → Int → Option (Int × Int))
    (pchild : Board → Option (Int × Int)) (board : Board) (alpha b0 : Int) :
    ∀ (moves : List Int) (beta bv bc pbv pbc : Int),
      (∀ col ∈ moves, ∃ b pres, makeMoveCopy board col (-1) = some b ∧ pchild b = some pres
        ∧ ∀ bt, alpha < bt → ∃ res, child b alpha bt = some res
            ∧ WindowSound alpha bt res.1 pres.1) →
      alpha < beta → beta ≤ b0 → min b0 bv ≤ beta → (b0 ≤ bv → bv ≤ pbv) →
      (bv < b0 → pbv = bv) →
      ∃ pv pc w c, plainMinLoop pchild board moves pbv pbc = some (pv, pc)
        ∧ minLoop child board alpha moves beta bv bc = some (w, c)
        ∧ WindowSound alpha b0 w pv := by
  intro moves
  induction moves with
  | nil =>
    intro beta bv bc pbv pbc _ h1 h2 h3 h4 h5
    refine ⟨pbv, pbc, bv, bc, rfl, rfl, ?_, ?_, ?_⟩
    · intro h; omega
    · exact h4
    · intro _ h; exact h5 h
  | cons col rest ih =>
    intro beta bv bc pbv pbc h h1 h2 h3 h4 h5
    obtain ⟨b, pres, hb, hpres, hchild⟩ := h col (List.mem_cons_self _ _)
    obtain ⟨res, hres, hs1, hs2, hs3⟩ := hchild beta h1
    have hrest := fun c2 hc2 => h c2 (List.mem_cons_of_mem col hc2)
    unfold plainMinLoop minLoop
    simp only [hb, hpres, hres]
    by_cases hcut : min beta (if res.1 < bv then res.1 else bv) ≤ alpha
    · rw [if_pos hcut]
      obtain ⟨pv, pc, hpv, hge⟩ := plainMinLoop_le pchild board rest
        (if pres.1 < pbv then pres.1 else pbv) (if pres.1 < pbv then col else pbc)
        (fun c2 hc2 => by
          obtain ⟨b2, p2, hb2, hp2, -⟩ := hrest c2 hc2
          exact ⟨b2, p2, hb2, hp2⟩)
      refine ⟨pv, pc, _, _, hpv, rfl, ?_, ?_, ?_⟩
      · intro _
        split_ifs at hcut hge ⊢ <;> omega
      · intro hle
        split_ifs at hcut hle hge <;> omega
      · intro hlt1 hlt2
        split_ifs at hcut hlt1 <;> omega
    · rw [if_neg hcut]
      apply ih _ _ _ _ _ hrest
      · omega
      · omega
      · split_ifs at hcut ⊢ <;> omega
      · intro hle
        split_ifs at hcut hle ⊢ <;> omega
      · intro hlt
        split_ifs at hcut hlt ⊢ <;> omega

/-- On a rectangular board with at least one row and two columns the unpruned search
returns a result, and for every window `alpha < beta` the pruned search returns a score
that is sound for that window. -/
theorem search_sound {cols : Nat} (hcols : 2 ≤ cols) :
    ∀ (n : Nat) (board : Board), emptyCells board = n → 0 < board.length → Rect board cols →
      ∀ (depth : Int) (m : Bool),
        ∃ pv pc, plainMinimaxFuel (n + 1) board depth m = some (pv, pc)
          ∧ ∀ alpha beta, alpha < beta →
              ∃ w c, minimaxFuel (n + 1) board depth alpha beta m = some (w, c)
                ∧ WindowSound alpha beta w pv := by
  intro n
  induction n using Nat.strong_induction_on with
  | _ n ih =>
    intro board hn hrows hrect depth m
    have hm := valid_moves_spec hrows hrect
    obtain ⟨w, hw, -, -, -⟩ := check_win_spec hrows hrect
    obtain ⟨s, hs, -, -⟩ := evaluate_board_spec hrows hcols hrect
    generalize hmoves : ((List.range cols).filter
        (fun c => cell board (board.length - 1) c = some 0)).map
          (fun c : Nat => (c : Int)) = moves at hm
    have hchild : ∀ (player : Int), player ≠ 0 → ∀ (d : Int) (m2 : Bool), ∀ col ∈ moves,
        ∃ b pres, makeMoveCopy board col player = some b
          ∧ plainMinimaxFuel n b d m2 = some pres
          ∧ ∀ a β, a < β → ∃ res, minimaxFuel n b d a β m2 = some res
              ∧ WindowSound a β res.1 pres.1 := by
      intro player hp d m2 col hcol
      obtain ⟨b, hb, hlen, hrb, hempty⟩ := child_shape hrows hrect hm hcol hp
      have hlt : emptyCells b < n := by omega
      have hfuel : emptyCells b + 1 = n := by omega
      obtain ⟨pv, pc, hpv, hab⟩ := ih (emptyCells b) hlt b rfl (by omega) hrb d m2
      rw [hfuel] at hpv hab
      refine ⟨b, (pv, pc), hb, hpv, ?_⟩
      intro a β haβ
      obtain ⟨w2, c2, hres, hsound⟩ := hab a β haβ
      exact ⟨(w2, c2), hres, hsound⟩
    unfold plainMinimaxFuel minimaxFuel
    simp only [hm, hw]
    by_cases hterm : w ≠ 0 ∨ depth = 0 ∨ moves.length = 0
    · simp only [if_pos hterm]
      by_cases hw0 : w ≠ 0
      · simp only [if_pos hw0]
        exact ⟨_, _, rfl, fun a β _ => ⟨_, _, rfl, windowSound_refl _ _ _⟩⟩
      · simp only [if_neg hw0]
        by_cases hd : depth = 0
        · simp only [if_pos hd, hs]
          exact ⟨_, _, rfl, fun a β _ => ⟨_, _, rfl, windowSound_refl _ _ _⟩⟩
        · simp only [if_neg hd]
          exact ⟨_, _, rfl, fun a β _ => ⟨_, _, rfl, windowSound_refl _ _ _⟩⟩
    · simp only [if_neg hterm]
      cases hmv : moves with
      | nil => simp [hmv] at hterm
      | cons first rest =>
        simp only
        rw [← hmv]
        cases m with
        | true =>
          simp only [if_true]
          have hc := hchild 1 (by decide) (wrapInt (depth - 1)) false
          obtain ⟨pv, pc, hpv, -⟩ := plainMaxLoop_ge
            (fun b => plainMinimaxFuel n b (wrapInt (depth - 1)) false) board moves
            MinInt32 first (fun col hcol => by
              obtain ⟨b, pres, hb, hp, -⟩ := hc col hcol
              exact ⟨b, pres, hb, hp⟩)
          refine ⟨pv, pc, hpv, ?_⟩
          intro alpha beta hab
          obtain ⟨pv2, pc2, w2, c2, hpv2, hw2, hsound⟩ := maxLoop_sound
            (fun b a β => minimaxFuel n b (wrapInt (depth - 1)) a β false)
            (fun b => plainMinimaxFuel n b (wrapInt (depth - 1)) false) board alpha beta
            moves alpha MinInt32 first MinInt32 first
            (fun col hcol => by
              obtain ⟨b, pres, hb, hp, hab2⟩ := hc col hcol
              exact ⟨b, pres, hb, hp, fun a ha => hab2 a beta ha⟩)
            hab (le_refl _) (le_max_left _ _) (fun _ => le_refl _) (fun _ => rfl)
          rw [hpv] at hpv2
          cases hpv2
          exact ⟨w2, c2, hw2, hsound⟩
        | false =>
          simp only [Bool.false_eq_true, if_false]
          have hc := hchild (-1) (by decide) (wrapInt (depth - 1)) true
          obtain ⟨pv, pc, hpv, -⟩ := plainMinLoop_le
            (fun b => plainMinimaxFuel n b (wrapInt (depth - 1)) true) board moves
            MaxInt32 first (fun col hcol => by
              obtain ⟨b, pres, hb, hp, -⟩ := hc col hcol
              exact ⟨b, pres, hb, hp⟩)
          refine ⟨pv, pc, hpv, ?_⟩
          intro alpha beta hab
          obtain ⟨pv2, pc2, w2, c2, hpv2, hw2, hsound⟩ := minLoop_sound
            (fun b a β => minimaxFuel n b (wrapInt (depth - 1)) a β true)
            (fun b => plainMinimaxFuel n b (wrapInt (depth - 1)) true) board alpha beta
            moves beta MaxInt32 first MaxInt32 first
            (fun col hcol => by
              obtain ⟨b, pres, hb, hp, hab2⟩ := hc col hcol
              exact ⟨b, pres, hb, hp, fun bt hbt => hab2 alpha bt hbt⟩)
            hab (le_refl _) (min_le_left _ _) (fun _ => le_refl _) (fun _ => rfl)
          rw [hpv] at hpv2
          cases hpv2
          exact ⟨w2, c2, hw2, hsound⟩

/-! ## Bounds on the scores of the search on a 6x7 board -/

theorem wrapInt_eq_self {x : Int} (h1 : -9223372036854775808 ≤ x)
    (h2 : x < 9223372036854775808) : wrapInt x = x := by
  unfold wrapInt
  omega

theorem plainMaxLoop_range (child : Board → Option (Int × Int)) (board : Board) (L U : Int) :
    ∀ (moves : List Int) (bestVal bestCol : Int),
      (∀ col ∈ moves, ∀ b res, makeMoveCopy board col 1 = some b → child b = some res →
        L ≤ res.1 ∧ res.1 ≤ U) →
      bestVal ≤ U → (moves ≠ [] ∨ L ≤ bestVal) →
      ∀ v c, plainMaxLoop child board moves bestVal bestCol = some (v, c) → L ≤ v ∧ v ≤ U := by
  intro moves
  induction moves with
  | nil =>
    intro bv bc _ h1 h2 v c h
    simp only [plainMaxLoop, Option.some.injEq, Prod.mk.injEq] at h
    rcases h2 with h2 | h2
    · exact absurd rfl h2
    · omega
  | cons col rest ih =>
    intro bv bc hch h1 h2 v c h
    unfold plainMaxLoop at h
    cases hb : makeMoveCopy board col 1 with
    | none => simp [hb] at h
    | some b =>
      cases hres : child b with
      | none => simp [hb, hres] at h
      | some res =>
        simp only [hb, hres] at h
        have hr := hch col (List.mem_cons_self _ _) b res hb hres
        refine ih _ _ (fun c2 hc2 => hch c2 (List.mem_cons_of_mem _ hc2)) ?_ ?_ v c h
        · split_ifs <;> omega
        · right
          split_ifs <;> omega

theorem plainMinLoop_range (child : Board → Option (Int × Int)) (board : Board) (L U : Int) :
    ∀ (moves : List Int) (bestVal bestCol : Int),
      (∀ col ∈ moves, ∀ b res, makeMoveCopy board col (-1) = some b → child b = some res →
        L ≤ res.1 ∧ res.1 ≤ U) →
      L ≤ bestVal → (moves ≠ [] ∨ bestVal ≤ U) →
      ∀ v c, plainMinLoop child board moves bestVal bestCol = some (v, c) → L ≤ v ∧ v ≤ U := by
  intro moves
  induction moves with
  | nil =>
    intro bv bc _ h1 h2 v c h
    simp only [plainMinLoop, Option.some.injEq, Prod.mk.injEq] at h
    rcases h2 with h2 | h2
    · exact absurd rfl h2
    · omega
  | cons col rest ih =>
    intro bv bc hch h1 h2 v c h
    unfold plainMinLoop at h
    cases hb : makeMoveCopy board col (-1) with
    | none => simp [hb] at h
    | some b =>
      cases hres : child b with
      | none => simp [hb, hres] at h
      | some res =>
        simp only [hb, hres] at h
        have hr := hch col (List.mem_cons_self _ _) b res hb hres
        refine ih _ _ (fun c2 hc2 => hch c2 (List.mem_cons_of_mem _ hc2)) ?_ ?_ v c h
        · split_ifs <;> omega
        · right
          split_ifs <;> omega

/-- On a 6x7 board, a score of the unpruned search `depth ≤ 5` plies deep is at most
`(depth + 1) * 100000` in absolute value, and at most `depth * 100000` when the board has
no winner and `depth ≥ 1`. -/
theorem plain_bound :
    ∀ (n : Nat) (board : Board), emptyCells board = n → board.length = 6 → Rect board 7 →
      ∀ (depth : Int) (m : Bool), 0 ≤ depth → depth ≤ 5 →
        ∀ pv pc, plainMinimaxFuel (n + 1) board depth m = some (pv, pc) →
          (-((depth + 1) * 100000) ≤ pv ∧ pv ≤ (depth + 1) * 100000)
            ∧ (check_win board = some 0 → 1 ≤ depth →
                -(depth * 100000) ≤ pv ∧ pv ≤ depth * 100000)
            ∧ (check_win board = some 0 → depth = 0 → -3474 ≤ pv ∧ pv ≤ 3474) := by
  intro n
  induction n using Nat.strong_induction_on with
  | _ n ih =>
    intro board hn hlen hrect depth m hd0 hd5 pv pc h
    have hrows : 0 < board.length := by omega
    have hm := valid_moves_spec hrows hrect
    obtain ⟨w, hw, hwrange, -, -⟩ := check_win_spec hrows hrect
    obtain ⟨s, hs, hslo, hshi⟩ := evaluate_board_bound_6x7 hlen hrect
    generalize hmoves : ((List.range 7).filter
        (fun c => cell board (board.length - 1) c = some 0)).map
          (fun c : Nat => (c : Int)) = moves at hm
    have hchild : ∀ (player : Int), player ≠ 0 → ∀ (m2 : Bool), 1 ≤ depth → ∀ col ∈ moves,
        ∀ b res, makeMoveCopy board col player = some b →
          plainMinimaxFuel n b (wrapInt (depth - 1)) m2 = some res →
          -(depth * 100000) ≤ res.1 ∧ res.1 ≤ depth * 100000 := by
      intro player hp m2 hd1 col hcol b res hb hres
      obtain ⟨b2, hb2, hlen2, hrb, hempty⟩ := child_shape hrows hrect hm hcol hp
      rw [hb] at hb2
      cases hb2
      have hlt : emptyCells b < n := by omega
      have hfuel : emptyCells b + 1 = n := by omega
      rw [wrapInt_eq_self (by omega) (by omega)] at hres
      rw [← hfuel] at hres
      have := (ih (emptyCells b) hlt b rfl (by omega) hrb (depth - 1) m2 (by omega)
        (by omega) res.1 res.2 hres).1
      omega
    unfold plainMinimaxFuel at h
    simp only [hm, hw] at h
    by_cases hterm : w ≠ 0 ∨ depth = 0 ∨ moves.length = 0
    · simp only [if_pos hterm] at h
      by_cases hw0 : w ≠ 0
      · simp only [if_pos hw0, Option.some.injEq, Prod.mk.injEq] at h
        obtain ⟨h, -⟩ := h
        subst h
        have hwcases : w = 1 ∨ w = -1 := by
          rcases hwrange with h | h | h
          · exact Or.inl h
          · exact Or.inr h
          · exact absurd h hw0
        refine ⟨?_, ?_, ?_⟩
        · rcases hwcases with rfl | rfl
          · rw [wrapInt_eq_self (by unfold WIN_SCORE; omega) (by unfold WIN_SCORE; omega)]
            unfold WIN_SCORE
            omega
          · rw [wrapInt_eq_self (by unfold WIN_SCORE; omega) (by unfold WIN_SCORE; omega)]
            unfold WIN_SCORE
            omega
        · intro hcw
          rw [hw] at hcw
          exact absurd (Option.some.inj hcw) hw0
        · intro hcw
          rw [hw] at hcw
          exact absurd (Option.some.inj hcw) hw0
      · simp only [if_neg hw0] at h
        by_cases hd : depth = 0
        · simp only [if_pos hd, hs, Option.some.injEq, Prod.mk.injEq] at h
          obtain ⟨h, -⟩ := h
          subst h
          exact ⟨by omega, by omega, fun _ _ => ⟨hslo, hshi⟩⟩
        · simp only [if_neg hd, Option.some.injEq, Prod.mk.injEq] at h
          obtain ⟨h, -⟩ := h
          subst h
          exact ⟨by omega, by omega, by omega⟩
    · simp only [if_neg hterm] at h
      push_neg at hterm
      obtain ⟨-, hd, -⟩ := hterm
      have hd1 : 1 ≤ depth := by omega
      cases hmv : moves with
      | nil => simp [hmv] at h
      | cons first rest =>
        rw [hmv] at h
        simp only at h
        rw [← hmv] at h
        have hne : moves ≠ [] := by rw [hmv]; exact List.cons_ne_nil _ _
        have key : -(depth * 100000) ≤ pv ∧ pv ≤ depth * 100000 := by
          cases m with
          | true =>
            simp only [if_true] at h
            exact plainMaxLoop_range _ board _ _ moves MinInt32 first
              (hchild 1 (by decide) false hd1) (by unfold MinInt32; omega) (Or.inl hne)
              pv pc h
          | false =>
            simp only [Bool.false_eq_true, if_false] at h
            exact plainMinLoop_range _ board _ _ moves MaxInt32 first
              (hchild (-1) (by decide) true hd1) (by unfold MaxInt32; omega) (Or.inl hne)
              pv pc h
        exact ⟨by omega, fun _ _ => key, fun _ h0 => absurd h0 hd⟩

/-! ## The search with the full window is the unpruned search -/

theorem maxLoop_root (child : Board → Int → Int → Option (Int × Int))
    (pchild : Board → Option (Int × Int)) (board : Board) (beta : Int) :
    ∀ (moves : List Int) (alpha bv bc : Int),
      (∀ col ∈ moves, ∃ b pres, makeMoveCopy board col 1 = some b ∧ pchild b = some pres
        ∧ pres.1 < beta
        ∧ ∀ a, a < beta → ∃ res, child b a beta = some res
            ∧ WindowSound a beta res.1 pres.1) →
      alpha ≤ bv → bv < beta →
      maxLoop child board beta moves alpha bv bc = plainMaxLoop pchild board moves bv bc := by
  intro moves
  induction moves with
  | nil => intro alpha bv bc _ _ _; rfl
  | cons col rest ih =>
    intro alpha bv bc h h1 h2
    obtain ⟨b, pres, hb, hpres, hlt, hchild⟩ := h col (List.mem_cons_self _ _)
    obtain ⟨res, hres, hs1, hs2, hs3⟩ := hchild alpha (by omega)
    have hrest := fun c2 hc2 => h c2 (List.mem_cons_of_mem col hc2)
    unfold plainMaxLoop maxLoop
    simp only [hb, hpres, hres]
    by_cases hgt : res.1 > bv
    · have heq : pres.1 = res.1 := by
        by_cases hb2 : res.1 < beta
        · exact hs3 (by omega) hb2
        · have := hs2 (by omega)
          omega
      have hgt2 : pres.1 > bv := by omega
      simp only [hgt, hgt2, if_true]
      rw [if_neg (by omega), heq]
      exact ih _ _ _ hrest (by omega) (by omega)
    · have hle : ¬ pres.1 > bv := by
        by_cases ha : res.1 ≤ alpha
        · have := hs1 ha
          omega
        · have := hs3 (by omega) (by omega)
          omega
      simp only [hgt, hle, if_false]
      rw [if_neg (by omega)]
      exact ih _ _ _ hrest (by omega) (by omega)

theorem minLoop_root (child : Board → Int → Int → Option (Int × Int))
    (pchild : Board → Option (Int × Int)) (board : Board) (alpha : Int) :
    ∀ (moves : List Int) (beta bv bc : Int),
      (∀ col ∈ moves, ∃ b pres, makeMoveCopy board col (-1) = some b ∧ pchild b = some pres
        ∧ alpha < pres.1
        ∧ ∀ bt, alpha < bt → ∃ res, child b alpha bt = some res
            ∧ WindowSound alpha bt res.1 pres.1) →
      bv ≤ beta → alpha < bv →
      minLoop child board alpha moves beta bv bc = plainMinLoop pchild board moves bv bc := by
  intro moves
  induction moves with
  | nil => intro beta bv bc _ _ _; rfl
  | cons col rest ih =>
    intro beta bv bc h h1 h2
    obtain ⟨b, pres, hb, hpres, hlt, hchild⟩ := h col (List.mem_cons_self _ _)
    obtain ⟨res, hres, hs1, hs2, hs3⟩ := hchild beta (by omega)
    have hrest := fun c2 hc2 => h c2 (List.mem_cons_of_mem col hc2)
    unfold plainMinLoop minLoop
    simp only [hb, hpres, hres]
    by_cases hgt : res.1 < bv
    · have heq : pres.1 = res.1 := by
        by_cases hb2 : alpha < res.1
        · exact hs3 hb2 (by omega)
        · have := hs1 (by omega)
          omega
      have hgt2 : pres.1 < bv := by omega
      simp only [hgt, hgt2, if_true]
      rw [if_neg (by omega), heq]
      exact ih _ _ _ hrest (by omega) (by omega)
    · have hle : ¬ pres.1 < bv := by
        by_cases ha : beta ≤ res.1
        · have := hs2 ha
          omega
        · have := hs3 (by omega) (by omega)
          omega
      simp only [hgt, hle, if_false]
      rw [if_neg (by omega)]
      exact ih _ _ _ hrest (by omega) (by omega)

/-- On a 6x7 board and for a depth from 0 to 5, `minimax` called with the window
`(MinInt32, MaxInt32)` returns the score and the column of the unpruned search. -/
theorem minimax_eq_plainMinimax {board : Board} (hlen : board.length = 6)
    (hrect : Rect board 7) {depth : Int} (hd0 : 0 ≤ depth) (hd5 : depth ≤ 5) (m : Bool) :
    minimax board depth MinInt32 MaxInt32 m = plainMinimax board depth m := by
  have hrows : 0 < board.length := by omega
  have hm := valid_moves_spec hrows hrect
  obtain ⟨w, hw, -, -, -⟩ := check_win_spec hrows hrect
  generalize hmoves : ((List.range 7).filter
      (fun c => cell board (board.length - 1) c = some 0)).map
        (fun c : Nat => (c : Int)) = moves at hm
  have hchild : ∀ (player : Int), player ≠ 0 → ∀ (m2 : Bool), 1 ≤ depth → ∀ col ∈ moves,
      ∃ b pres, makeMoveCopy board col player = some b
        ∧ plainMinimaxFuel (emptyCells board) b (wrapInt (depth - 1)) m2 = some pres
        ∧ (MinInt32 < pres.1 ∧ pres.1 < MaxInt32)
        ∧ ∀ a β, a < β →
            ∃ res, minimaxFuel (emptyCells board) b (wrapInt (depth - 1)) a β m2 = some res
              ∧ WindowSound a β res.1 pres.1 := by
    intro player hp m2 hd1 col hcol
    obtain ⟨b, hb, hlen2, hrb, hempty⟩ := child_shape hrows hrect hm hcol hp
    obtain ⟨pv, pc, hpv, hab⟩ := search_sound (by omega : 2 ≤ 7) (emptyCells b) b rfl
      (by omega) hrb (wrapInt (depth - 1)) m2
    have hbound := (plain_bound (emptyCells b) b rfl (by omega) hrb (wrapInt (depth - 1)) m2
      (by rw [wrapInt_eq_self (by omega) (by omega)]; omega)
      (by rw [wrapInt_eq_self (by omega) (by omega)]; omega) pv pc hpv).1
    rw [wrapInt_eq_self (by omega) (by omega)] at hbound
    rw [hempty] at hpv hab
    refine ⟨b, (pv, pc), hb, hpv, ⟨by unfold MinInt32; simp only; omega,
      by unfold MaxInt32; simp only; omega⟩, ?_⟩
    intro a β haβ
    obtain ⟨w2, c2, hres, hsound⟩ := hab a β haβ
    exact ⟨(w2, c2), hres, hsound⟩
  unfold minimax plainMinimax plainMinimaxFuel minimaxFuel
  simp only [hm, hw]
  by_cases hterm : w ≠ 0 ∨ depth = 0 ∨ moves.length = 0
  · simp only [if_pos hterm]
  · simp only [if_neg hterm]
    push_neg at hterm
    obtain ⟨-, hd, -⟩ := hterm
    have hd1 : 1 ≤ depth := by omega
    cases hmv : moves with
    | nil => rfl
    | cons first rest =>
      simp only
      rw [← hmv]
      cases m with
      | true =>
        simp only [if_true]
        apply maxLoop_root
        · intro col hcol
          obtain ⟨b, pres, hb, hp, hbd, hab⟩ := hchild 1 (by decide) false hd1 col hcol
          exact ⟨b, pres, hb, hp, hbd.2, fun a ha => hab a MaxInt32 ha⟩
        · exact le_refl _
        · decide
      | false =>
        simp only [Bool.false_eq_true, if_false]
        apply minLoop_root
        · intro col hcol
          obtain ⟨b, pres, hb, hp, hbd, hab⟩ := hchild (-1) (by decide) true hd1 col hcol
          exact ⟨b, pres, hb, hp, hbd.1, fun bt hbt => hab MinInt32 bt hbt⟩
        · exact le_refl _
        · decide

/-! ## The unpruned search at an inner node of a 6x7 board -/

theorem exactValue_of_child {board b : Board} {player col : Int}
    (hb : makeMoveCopy board col player = some b)
    (hempty : emptyCells b + 1 = emptyCells board) (d : Int) {res : Int × Int}
    (hres : plainMinimaxFuel (emptyCells board) b d (decide (player = -1)) = some res) :
    exactValue board player col d = some res.1 := by
  unfold exactValue plainMinimax
  simp only [hb]
  rw [hempty, hres]

theorem mem_before_of_sorted {moves l1 l2 : List Int} {c c2 : Int}
    (hs : moves.Pairwise (· < ·)) (hl : moves = l1 ++ c :: l2) (hc2 : c2 ∈ moves)
    (hlt : c2 < c) : c2 ∈ l1 := by
  rw [hl] at hs hc2
  rw [List.pairwise_append] at hs
  obtain ⟨-, h2, -⟩ := hs
  rw [List.pairwise_cons] at h2
  rcases List.mem_append.1 hc2 with h | h
  · exact h
  · rcases List.mem_cons.1 h with h | h
    · omega
    · have := h2.1 c2 h
      omega

/-- Facts on the successor boards of a 6x7 board, searched `depth - 1` plies deep. -/
theorem child_facts {board : Board} (hlen : board.length = 6) (hrect : Rect board 7)
    {depth : Int} (hd1 : 1 ≤ depth) (hd5 : depth ≤ 5) {moves : List Int}
    (hm : valid_moves board = some moves) {player : Int} (hp : player = 1 ∨ player = -1) :
    ∀ col ∈ moves, ∃ b res, makeMoveCopy board col player = some b
      ∧ plainMinimaxFuel (emptyCells board) b (wrapInt (depth - 1)) (decide (player = -1))
          = some res
      ∧ exactValue board player col (depth - 1) = some res.1
      ∧ MinInt32 < res.1 ∧ res.1 < MaxInt32 := by
  intro col hcol
  have hrows : 0 < board.length := by omega
  have hp0 : player ≠ 0 := by rcases hp with h | h <;> omega
  obtain ⟨b, hb, hlen2, hrb, hempty⟩ := child_shape hrows hrect hm hcol hp0
  obtain ⟨pv, pc, hpv, -⟩ := search_sound (by omega : 2 ≤ 7) (emptyCells b) b rfl
    (by omega) hrb (depth - 1) (decide (player = -1))
  have hbound := (plain_bound (emptyCells b) b rfl (by omega) hrb (depth - 1)
    (decide (player = -1)) (by omega) (by omega) pv pc hpv).1
  rw [hempty] at hpv
  refine ⟨b, (pv, pc), hb, ?_, exactValue_of_child hb hempty _ hpv, ?_, ?_⟩
  · rw [wrapInt_eq_self (by omega) (by omega)]
    exact hpv
  · unfold MinInt32; simp only; omega
  · unfold MaxInt32; simp only; omega

/-- At an inner node with `+1` to move the unpruned search returns the maximum of the
exact values of the legal columns and the lowest column that reaches it. -/
theorem plain_node_max {board : Board} (hlen : board.length = 6) (hrect : Rect board 7)
    {depth : Int} (hd1 : 1 ≤ depth) (hd5 : depth ≤ 5) (hw : check_win board = some 0)
    {moves : List Int} (hm : valid_moves board = some moves) (hne : moves ≠ []) :
    ∃ v c, plainMinimax board depth true = some (v, c) ∧ c ∈ moves
      ∧ exactValue board 1 c (depth - 1) = some v
      ∧ ∀ c2 ∈ moves, ∃ x, exactValue board 1 c2 (depth - 1) = some x ∧ x ≤ v
          ∧ (c2 < c → x < v) := by
  have hrows : 0 < board.length := by omega
  have hsorted := valid_moves_sorted hrows hrect hm
  have hch := child_facts hlen hrect hd1 hd5 hm (Or.inl rfl : (1 : Int) = 1 ∨ (1 : Int) = -1)
  obtain ⟨first, rest, hmv⟩ := List.exists_cons_of_ne_nil hne
  have hfirst : first ∈ moves := by rw [hmv]; exact List.mem_cons_self _ _
  obtain ⟨v, c, hvc, hge, hall, hcase⟩ := plainMaxLoop_spec
    (fun b => plainMinimaxFuel (emptyCells board) b (wrapInt (depth - 1)) false) board
    (fun col => (exactValue board 1 col (depth - 1)).getD 0) moves MinInt32 first
    (fun col hcol => by
      obtain ⟨b, res, hb, hres, hex, -, -⟩ := hch col hcol
      refine ⟨b, res, hb, by simpa using hres, ?_⟩
      simp only [hex, Option.getD_some])
  have hval : ∀ col ∈ moves, ∃ x, exactValue board 1 col (depth - 1) = some x
      ∧ (exactValue board 1 col (depth - 1)).getD 0 = x ∧ MinInt32 < x := by
    intro col hcol
    obtain ⟨b, res, -, -, hex, hlo, -⟩ := hch col hcol
    exact ⟨res.1, hex, by simp only [hex, Option.getD_some], hlo⟩
  have hplain : plainMinimax board depth true = some (v, c) := by
    unfold plainMinimax plainMinimaxFuel
    simp only [hm, hw]
    rw [if_neg (by
      push_neg
      exact ⟨rfl, by omega,
        fun h => hne (List.length_eq_zero.1 h)⟩)]
    rw [hmv]
    simp only [if_true]
    rw [← hmv]
    exact hvc
  rcases hcase with ⟨h1, -⟩ | ⟨-, l1, l2, hl, hv, hbefore⟩
  · exfalso
    obtain ⟨x, -, hx2, hx3⟩ := hval first hfirst
    have := hall first hfirst
    simp only at this
    omega
  · have hc : c ∈ moves := by rw [hl]; simp
    obtain ⟨x, hx1, hx2, -⟩ := hval c hc
    refine ⟨v, c, hplain, hc, by rw [hx1, ← hx2, hv], ?_⟩
    intro c2 hc2
    obtain ⟨y, hy1, hy2, -⟩ := hval c2 hc2
    refine ⟨y, hy1, ?_, ?_⟩
    · have := hall c2 hc2
      simp only at this
      omega
    · intro hlt
      have := hbefore c2 (mem_before_of_sorted hsorted hl hc2 hlt)
      simp only at this
      omega

/-- At an inner node with `-1` to move the unpruned search returns the minimum of the
exact values of the legal columns and the lowest column that reaches it. -/
theorem plain_node_min {board : Board} (hlen : board.length = 6) (hrect : Rect board 7)
    {depth : Int} (hd1 : 1 ≤ depth) (hd5 : depth ≤ 5) (hw : check_win board = some 0)
    {moves : List Int} (hm : valid_moves board = some moves) (hne : moves ≠ []) :
    ∃ v c, plainMinimax board depth false = some (v, c) ∧ c ∈ moves
      ∧ exactValue board (-1) c (depth - 1) = some v
      ∧ ∀ c2 ∈ moves, ∃ x, exactValue board (-1) c2 (depth - 1) = some x ∧ v ≤ x
          ∧ (c2 < c → v < x) := by
  have hrows : 0 < board.length := by omega
  have hsorted := valid_moves_sorted hrows hrect hm
  have hch := child_facts hlen hrect hd1 hd5 hm
    (Or.inr rfl : (-1 : Int) = 1 ∨ (-1 : Int) = -1)
  obtain ⟨first, rest, hmv⟩ := List.exists_cons_of_ne_nil hne
  have hfirst : first ∈ moves := by rw [hmv]; exact List.mem_cons_self _ _
  obtain ⟨v, c, hvc, hge, hall, hcase⟩ := plainMinLoop_spec
    (fun b => plainMinimaxFuel (emptyCells board) b (wrapInt (depth - 1)) true) board
    (fun col => (exactValue board (-1) col (depth - 1)).getD 0) moves MaxInt32 first
    (fun col hcol => by
      obtain ⟨b, res, hb, hres, hex, -, -⟩ := hch col hcol
      refine ⟨b, res, hb, by simpa using hres, ?_⟩
      simp only [hex, Option.getD_some])
  have hval : ∀ col ∈ moves, ∃ x, exactValue board (-1) col (depth - 1) = some x
      ∧ (exactValue board (-1) col (depth - 1)).getD 0 = x ∧ x < MaxInt32 := by
    intro col hcol
    obtain ⟨b, res, -, -, hex, -, hhi⟩ := hch col hcol
    exact ⟨res.1, hex, by simp only [hex, Option.getD_some], hhi⟩
  have hplain : plainMinimax board depth false = some (v, c) := by
    unfold plainMinimax plainMinimaxFuel
    simp only [hm, hw]
    rw [if_neg (by
      push_neg
      exact ⟨rfl, by omega,
        fun h => hne (List.length_eq_zero.1 h)⟩)]
    rw [hmv]
    simp only [Bool.false_eq_true, if_false]
    rw [← hmv]
    exact hvc
  rcases hcase with ⟨h1, -⟩ | ⟨-, l1, l2, hl, hv, hbefore⟩
  · exfalso
    obtain ⟨x, -, hx2, hx3⟩ := hval first hfirst
    have := hall first hfirst
    simp only at this
    omega
  · have hc : c ∈ moves := by rw [hl]; simp
    obtain ⟨x, hx1, hx2, -⟩ := hval c hc
    refine ⟨v, c, hplain, hc, by rw [hx1, ← hx2, hv], ?_⟩
    intro c2 hc2
    obtain ⟨y, hy1, hy2, -⟩ := hval c2 hc2
    refine ⟨y, hy1, ?_, ?_⟩
    · have := hall c2 hc2
      simp only at this
      omega
    · intro hlt
      have := hbefore c2 (mem_before_of_sorted hsorted hl hc2 hlt)
      simp only at this
      omega

/-- C10: ties keep the first-seen column.  On a well-formed 6x7 board with no winner and
at least one legal move, for a depth `d` with `1 ≤ d ≤ 5`, `minimax(board, d, MinInt32,
MaxInt32, true)` returns a legal column `c` whose exact (unpruned) value after dropping
`+1`, searched `d - 1` plies deep with `-1` to move, is the maximum over all legal columns,
every legal column of lower index having a strictly smaller value; with
`maximizingPlayer = false` it returns the lowest legal column that reaches the minimum
after dropping `-1`. -/
theorem minimax_first_seen_best (board : Board) (depth : Int) (moves : List Int)
    (hlen : board.length = 6) (hrect : Rect board 7) (_hcells : CellsOK board)
    (hw : check_win board = some 0) (hm : valid_moves board = some moves)
    (hne : moves ≠ []) (hd1 : 1 ≤ depth) (hd5 : depth ≤ 5) :
    (∃ v c, minimax board depth MinInt32 MaxInt32 true = some (v, c) ∧ c ∈ moves
        ∧ exactValue board 1 c (depth - 1) = some v
        ∧ ∀ c2 ∈ moves, ∃ x, exactValue board 1 c2 (depth - 1) = some x ∧ x ≤ v
            ∧ (c2 < c → x < v))
      ∧ (∃ v c, minimax board depth MinInt32 MaxInt32 false = some (v, c) ∧ c ∈ moves
        ∧ exactValue board (-1) c (depth - 1) = some v
        ∧ ∀ c2 ∈ moves, ∃ x, exactValue board (-1) c2 (depth - 1) = some x ∧ v ≤ x
            ∧ (c2 < c → v < x)) := by
  constructor
  · rw [minimax_eq_plainMinimax hlen hrect (by omega) hd5 true]
    exact plain_node_max hlen hrect hd1 hd5 hw hm hne
  · rw [minimax_eq_plainMinimax hlen hrect (by omega) hd5 false]
    exact plain_node_min hlen hrect hd1 hd5 hw hm hne

/-- Witness for C10: `boardThree` at depth 2. -/
theorem minimax_first_seen_best_witness :
    (boardThree.length = 6 ∧ Rect boardThree 7 ∧ CellsOK boardThree
        ∧ check_win boardThree = some 0
        ∧ valid_moves boardThree = some [0, 1, 2, 3, 4, 5, 6]
        ∧ [(0 : Int), 1, 2, 3, 4, 5, 6] ≠ [] ∧ (1 : Int) ≤ 2 ∧ (2 : Int) ≤ 5)
      ∧ (∃ v c, minimax boardThree 2 MinInt32 MaxInt32 true = some (v, c)
          ∧ c ∈ [(0 : Int), 1, 2, 3, 4, 5, 6]
          ∧ exactValue boardThree 1 c (2 - 1) = some v
          ∧ ∀ c2 ∈ [(0 : Int), 1, 2, 3, 4, 5, 6],
              ∃ x, exactValue boardThree 1 c2 (2 - 1) = some x ∧ x ≤ v ∧ (c2 < c → x < v))
      ∧ (∃ v c, minimax boardThree 2 MinInt32 MaxInt32 false = some (v, c)
          ∧ c ∈ [(0 : Int), 1, 2, 3, 4, 5, 6]
          ∧ exactValue boardThree (-1) c (2 - 1) = some v
          ∧ ∀ c2 ∈ [(0 : Int), 1, 2, 3, 4, 5, 6],
              ∃ x, exactValue boardThree (-1) c2 (2 - 1) = some x ∧ v ≤ x
                ∧ (c2 < c → v < x)) :=
  ⟨by decide, minimax_first_seen_best boardThree 2 [0, 1, 2, 3, 4, 5, 6] (by decide)
    (by decide) (by decide) (by decide) (by decide) (by decide) (by decide) (by decide)⟩

/-! ## Successor boards and immediate wins -/

theorem exactValue_eq {board b : Board} {player col : Int}
    (hb : makeMoveCopy board col player = some b) (d : Int) :
    exactValue board player col d
      = (plainMinimax b d (decide (player = -1))).map Prod.fst := by
  unfold exactValue
  simp only [hb]
  cases plainMinimax b d (decide (player = -1)) <;> rfl

theorem no_line_of_check_win_zero {board : Board} {cols : Nat} (hrows : 0 < board.length)
    (hrect : Rect board cols) (hw : check_win board = some 0) :
    ¬ HasLine board 1 ∧ ¬ HasLine board (-1) := by
  obtain ⟨w, hw2, -, -, hz⟩ := check_win_spec hrows hrect
  rw [hw] at hw2
  exact hz.1 (Option.some.inj hw2).symm

/-- Dropping a disc of `player` on a board without winner cannot make the other side the
winner. -/
theorem child_check_win {board : Board} {cols : Nat} (hrows : 0 < board.length)
    (hrect : Rect board cols) (hw : check_win board = some 0) {moves : List Int}
    (hm : valid_moves board = some moves) {col : Int} (hcol : col ∈ moves) {player : Int}
    (hp : player = 1 ∨ player = -1) :
    ∃ b, makeMoveCopy board col player = some b ∧ b.length = board.length ∧ Rect b cols
      ∧ emptyCells b + 1 = emptyCells board
      ∧ (check_win b = some player ∨ check_win b = some 0) := by
  have hp0 : player ≠ 0 := by rcases hp with h | h <;> omega
  obtain ⟨rs, c, rfl, hc, hz, hmove⟩ := child_of_valid hrows hrect hm hcol player
  have hlenb := length_setCell board rs (c : Int) player
  have hrb := rect_setCell hrect rs (c : Int) player
  refine ⟨_, hmove, hlenb, hrb, emptyCells_setCell player hp0 c board rs hz, ?_⟩
  obtain ⟨w2, hw2, hrange, hnz, -⟩ := check_win_spec (by omega) hrb
  obtain ⟨hno1, hno2⟩ := no_line_of_check_win_zero hrows hrect hw
  rw [hw2]
  rcases hp with rfl | rfl
  · rcases hrange with rfl | rfl | rfl
    · exact Or.inl rfl
    · exact absurd (hasLine_of_setCell hz (by decide) (hnz (by decide))) hno2
    · exact Or.inr rfl
  · rcases hrange with rfl | rfl | rfl
    · exact absurd (hasLine_of_setCell hz (by decide) (hnz (by decide))) hno1
    · exact Or.inl rfl
    · exact Or.inr rfl

/-- The unpruned search on a 6x7 board with a winner. -/
theorem plainMinimax_winner {board : Board} (hlen : board.length = 6) (hrect : Rect board 7)
    {w : Int} (hw : check_win board = some w) (hw0 : w ≠ 0) {depth : Int} (hd0 : 0 ≤ depth)
    (hd5 : depth ≤ 5) (m : Bool) :
    plainMinimax board depth m = some (w * (depth + 1) * 100000, -1) := by
  have hrows : 0 < board.length := by omega
  have hm := valid_moves_spec hrows hrect
  obtain ⟨w2, hw2, hrange, -, -⟩ := check_win_spec hrows hrect
  rw [hw] at hw2
  cases hw2
  unfold plainMinimax plainMinimaxFuel
  simp only [hm, hw]
  rw [if_pos (Or.inl hw0), if_pos hw0]
  have : wrapInt (w * (depth + 1) * WIN_SCORE) = w * (depth + 1) * 100000 := by
    unfold WIN_SCORE
    rcases hrange with rfl | rfl | rfl
    · exact wrapInt_eq_self (by omega) (by omega)
    · exact wrapInt_eq_self (by omega) (by omega)
    · exact absurd rfl hw0
  rw [this]

/-- The exact value of a legal column on a 6x7 board without winner: the terminal score
when the drop wins, and a smaller score otherwise. -/
theorem exactValue_cases {board : Board} (hlen : board.length = 6) (hrect : Rect board 7)
    (hw : check_win board = some 0) {moves : List Int} (hm : valid_moves board = some moves)
    {col : Int} (hcol : col ∈ moves) {player : Int} (hp : player = 1 ∨ player = -1)
    {d : Int} (hd0 : 0 ≤ d) (hd4 : d ≤ 4) :
    ∃ b x, makeMoveCopy board col player = some b ∧ b.length = 6 ∧ Rect b 7
      ∧ exactValue board player col d = some x
      ∧ ((check_win b = some player ∧ x = player * (d + 1) * 100000)
        ∨ (check_win b = some 0 ∧ (1 ≤ d → -(d * 100000) ≤ x ∧ x ≤ d * 100000)
            ∧ (d = 0 → -3474 ≤ x ∧ x ≤ 3474))) := by
  have hrows : 0 < board.length := by omega
  have hp0 : player ≠ 0 := by rcases hp with h | h <;> omega
  obtain ⟨b, hb, hlenb, hrb, hempty, hcw⟩ := child_check_win hrows hrect hw hm hcol hp
  have hlen6 : b.length = 6 := by omega
  rcases hcw with hcw | hcw
  · refine ⟨b, _, hb, hlen6, hrb, ?_, Or.inl ⟨hcw, rfl⟩⟩
    rw [exactValue_eq hb, plainMinimax_winner hlen6 hrb hcw hp0 hd0 (by omega)]
    rfl
  · obtain ⟨pv, pc, hpv, -⟩ := search_sound (by omega : 2 ≤ 7) (emptyCells b) b rfl
      (by omega) hrb d (decide (player = -1))
    have hbound := plain_bound (emptyCells b) b rfl hlen6 hrb d (decide (player = -1)) hd0
      (by omega) pv pc hpv
    refine ⟨b, pv, hb, hlen6, hrb, ?_, Or.inr ⟨hcw, hbound.2.1 hcw, hbound.2.2 hcw⟩⟩
    rw [exactValue_eq hb]
    unfold plainMinimax
    rw [hpv]
    rfl

/-- On a 6x7 board without winner on which `+1` has a legal column whose drop wins at
once, the unpruned search for `+1`, `depth` plies deep, returns the terminal score of the
successor and the lowest such column. -/
theorem plain_immediate_win {board : Board} (hlen : board.length = 6) (hrect : Rect board 7)
    (hw : check_win board = some 0) {moves : List Int} (hm : valid_moves board = some moves)
    {depth : Int} (hd1 : 1 ≤ depth) (hd5 : depth ≤ 5)
    (hex : ∃ c ∈ moves, (make_move board 1 c).bind check_win = some 1) :
    ∃ c, plainMinimax board depth true = some (depth * 100000, c) ∧ c ∈ moves
      ∧ (make_move board 1 c).bind check_win = some 1
      ∧ ∀ c2 ∈ moves, c2 < c → (make_move board 1 c2).bind check_win ≠ some 1 := by
  obtain ⟨cw, hcw, hwin⟩ := hex
  have hne : moves ≠ [] := List.ne_nil_of_mem hcw
  obtain ⟨v, c, hplain, hc, hval, hall⟩ := plain_node_max hlen hrect hd1 hd5 hw hm hne
  have hcases := fun col (hcol : col ∈ moves) =>
    exactValue_cases hlen hrect hw hm hcol (Or.inl rfl : (1 : Int) = 1 ∨ (1 : Int) = -1)
      (by omega : 0 ≤ depth - 1) (by omega : depth - 1 ≤ 4)
  -- the winning column has the terminal score
  have hvw : depth * 100000 ≤ v := by
    obtain ⟨x, hx, hxv, -⟩ := hall cw hcw
    obtain ⟨b, x2, hb, -, -, hx2, hcase⟩ := hcases cw hcw
    rw [hx] at hx2
    cases hx2
    rw [← makeMoveCopy_eq_make_move, hb] at hwin
    simp only [Option.some_bind] at hwin
    rcases hcase with ⟨-, hval2⟩ | ⟨hcw0, -, -⟩
    · omega
    · rw [hwin] at hcw0
      cases hcw0
  -- a column that reaches it wins
  have hwins : ∀ col ∈ moves, ∀ x, exactValue board 1 col (depth - 1) = some x →
      depth * 100000 ≤ x →
      x = depth * 100000 ∧ (make_move board 1 col).bind check_win = some 1 := by
    intro col hcol x hx hge
    obtain ⟨b, x2, hb, -, -, hx2, hcase⟩ := hcases col hcol
    rw [hx] at hx2
    cases hx2
    rw [← makeMoveCopy_eq_make_move, hb]
    simp only [Option.some_bind]
    rcases hcase with ⟨hcw1, hval2⟩ | ⟨-, h1, h0⟩
    · exact ⟨by omega, hcw1⟩
    · exfalso
      by_cases hd : depth - 1 = 0
      · have := h0 hd
        omega
      · have := h1 (by omega)
        omega
  obtain ⟨hv, hcwin⟩ := hwins c hc v hval hvw
  subst hv
  refine ⟨c, hplain, hc, hcwin, ?_⟩
  intro c2 hc2 hlt hwin2
  obtain ⟨x, hx, -, hxlt⟩ := hall c2 hc2
  obtain ⟨b, x2, hb, -, -, hx2, hcase⟩ := hcases c2 hc2
  rw [hx] at hx2
  cases hx2
  rw [← makeMoveCopy_eq_make_move, hb] at hwin2
  simp only [Option.some_bind] at hwin2
  have := hxlt hlt
  rcases hcase with ⟨-, hval2⟩ | ⟨hcw0, -, -⟩
  · omega
  · rw [hwin2] at hcw0
    cases hcw0

/-- C7: on a well-formed 6x7 board with `check_win(board) = 0` that has a legal column
whose `+1` drop gives `check_win = 1`, `minimax(board, 1, MinInt32, MaxInt32, true)`
returns the score `WIN_SCORE = 100000` together with the lowest-index such column; the
returned column is one whose drop wins. -/
theorem minimax_depth1_takes_win (board : Board) (moves : List Int)
    (hlen : board.length = 6) (hrect : Rect board 7) (_hcells : CellsOK board)
    (hw : check_win board = some 0) (hm : valid_moves board = some moves)
    (hex : ∃ c ∈ moves, (make_move board 1 c).bind check_win = some 1) :
    ∃ c, minimax board 1 MinInt32 MaxInt32 true = some (WIN_SCORE, c) ∧ c ∈ moves
      ∧ (make_move board 1 c).bind check_win = some 1
      ∧ ∀ c2 ∈ moves, c2 < c → (make_move board 1 c2).bind check_win ≠ some 1 := by
  rw [minimax_eq_plainMinimax hlen hrect (by omega) (by omega) true]
  obtain ⟨c, hplain, hrest⟩ :=
    plain_immediate_win hlen hrect hw hm (le_refl 1) (by omega) hex
  exact ⟨c, hplain, hrest⟩

/-- Witness for C7: on `boardThree` the hypotheses hold, column 3 being a winning drop. -/
theorem minimax_depth1_takes_win_witness :
    (boardThree.length = 6 ∧ Rect boardThree 7 ∧ CellsOK boardThree
        ∧ check_win boardThree = some 0
        ∧ valid_moves boardThree = some [0, 1, 2, 3, 4, 5, 6]
        ∧ ∃ c ∈ [(0 : Int), 1, 2, 3, 4, 5, 6],
            (make_move boardThree 1 c).bind check_win = some 1)
      ∧ ∃ c, minimax boardThree 1 MinInt32 MaxInt32 true = some (WIN_SCORE, c)
        ∧ c ∈ [(0 : Int), 1, 2, 3, 4, 5, 6]
        ∧ (make_move boardThree 1 c).bind check_win = some 1
        ∧ ∀ c2 ∈ [(0 : Int), 1, 2, 3, 4, 5, 6], c2 < c →
            (make_move boardThree 1 c2).bind check_win ≠ some 1 :=
  ⟨⟨by decide, by decide, by decide, by decide, by decide, 3, by decide, by decide⟩,
    minimax_depth1_takes_win boardThree [0, 1, 2, 3, 4, 5, 6] (by decide) (by decide)
      (by decide) (by decide) (by decide) ⟨3, by decide, by decide⟩⟩

/-- C9: on a well-formed 6x7 board with `check_win(board) = 0` on which `+1` has a legal
column whose drop wins immediately, `minimax(board, 5, MinInt32, MaxInt32, true)` (the
default depth) returns the score `5 * WIN_SCORE = 500000` and the lowest-index
immediately winning column. -/
theorem minimax_depth5_takes_win (board : Board) (moves : List Int)
    (hlen : board.length = 6) (hrect : Rect board 7) (_hcells : CellsOK board)
    (hw : check_win board = some 0) (hm : valid_moves board = some moves)
    (hex : ∃ c ∈ moves, (make_move board 1 c).bind check_win = some 1) :
    ∃ c, minimax board MAX_DEPTH MinInt32 MaxInt32 true = some (5 * WIN_SCORE, c)
      ∧ c ∈ moves ∧ (make_move board 1 c).bind check_win = some 1
      ∧ ∀ c2 ∈ moves, c2 < c → (make_move board 1 c2).bind check_win ≠ some 1 := by
  have h5 : MAX_DEPTH = 5 := rfl
  rw [h5, minimax_eq_plainMinimax hlen hrect (by omega) (by omega) true]
  obtain ⟨c, hplain, hrest⟩ :=
    plain_immediate_win hlen hrect hw hm (by omega : (1 : Int) ≤ 5) (le_refl 5) hex
  exact ⟨c, hplain, hrest⟩

/-- Witness for C9: on the board whose only discs are `+1` at row 0, columns 0, 1 and 2,
`check_win` returns 0 and `minimax` at depth 5 returns column 3 with score 500000. -/
theorem minimax_depth5_takes_win_witness :
    (boardThree.length = 6 ∧ Rect boardThree 7 ∧ CellsOK boardThree
        ∧ check_win boardThree = some 0
        ∧ valid_moves boardThree = some [0, 1, 2, 3, 4, 5, 6]
        ∧ ∃ c ∈ [(0 : Int), 1, 2, 3, 4, 5, 6],
            (make_move boardThree 1 c).bind check_win = some 1)
      ∧ minimax boardThree MAX_DEPTH MinInt32 MaxInt32 true = some (500000, 3) := by
  refine ⟨⟨by decide, by decide, by decide, by decide, by decide, 3, by decide, by decide⟩,
    ?_⟩
  obtain ⟨c, hres, hc, hwin, -⟩ :=
    minimax_depth5_takes_win boardThree [0, 1, 2, 3, 4, 5, 6] (by decide) (by decide)
      (by decide) (by decide) (by decide) ⟨3, by decide, by decide⟩
  have hc3 : c = 3 := by
    simp only [List.mem_cons, List.mem_singleton, List.not_mem_nil, or_false] at hc
    rcases hc with rfl | rfl | rfl | rfl | rfl | rfl | rfl
    · exact absurd hwin (by decide)
    · exact absurd hwin (by decide)
    · exact absurd hwin (by decide)
    · rfl
    · exact absurd hwin (by decide)
    · exact absurd hwin (by decide)
    · exact absurd hwin (by decide)
  rw [hc3] at hres
  exact hres

/-! ## Three-ply lookahead -/

/-- The unpruned search on a 6x7 board without winner and without legal move. -/
theorem plainMinimax_draw {board : Board} (hw : check_win board = some 0)
    (hm : valid_moves board = some []) {depth : Int} (hd : depth ≠ 0) (m : Bool) :
    plainMinimax board depth m = some (0, -1) := by
  unfold plainMinimax plainMinimaxFuel
  simp only [hm, hw]
  simp [hd]

/-- The exact value, two plies deep, of a legal column of `+1` on a 6x7 board without
winner: at least `-100000` when the column is safe, at most `-200000` when it is not. -/
theorem exactValue_safe {board : Board} (hlen : board.length = 6) (hrect : Rect board 7)
    (hw : check_win board = some 0) {moves : List Int} (hm : valid_moves board = some moves)
    {col : Int} (hcol : col ∈ moves) {x : Int} (hx : exactValue board 1 col 2 = some x) :
    (safeColumn board col = true → -100000 ≤ x)
      ∧ (safeColumn board col ≠ true → x ≤ -200000) := by
  obtain ⟨b, x2, hb, hlenb, hrb, hx2, hcase⟩ := exactValue_cases hlen hrect hw hm hcol
    (Or.inl rfl : (1 : Int) = 1 ∨ (1 : Int) = -1) (by omega : (0 : Int) ≤ 2)
    (by omega : (2 : Int) ≤ 4)
  rw [hx] at hx2
  cases hx2
  have hmk : make_move board 1 col = some b := hb
  rcases hcase with ⟨hcw1, hval⟩ | ⟨hcw0, -, -⟩
  · constructor
    · intro _; omega
    · intro hns
      exfalso
      apply hns
      unfold safeColumn
      simp only [hmk, hcw1, if_true]
  · have hrowsb : 0 < b.length := by omega
    have hmb := valid_moves_spec hrowsb hrb
    generalize hreplies : ((List.range 7).filter
        (fun c => cell b (b.length - 1) c = some 0)).map
          (fun c : Nat => (c : Int)) = replies at hmb
    have hsafe : safeColumn board col = replies.all (fun r =>
        match make_move b (-1) r with
        | none => false
        | some b2 => decide (check_win b2 ≠ some (-1))) := by
      unfold safeColumn
      simp only [hmk, hcw0, hmb]
      rfl
    have hreply := fun r (hr : r ∈ replies) =>
      exactValue_cases hlenb hrb hcw0 hmb hr (Or.inr rfl : (-1 : Int) = 1 ∨ (-1 : Int) = -1)
        (by omega : (0 : Int) ≤ 1) (by omega : (1 : Int) ≤ 4)
    rw [exactValue_eq hb] at hx
    by_cases hnil : replies = []
    · subst hnil
      rw [plainMinimax_draw hcw0 hmb (by omega)] at hx
      simp only [Option.map_some', Option.some.injEq] at hx
      constructor
      · intro _; omega
      · intro hns
        exfalso
        apply hns
        rw [hsafe]
        rfl
    · obtain ⟨v, rbest, hplain, hrbest, hvbest, hall⟩ := plain_node_min hlenb hrb
        (by omega : (1 : Int) ≤ 2) (by omega : (2 : Int) ≤ 5) hcw0 hmb hnil
      have hdec : decide ((1 : Int) = -1) = false := by decide
      rw [hdec, hplain] at hx
      simp only [Option.map_some', Option.some.injEq] at hx
      subst hx
      constructor
      · intro hs
        rw [hsafe, List.all_eq_true] at hs
        have hs2 := hs rbest hrbest
        obtain ⟨b2, y, hb2, -, -, hy, hcase2⟩ := hreply rbest hrbest
        have hmk2 : make_move b (-1) rbest = some b2 := hb2
        simp only [hmk2, decide_eq_true_eq] at hs2
        have h21 : (2 : Int) - 1 = 1 := by omega
        rw [h21, hy] at hvbest
        cases hvbest
        rcases hcase2 with ⟨hcwm, -⟩ | ⟨-, hbd, -⟩
        · exact absurd hcwm hs2
        · have := hbd (le_refl 1)
          omega
      · intro hns
        rw [hsafe, ne_eq, List.all_eq_true] at hns
        push_neg at hns
        obtain ⟨r, hr, hbad⟩ := hns
        obtain ⟨b2, y, hb2, -, -, hy, hcase2⟩ := hreply r hr
        have hmk2 : make_move b (-1) r = some b2 := hb2
        simp only [hmk2, decide_eq_true_eq, ne_eq, not_not] at hbad
        obtain ⟨y2, hy2, hle, -⟩ := hall r hr
        have h21 : (2 : Int) - 1 = 1 := by omega
        rw [h21, hy] at hy2
        cases hy2
        rcases hcase2 with ⟨-, hval⟩ | ⟨hcw2, -, -⟩
        · omega
        · rw [hbad] at hcw2
          cases hcw2

/-- C8: on a well-formed 6x7 board with `check_win(board) = 0` that has a safe legal
column (after dropping `+1` there, either `+1` has won or no legal reply of `-1` gives
`check_win = -1`), the column returned by `minimax(board, 3, MinInt32, MaxInt32, true)`
is a safe legal column. -/
theorem minimax_depth3_safe (board : Board) (moves : List Int)
    (hlen : board.length = 6) (hrect : Rect board 7) (_hcells : CellsOK board)
    (hw : check_win board = some 0) (hm : valid_moves board = some moves)
    (hex : ∃ c ∈ moves, safeColumn board c = true) :
    ∃ v c, minimax board 3 MinInt32 MaxInt32 true = some (v, c) ∧ c ∈ moves
      ∧ safeColumn board c = true := by
  obtain ⟨cs, hcs, hsafe⟩ := hex
  have hne : moves ≠ [] := List.ne_nil_of_mem hcs
  rw [minimax_eq_plainMinimax hlen hrect (by omega) (by omega) true]
  obtain ⟨v, c, hplain, hc, hval, hall⟩ := plain_node_max hlen hrect
    (by omega : (1 : Int) ≤ 3) (by omega : (3 : Int) ≤ 5) hw hm hne
  have h31 : (3 : Int) - 1 = 2 := by omega
  rw [h31] at hval hall
  refine ⟨v, c, hplain, hc, ?_⟩
  obtain ⟨x, hx, hxv, -⟩ := hall cs hcs
  have h1 := (exactValue_safe hlen hrect hw hm hcs hx).1 hsafe
  by_contra hns
  have h2 := (exactValue_safe hlen hrect hw hm hc hval).2 hns
  omega

/-- Witness for C8: on `boardThreat` column 3 is safe. -/
theorem minimax_depth3_safe_witness :
    (boardThreat.length = 6 ∧ Rect boardThreat 7 ∧ CellsOK boardThreat
        ∧ check_win boardThreat = some 0
        ∧ valid_moves boardThreat = some [0, 1, 2, 3, 4, 5, 6]
        ∧ ∃ c ∈ [(0 : Int), 1, 2, 3, 4, 5, 6], safeColumn boardThreat c = true)
      ∧ ∃ v c, minimax boardThreat 3 MinInt32 MaxInt32 true = some (v, c)
        ∧ c ∈ [(0 : Int), 1, 2, 3, 4, 5, 6] ∧ safeColumn boardThreat c = true :=
  ⟨⟨by decide, by decide, by decide, by decide, by decide, 3, by decide, by decide⟩,
    minimax_depth3_safe boardThreat [0, 1, 2, 3, 4, 5, 6] (by decide) (by decide)
      (by decide) (by decide) (by decide) ⟨3, by decide, by decide⟩⟩

/-! ## Base cases of `minimax` -/

/-- At a leaf (winner, depth 0 or no legal move) `minimax` returns without a recursive
call: the result is the same for every bound `n + 1` on the nesting of calls. -/
theorem minimaxFuel_leaf (n : Nat) {board : Board} {moves : List Int} {w : Int}
    (hm : valid_moves board = some moves) (hw : check_win board = some w)
    (depth alpha beta : Int) (m : Bool) (hleaf : w ≠ 0 ∨ depth = 0 ∨ moves = []) :
    minimaxFuel (n + 1) board depth alpha beta m
      = if w ≠ 0 then some (wrapInt (w * (depth + 1) * WIN_SCORE), -1)
        else if depth = 0 then (evaluate_board board).map (fun score => (score, -1))
        else some (0, -1) := by
  unfold minimaxFuel
  simp only [hm, hw]
  have hcond : w ≠ 0 ∨ depth = 0 ∨ moves.length = 0 := by
    rcases hleaf with h | h | h
    · exact Or.inl h
    · exact Or.inr (Or.inl h)
    · exact Or.inr (Or.inr (List.length_eq_zero.2 h))
  rw [if_pos hcond]
  cases evaluate_board board <;> rfl

/-- The terminal score of a non-wrapping depth. -/
theorem wrapInt_win_score {w : Int} (hw : w = 1 ∨ w = -1) {depth : Int} (hd0 : 0 ≤ depth)
    (hd : depth ≤ 92233720368546) :
    wrapInt (w * (depth + 1) * WIN_SCORE) = w * (depth + 1) * 100000 := by
  unfold WIN_SCORE
  rcases hw with rfl | rfl
  · exact wrapInt_eq_self (by omega) (by omega)
  · exact wrapInt_eq_self (by omega) (by omega)

/-- The terminal score at the largest 64 bit depth: on `boardDiag`, a board won by `-1`,
`minimax` called with `depth = 9223372036854775807` returns the score `0`, because
`depth + 1` and the product wrap around.  The engine never makes such a call: its only
caller passes `MAX_DEPTH` and the recursion decrements the depth. -/
theorem minimax_winner_score_wraps :
    check_win boardDiag = some (-1)
      ∧ minimax boardDiag 9223372036854775807 MinInt32 MaxInt32 true = some (0, -1) := by
  constructor <;> decide

/-- C11: on a well-formed board with at least 2 columns, for every `depth ≥ 0`, every
`alpha`, `beta` and `maximizingPlayer`, the base cases of `minimax` in their priority order:
(1) if `check_win(board) = w` is non-zero the result is `(w * (depth + 1) * WIN_SCORE, -1)`,
also when `depth = 0` or the board is full; the score is the value of this Go expression,
and it is the integer `w * (depth + 1) * 100000` for every depth up to `92233720368546`,
which includes every depth from `0` to `MAX_DEPTH`; (2) otherwise, if `depth = 0` the result
is `(evaluate_board(board), -1)`; (3) otherwise, if `valid_moves(board)` is empty the result
is `(0, -1)`.  In each case the result is already returned with the nesting bound 1, that
is without any recursive call on a successor board. -/
theorem minimax_base_cases (board : Board) (cols : Nat) (depth alpha beta : Int)
    (maximizingPlayer : Bool) (hrows : 0 < board.length) (hcols : 2 ≤ cols)
    (hrect : Rect board cols) (_hcells : CellsOK board) (hd0 : 0 ≤ depth) :
    ∃ w moves, check_win board = some w ∧ valid_moves board = some moves
      ∧ (w ≠ 0 →
          minimax board depth alpha beta maximizingPlayer
              = some (wrapInt (w * (depth + 1) * WIN_SCORE), -1)
            ∧ minimaxFuel 1 board depth alpha beta maximizingPlayer
              = some (wrapInt (w * (depth + 1) * WIN_SCORE), -1)
            ∧ (depth ≤ 92233720368546 →
                minimax board depth alpha beta maximizingPlayer
                    = some (w * (depth + 1) * 100000, -1)
                  ∧ minimaxFuel 1 board depth alpha beta maximizingPlayer
                    = some (w * (depth + 1) * 100000, -1)))
      ∧ (w = 0 → depth = 0 → ∃ s, evaluate_board board = some s
            ∧ minimax board depth alpha beta maximizingPlayer = some (s, -1)
            ∧ minimaxFuel 1 board depth alpha beta maximizingPlayer = some (s, -1))
      ∧ (w = 0 → depth ≠ 0 → moves = [] →
          minimax board depth alpha beta maximizingPlayer = some (0, -1)
            ∧ minimaxFuel 1 board depth alpha beta maximizingPlayer = some (0, -1)) := by
  have hm := valid_moves_spec hrows hrect
  obtain ⟨w, hw, hrange, -, -⟩ := check_win_spec hrows hrect
  obtain ⟨s, hs, -, -⟩ := evaluate_board_spec hrows hcols hrect
  refine ⟨w, _, hw, hm, ?_, ?_, ?_⟩
  · intro hw0
    have hwc : w = 1 ∨ w = -1 := by
      rcases hrange with h | h | h
      · exact Or.inl h
      · exact Or.inr h
      · exact absurd h hw0
    have key := fun n => minimaxFuel_leaf n hm hw depth alpha beta maximizingPlayer
      (Or.inl hw0)
    simp only [if_pos hw0] at key
    refine ⟨key (emptyCells board), key 0, ?_⟩
    intro hd
    rw [← wrapInt_win_score hwc hd0 hd]
    exact ⟨key (emptyCells board), key 0⟩
  · intro hw0 hdz
    have key := fun n => minimaxFuel_leaf n hm hw depth alpha beta maximizingPlayer
      (Or.inr (Or.inl hdz))
    simp only [if_neg (not_not.2 hw0), if_pos hdz, hs, Option.map_some'] at key
    exact ⟨s, hs, key (emptyCells board), key 0⟩
  · intro hw0 hdz hnil
    have key := fun n => minimaxFuel_leaf n hm hw depth alpha beta maximizingPlayer
      (Or.inr (Or.inr hnil))
    simp only [if_neg (not_not.2 hw0), if_neg hdz] at key
    exact ⟨key (emptyCells board), key 0⟩

/-- Witness for C11: `boardDiag`, won by `-1`, at depth 3. -/
theorem minimax_base_cases_witness :
    (0 < boardDiag.length ∧ 2 ≤ 7 ∧ Rect boardDiag 7 ∧ CellsOK boardDiag ∧ (0 : Int) ≤ 3)
      ∧ ∃ w moves, check_win boardDiag = some w ∧ valid_moves boardDiag = some moves
        ∧ (w ≠ 0 →
            minimax boardDiag 3 MinInt32 MaxInt32 true
                = some (wrapInt (w * (3 + 1) * WIN_SCORE), -1)
              ∧ minimaxFuel 1 boardDiag 3 MinInt32 MaxInt32 true
                = some (wrapInt (w * (3 + 1) * WIN_SCORE), -1)
              ∧ ((3 : Int) ≤ 92233720368546 →
                  minimax boardDiag 3 MinInt32 MaxInt32 true
                      = some (w * (3 + 1) * 100000, -1)
                    ∧ minimaxFuel 1 boardDiag 3 MinInt32 MaxInt32 true
                      = some (w * (3 + 1) * 100000, -1)))
        ∧ (w = 0 → (3 : Int) = 0 → ∃ s, evaluate_board boardDiag = some s
              ∧ minimax boardDiag 3 MinInt32 MaxInt32 true = some (s, -1)
              ∧ minimaxFuel 1 boardDiag 3 MinInt32 MaxInt32 true = some (s, -1))
        ∧ (w = 0 → (3 : Int) ≠ 0 → moves = [] →
            minimax boardDiag 3 MinInt32 MaxInt32 true = some (0, -1)
              ∧ minimaxFuel 1 boardDiag 3 MinInt32 MaxInt32 true = some (0, -1)) :=
  ⟨by decide, minimax_base_cases boardDiag 7 3 MinInt32 MaxInt32 true (by decide)
    (by decide) (by decide) (by decide) (by decide)⟩

/-! ## Gravity -/

/-- Placing a non-zero disc in the lowest empty cell of a column keeps gravity. -/
theorem gravity_setCell {board : Board} {cols : Nat} (hg : Gravity board cols) {rs c : Nat}
    {player : Int} (hp : player ≠ 0) (hz : cell board rs c = some 0)
    (hbelow : ∀ r2, r2 < rs → ∃ v, cell board r2 c = some v ∧ v ≠ 0) :
    Gravity (setCell board rs (c : Int) player) cols := by
  intro c2 hc2 r hr r2 hr2 hlt hcell
  rw [length_setCell] at hr hr2
  by_cases hc : c2 = c
  · subst hc
    have hne : r ≠ rs := by
      rintro rfl
      rw [cell_setCell_same player hz] at hcell
      exact hp (Option.some.inj hcell)
    rw [cell_setCell_other _ _ _ _ _ _ (Or.inl hne)] at hcell
    have hgt : rs < r := by
      by_contra hcon
      obtain ⟨v, hv, hv0⟩ := hbelow r (by omega)
      rw [hv] at hcell
      exact hv0 (Option.some.inj hcell)
    rw [cell_setCell_other _ _ _ _ _ _ (Or.inl (by omega))]
    exact hg c2 hc2 r hr r2 hr2 hlt hcell
  · rw [cell_setCell_other _ _ _ _ _ _ (Or.inr hc)] at hcell ⊢
    exact hg c2 hc2 r hr r2 hr2 hlt hcell

/-- The board returned by the drop loop on a rectangular board with gravity. -/
theorem make_move_gravity {board : Board} {cols : Nat} (hrect : Rect board cols)
    (hg : Gravity board cols) {player : Int} (hp : player ≠ 0) {c : Nat} (hc : c < cols) :
    ∃ b, make_move board player (c : Int) = some b ∧ b.length = board.length ∧ Rect b cols
      ∧ Gravity b cols := by
  by_cases hex : ∃ r, cell board r c = some 0
  · obtain ⟨rs, hz, -, hbelow, hmove⟩ := make_move_spec hrect player hc hex
    exact ⟨_, hmove, length_setCell _ _ _ _, rect_setCell hrect _ _ _,
      gravity_setCell hg hp hz hbelow⟩
  · refine ⟨board, ?_, rfl, hrect, hg⟩
    unfold make_move
    apply dropLoop_full
    intro r2 _ hr2
    obtain ⟨v, hv⟩ := cell_some_of_rect hrect (by omega : r2 < board.length) hc
    refine ⟨v, hv, ?_⟩
    rintro rfl
    exact hex ⟨r2, hv⟩

/-- C12: gravity is an invariant of the drop operations.  On a rectangular board in which
every column has its non-zero cells contiguous from row 0, for a player in `{-1, +1}` and
a column `col` with `0 ≤ col < cols`, `make_move(board, player, col)` and
`makeMoveCopy(board, col, player)` return boards of the same shape that again have, in
every column, the non-zero cells contiguous from row 0. -/
theorem drop_keeps_gravity (board : Board) (cols : Nat) (player col : Int)
    (hrect : Rect board cols) (hg : Gravity board cols) (hp : player = -1 ∨ player = 1)
    (h0 : 0 ≤ col) (hlt : col < cols) :
    (∃ b, make_move board player col = some b ∧ b.length = board.length ∧ Rect b cols
        ∧ Gravity b cols)
      ∧ (∃ b, makeMoveCopy board col player = some b ∧ b.length = board.length
        ∧ Rect b cols ∧ Gravity b cols) := by
  obtain ⟨c, rfl⟩ := Int.eq_ofNat_of_zero_le h0
  have hc : c < cols := by exact_mod_cast hlt
  have hp0 : player ≠ 0 := by rcases hp with h | h <;> omega
  exact ⟨make_move_gravity hrect hg hp0 hc, make_move_gravity hrect hg hp0 hc⟩

/-- Witness for C12: dropping `-1` in column 1 of `boardDiag`. -/
theorem drop_keeps_gravity_witness :
    (Rect boardDiag 7 ∧ Gravity boardDiag 7 ∧ ((-1 : Int) = -1 ∨ (-1 : Int) = 1)
        ∧ (0 : Int) ≤ 1 ∧ (1 : Int) < (7 : Nat))
      ∧ (∃ b, make_move boardDiag (-1) 1 = some b ∧ b.length = boardDiag.length
          ∧ Rect b 7 ∧ Gravity b 7)
      ∧ (∃ b, makeMoveCopy boardDiag 1 (-1) = some b ∧ b.length = boardDiag.length
          ∧ Rect b 7 ∧ Gravity b 7) :=
  ⟨by decide, drop_keeps_gravity boardDiag 7 (-1) 1 (by decide) (by decide) (by decide)
    (by decide) (by decide)⟩

/-! ## Swapping the players -/

theorem cell_negBoard (board : Board) (r c : Nat) :
    cell (negBoard board) r c = (cell board r c).map (fun v => -v) := by
  unfold cell negBoard
  rw [List.getElem?_map]
  cases board[r]? with
  | none => rfl
  | some row =>
    simp only [Option.map_some']
    rw [List.getElem?_map]

theorem cellI_negBoard (board : Board) (r : Nat) (c : Int) :
    cellI (negBoard board) r c = (cellI board r c).map (fun v => -v) := by
  unfold cellI
  split_ifs
  · rfl
  · exact cell_negBoard board r _

theorem centerBonus_neg (v : Int) : centerBonus (-v) = -centerBonus v := by
  unfold centerBonus
  split_ifs <;> omega

theorem count_map_neg (a : Int) (w : List Int) :
    (w.map (fun v => -v)).count a = w.count (-a) := by
  induction w with
  | nil => rfl
  | cons x xs ih =>
    simp only [List.map_cons, List.count_cons, ih]
    congr 1
    by_cases h : x = -a
    · subst h
      simp
    · have h2 : ¬ (-x = a) := fun e => h (by omega)
      simp [h, h2]

theorem evaluateWindow_neg (w : List Int) :
    evaluateWindow (w.map (fun v => -v)) = -evaluateWindow w := by
  unfold evaluateWindow
  simp only [count_map_neg, neg_neg]
  split_ifs <;> omega

theorem foldlM_neg {α : Type} (f g : Int → α → Option Int)
    (h : ∀ s x, g (-s) x = (f s x).map (fun v => -v)) :
    ∀ (l : List α) (s : Int), l.foldlM g (-s) = (l.foldlM f s).map (fun v => -v) := by
  intro l
  induction l with
  | nil => intro s; rfl
  | cons x xs ih =>
    intro s
    rw [List.foldlM_cons, List.foldlM_cons, h]
    cases f s x with
    | none => rfl
    | some v =>
      simp only [Option.map_some', Option.bind_eq_bind, Option.some_bind]
      exact ih v

theorem centerLoop_neg (board : Board) (c1 c2 : Int) (rs : List Nat) (score : Int) :
    centerLoop (negBoard board) c1 c2 rs (-score)
      = (centerLoop board c1 c2 rs score).map (fun v => -v) := by
  unfold centerLoop
  apply foldlM_neg
  intro s r
  simp only [cellI_negBoard]
  cases cellI board r c1 with
  | none => rfl
  | some a =>
    cases cellI board r c2 with
    | none => rfl
    | some b =>
      simp only [Option.map_some', centerBonus_neg]
      congr 1
      omega

theorem readWindow_neg (board : Board) :
    ∀ line : List (Nat × Nat),
      readWindow (negBoard board) line
        = (readWindow board line).map (fun w => w.map (fun v => -v)) := by
  intro line
  induction line with
  | nil => rfl
  | cons q rest ih =>
    unfold readWindow at ih ⊢
    rw [List.mapM_cons, List.mapM_cons, cell_negBoard, ih]
    cases cell board q.1 q.2 with
    | none => rfl
    | some v =>
      cases List.mapM (fun q => cell board q.1 q.2) rest with
      | none => rfl
      | some w => rfl

theorem windowLoop_neg (board : Board) (lines : List (List (Nat × Nat))) (score : Int) :
    windowLoop (negBoard board) lines (-score)
      = (windowLoop board lines score).map (fun v => -v) := by
  unfold windowLoop
  apply foldlM_neg
  intro s line
  simp only [readWindow_neg]
  cases readWindow board line with
  | none => rfl
  | some w =>
    simp only [Option.map_some', evaluateWindow_neg]
    congr 1
    omega

/-- Negating every cell negates the score, also when a read fails. -/
theorem evaluate_board_negBoard (board : Board) :
    evaluate_board (negBoard board) = (evaluate_board board).map (fun v => -v) := by
  unfold evaluate_board
  have hlen : (negBoard board).length = board.length := by simp [negBoard]
  have h0 : (negBoard board)[0]? = (board[0]?).map (fun row => row.map (fun v => -v)) := by
    unfold negBoard
    rw [List.getElem?_map]
  rw [h0, hlen]
  cases board[0]? with
  | none => rfl
  | some row0 =>
    simp only [Option.map_some', List.length_map]
    have hc := centerLoop_neg board ((row0.length : Int) / 2 - 1) ((row0.length : Int) / 2)
      (List.range board.length) 0
    rw [neg_zero] at hc
    rw [hc]
    cases centerLoop board ((row0.length : Int) / 2 - 1) ((row0.length : Int) / 2)
        (List.range board.length) 0 with
    | none => rfl
    | some s =>
      simp only [Option.map_some']
      exact windowLoop_neg board _ s

/-- C13: on a rectangular board with at least one row and at least 2 columns and cells in
`{-1, 0, 1}`, `evaluate_board` returns a score, and on the board with every cell negated
(all `+1` and `-1` swapped) it returns the negation of that score. -/
theorem evaluate_board_antisymmetric (board : Board) (cols : Nat) (hrows : 0 < board.length)
    (hcols : 2 ≤ cols) (hrect : Rect board cols) (_hcells : CellsOK board) :
    ∃ s, evaluate_board board = some s ∧ evaluate_board (negBoard board) = some (-s) := by
  obtain ⟨s, hs, -, -⟩ := evaluate_board_spec hrows hcols hrect
  refine ⟨s, hs, ?_⟩
  rw [evaluate_board_negBoard, hs]
  rfl

/-- Witness for C13: `boardDiag`. -/
theorem evaluate_board_antisymmetric_witness :
    (0 < boardDiag.length ∧ 2 ≤ 7 ∧ Rect boardDiag 7 ∧ CellsOK boardDiag)
      ∧ ∃ s, evaluate_board boardDiag = some s
        ∧ evaluate_board (negBoard boardDiag) = some (-s) :=
  ⟨by decide, evaluate_board_antisymmetric boardDiag 7 (by decide) (by decide) (by decide)
    (by decide)⟩

/-! ## Boards on which the engine fails -/

/-- On a rectangular board with at least one row and 2 columns `check_win`, `valid_moves`,
`evaluate_board` and `minimax` (every depth, every window) return a value. -/
theorem engine_total_of_two_columns {board : Board} {cols : Nat} (hrows : 0 < board.length)
    (hcols : 2 ≤ cols) (hrect : Rect board cols) (depth alpha beta : Int) (m : Bool) :
    (∃ w, check_win board = some w) ∧ (∃ moves, valid_moves board = some moves)
      ∧ (∃ s, evaluate_board board = some s)
      ∧ (∃ res, minimax board depth alpha beta m = some res) := by
  obtain ⟨w, hw, -⟩ := check_win_spec hrows hrect
  obtain ⟨s, hs, -⟩ := evaluate_board_spec hrows hcols hrect
  obtain ⟨v, c, -, -, hres, -⟩ := minimaxFuel_total hcols (emptyCells board) board rfl hrows
    hrect depth alpha beta m
  exact ⟨⟨w, hw⟩, ⟨_, valid_moves_spec hrows hrect⟩, ⟨s, hs⟩, ⟨_, hres⟩⟩

/-- C14 (evaluation of the code at `boardOneColumn`, a well-formed board of 6 rows and 1
column): `check_win` and `valid_moves` return, but `evaluate_board` reads
`board[r][cols/2 - 1] = board[r][-1]` and fails, and so does `minimax` at depth 0 and at
depth 5. -/
theorem one_column_board_fails :
    (0 < boardOneColumn.length ∧ 0 < 1 ∧ Rect boardOneColumn 1 ∧ CellsOK boardOneColumn)
      ∧ check_win boardOneColumn = some 0
      ∧ valid_moves boardOneColumn = some [0]
      ∧ cellI boardOneColumn 0 (((1 : Nat) : Int) / 2 - 1) = none
      ∧ evaluate_board boardOneColumn = none
      ∧ minimax boardOneColumn 0 MinInt32 MaxInt32 true = none
      ∧ minimax boardOneColumn 5 MinInt32 MaxInt32 true = none := by
  refine ⟨by decide, ?_, ?_, ?_, ?_, ?_, ?_⟩ <;> decide

/-! ## Pruning does not change the score -/

/-- C17: alpha-beta pruning does not change the result of the search.  On a well-formed
6x7 board, for every depth `d` with `0 ≤ d ≤ 5` and either side to move,
`minimax(board, d, MinInt32, MaxInt32, maximizingPlayer)` and `plainMinimax(board, d,
maximizingPlayer)`, the same recursion without `alpha`, `beta` and the two `break`
statements, both return and return the same score. -/
theorem pruning_preserves_score (board : Board) (depth : Int) (maximizingPlayer : Bool)
    (hlen : board.length = 6) (hrect : Rect board 7) (_hcells : CellsOK board)
    (hd0 : 0 ≤ depth) (hd5 : depth ≤ 5) :
    ∃ v c1 c2, minimax board depth MinInt32 MaxInt32 maximizingPlayer = some (v, c1)
      ∧ plainMinimax board depth maximizingPlayer = some (v, c2) := by
  obtain ⟨pv, pc, hpv, -⟩ := search_sound (by omega : 2 ≤ 7) (emptyCells board) board rfl
    (by omega) hrect depth maximizingPlayer
  refine ⟨pv, pc, pc, ?_, hpv⟩
  rw [minimax_eq_plainMinimax hlen hrect hd0 hd5 maximizingPlayer]
  exact hpv

/-- Witness for C17: `boardThreat` at depth 2, `+1` to move. -/
theorem pruning_preserves_score_witness :
    (boardThreat.length = 6 ∧ Rect boardThreat 7 ∧ CellsOK boardThreat ∧ (0 : Int) ≤ 2
        ∧ (2 : Int) ≤ 5)
      ∧ ∃ v c1 c2, minimax boardThreat 2 MinInt32 MaxInt32 true = some (v, c1)
        ∧ plainMinimax boardThreat 2 true = some (v, c2) :=
  ⟨by decide, pruning_preserves_score boardThreat 2 true (by decide) (by decide) (by decide)
    (by decide) (by decide)⟩

/-! ## The center columns -/

/-- C18 (evaluation of the code on two 7-column boards): with a single `+1` disc in
column 4 the score is 5, the sum of `evaluateWindow` over the windows alone, although the
cells of columns 3 and 4 sum to 1; with a single `+1` disc in column 2 the score is 7,
which is 2 more than the sum over the windows, although the cells of columns 3 and 4 sum
to 0.  The center bonus is applied to the columns `cols/2 - 1 = 2` and `cols/2 = 3`. -/
theorem center_bonus_on_columns_2_and_3 :
    (Rect boardDiscCol4 7 ∧ Rect boardDiscCol2 7
        ∧ ((7 : Nat) : Int) / 2 - 1 = 2 ∧ ((7 : Nat) : Int) / 2 = 3)
      ∧ (evaluate_board boardDiscCol4 = some 5
        ∧ windowLoop boardDiscCol4 (evalLines 6 7) 0 = some 5
        ∧ columnSum boardDiscCol4 3 + columnSum boardDiscCol4 4 = 1)
      ∧ (evaluate_board boardDiscCol2 = some 7
        ∧ windowLoop boardDiscCol2 (evalLines 6 7) 0 = some 5
        ∧ columnSum boardDiscCol2 3 + columnSum boardDiscCol2 4 = 0) := by
  refine ⟨by decide, ⟨?_, ?_, ?_⟩, ⟨?_, ?_, ?_⟩⟩ <;> decide

/-! ## Legal moves after a drop -/

theorem filter_range_lt (rs : Nat) :
    ∀ n, rs ≤ n → ((List.range n).filter (fun r => decide (r < rs))).length = rs := by
  intro n
  induction n with
  | zero => intro h; simp; omega
  | succ n ih =>
    intro h
    rw [List.range_succ, List.filter_append, List.length_append]
    by_cases hn : rs ≤ n
    · rw [ih hn]
      have : ¬ n < rs := by omega
      simp [this]
    · have hrs : rs = n + 1 := by omega
      have hall : (List.range n).filter (fun r => decide (r < rs)) = List.range n := by
        apply List.filter_eq_self.2
        intro a ha
        have := List.mem_range.1 ha
        simp only [decide_eq_true_eq]
        omega
      rw [hall, List.length_range]
      have : n < rs := by omega
      simp [this, hrs]

/-- Under gravity the number of discs of a column is the index of its lowest empty row. -/
theorem discsInColumn_eq {board : Board} {cols : Nat} (hg : Gravity board cols) {c rs : Nat}
    (hc : c < cols) (hrs : rs < board.length) (hz : cell board rs c = some 0)
    (hbelow : ∀ r2, r2 < rs → ∃ v, cell board r2 c = some v ∧ v ≠ 0) :
    discsInColumn board (c : Int) = rs := by
  unfold discsInColumn
  have hcongr : (List.range board.length).filter
        (fun r => decide (cellI board r (c : Int) ≠ some 0))
      = (List.range board.length).filter (fun r => decide (r < rs)) := by
    apply List.filter_congr
    intro r hr
    have hr2 := List.mem_range.1 hr
    rw [cellI_natCast]
    by_cases hlt : r < rs
    · obtain ⟨v, hv, hv0⟩ := hbelow r hlt
      have : cell board r c ≠ some 0 := by
        rw [hv]
        exact fun e => hv0 (Option.some.inj e)
      simp [this, hlt]
    · have hzero : cell board r c = some 0 := by
        by_cases he : r = rs
        · rw [he]; exact hz
        · exact hg c hc rs hrs r hr2 (by omega) hz
      simp [hzero, hlt]
  rw [hcongr]
  exact filter_range_lt rs board.length (by omega)

/-- The legal moves after a disc was placed in the lowest empty cell of column `c`. -/
theorem valid_moves_setCell {board : Board} {cols : Nat} (hrows : 0 < board.length)
    (hrect : Rect board cols) {moves : List Int} (hm : valid_moves board = some moves)
    {c rs : Nat} {player : Int} (hp : player ≠ 0) (hz : cell board rs c = some 0) :
    (rs = board.length - 1 →
        valid_moves (setCell board rs (c : Int) player) = some (moves.erase (c : Int)))
      ∧ (rs ≠ board.length - 1 →
        valid_moves (setCell board rs (c : Int) player) = some moves) := by
  have hnodup : moves.Nodup :=
    (valid_moves_sorted hrows hrect hm).imp (fun h => ne_of_lt h)
  have hm2 := valid_moves_spec hrows hrect
  rw [hm] at hm2
  have hlenb := length_setCell board rs (c : Int) player
  have hm3 := valid_moves_spec (by omega : 0 < (setCell board rs (c : Int) player).length)
    (rect_setCell hrect rs (c : Int) player)
  rw [hlenb] at hm3
  constructor
  · intro htop
    rw [hm3, hnodup.erase_eq_filter]
    cases hm2
    rw [List.filter_map, List.filter_filter]
    congr 2
    apply List.filter_congr
    intro c2 _
    by_cases hc2 : c2 = c
    · subst hc2
      have : cell (setCell board rs (c2 : Int) player) (board.length - 1) c2 ≠ some 0 := by
        rw [← htop, cell_setCell_same player hz]
        exact fun e => hp (Option.some.inj e)
      simp [this]
    · rw [cell_setCell_other _ _ _ _ _ _ (Or.inr hc2)]
      have : ¬ ((c2 : Int) = (c : Int)) := fun e => hc2 (by exact_mod_cast e)
      simp [this]
  · intro htop
    rw [hm3]
    cases hm2
    congr 2
    apply List.filter_congr
    intro c2 _
    rw [cell_setCell_other _ _ _ _ _ _ (Or.inl (fun e => htop e.symm))]

/-- C15: drop then legal moves.  On a rectangular board with gravity, for a player in
`{-1, +1}` and a column `c` of `valid_moves(board)`, `make_move(board, player, c)` returns
a board whose legal moves are `valid_moves(board)` with `c` removed if column `c` held
exactly `rows - 1` discs before the drop, and `valid_moves(board)` otherwise. -/
theorem valid_moves_after_drop (board : Board) (cols : Nat) (player col : Int)
    (moves : List Int) (hrect : Rect board cols) (hg : Gravity board cols)
    (hp : player = -1 ∨ player = 1) (hm : valid_moves board = some moves)
    (hcol : col ∈ moves) :
    ∃ b, make_move board player col = some b
      ∧ (discsInColumn board col = board.length - 1 →
          valid_moves b = some (moves.erase col))
      ∧ (discsInColumn board col ≠ board.length - 1 → valid_moves b = some moves) := by
  have hrows : 0 < board.length := by
    by_contra hcon
    have h0 : board.length = 0 := by omega
    have : valid_moves board = some [] := by simp [valid_moves, h0]
    rw [hm] at this
    cases this
    cases hcol
  have hp0 : player ≠ 0 := by rcases hp with h | h <;> omega
  obtain ⟨h0, hlt, hcell⟩ := (mem_valid_moves hrows hrect hm col).1 hcol
  obtain ⟨c, rfl⟩ := Int.eq_ofNat_of_zero_le h0
  have hc : c < cols := by exact_mod_cast hlt
  rw [cellI_natCast] at hcell
  obtain ⟨rs, hz, hrs, hbelow, hmove⟩ := make_move_spec hrect player hc ⟨_, hcell⟩
  have hdiscs := discsInColumn_eq hg hc hrs hz hbelow
  obtain ⟨h1, h2⟩ := valid_moves_setCell hrows hrect hm (c := c) hp0 hz
  refine ⟨_, hmove, ?_, ?_⟩
  · intro h
    exact h1 (by omega)
  · intro h
    exact h2 (by omega)

/-- Witness for C15: dropping `+1` in column 3 of `boardThreat`. -/
theorem valid_moves_after_drop_witness :
    (Rect boardThreat 7 ∧ Gravity boardThreat 7 ∧ ((1 : Int) = -1 ∨ (1 : Int) = 1)
        ∧ valid_moves boardThreat = some [0, 1, 2, 3, 4, 5, 6]
        ∧ (3 : Int) ∈ [(0 : Int), 1, 2, 3, 4, 5, 6])
      ∧ ∃ b, make_move boardThreat 1 3 = some b
        ∧ (discsInColumn boardThreat 3 = boardThreat.length - 1 →
            valid_moves b = some ([(0 : Int), 1, 2, 3, 4, 5, 6].erase 3))
        ∧ (discsInColumn boardThreat 3 ≠ boardThreat.length - 1 →
            valid_moves b = some [0, 1, 2, 3, 4, 5, 6]) :=
  ⟨by decide, valid_moves_after_drop boardThreat 7 1 3 [0, 1, 2, 3, 4, 5, 6] (by decide)
    (by decide) (by decide) (by decide) (by decide)⟩

/-! ## Bounds on the scores of `minimax` with an arbitrary window -/

theorem maxLoop_range (child : Board → Int → Int → Option (Int × Int)) (board : Board)
    (beta L U : Int) :
    ∀ (moves : List Int) (alpha bestVal bestCol : Int),
      (∀ col ∈ moves, ∀ b a bt res, makeMoveCopy board col 1 = some b →
        child b a bt = some res → L ≤ res.1 ∧ res.1 ≤ U) →
      bestVal ≤ U → (moves ≠ [] ∨ L ≤ bestVal) →
      ∀ v c, maxLoop child board beta moves alpha bestVal bestCol = some (v, c) →
        L ≤ v ∧ v ≤ U := by
  intro moves
  induction moves with
  | nil =>
    intro alpha bv bc _ h1 h2 v c h
    simp only [maxLoop, Option.some.injEq, Prod.mk.injEq] at h
    rcases h2 with h2 | h2
    · exact absurd rfl h2
    · omega
  | cons col rest ih =>
    intro alpha bv bc hch h1 h2 v c h
    unfold maxLoop at h
    cases hb : makeMoveCopy board col 1 with
    | none => simp [hb] at h
    | some b =>
      cases hres : child b alpha beta with
      | none => simp [hb, hres] at h
      | some res =>
        simp only [hb, hres] at h
        have hr := hch col (List.mem_cons_self _ _) b alpha beta res hb hres
        by_cases hcut : beta ≤ max alpha (if res.1 > bv then res.1 else bv)
        · rw [if_pos hcut] at h
          simp only [Option.some.injEq, Prod.mk.injEq] at h
          obtain ⟨h, -⟩ := h
          subst h
          split_ifs <;> omega
        · rw [if_neg hcut] at h
          refine ih _ _ _ (fun c2 hc2 => hch c2 (List.mem_cons_of_mem _ hc2)) ?_ ?_ v c h
          · split_ifs <;> omega
          · right
            split_ifs <;> omega

theorem minLoop_range (child : Board → Int → Int → Option (Int × Int)) (board : Board)
    (alpha L U : Int) :
    ∀ (moves : List Int) (beta bestVal bestCol : Int),
      (∀ col ∈ moves, ∀ b a bt res, makeMoveCopy board col (-1) = some b →
        child b a bt = some res → L ≤ res.1 ∧ res.1 ≤ U) →
      L ≤ bestVal → (moves ≠ [] ∨ bestVal ≤ U) →
      ∀ v c, minLoop child board alpha moves beta bestVal bestCol = some (v, c) →
        L ≤ v ∧ v ≤ U := by
  intro moves
  induction moves with
  | nil =>
    intro beta bv bc _ h1 h2 v c h
    simp only [minLoop, Option.some.injEq, Prod.mk.injEq] at h
    rcases h2 with h2 | h2
    · exact absurd rfl h2
    · omega
  | cons col rest ih =>
    intro beta bv bc hch h1 h2 v c h
    unfold minLoop at h
    cases hb : makeMoveCopy board col (-1) with
    | none => simp [hb] at h
    | some b =>
      cases hres : child b alpha beta with
      | none => simp [hb, hres] at h
      | some res =>
        simp only [hb, hres] at h
        have hr := hch col (List.mem_cons_self _ _) b alpha beta res hb hres
        by_cases hcut : min beta (if res.1 < bv then res.1 else bv) ≤ alpha
        · rw [if_pos hcut] at h
          simp only [Option.some.injEq, Prod.mk.injEq] at h
          obtain ⟨h, -⟩ := h
          subst h
          split_ifs <;> omega
        · rw [if_neg hcut] at h
          refine ih _ _ _ (fun c2 hc2 => hch c2 (List.mem_cons_of_mem _ hc2)) ?_ ?_ v c h
          · split_ifs <;> omega
          · right
            split_ifs <;> omega

/-- On a 6x7 board, a score returned by `minimax` for a depth from 0 to 5 and any window
is at most `(depth + 1) * 100000` in absolute value. -/
theorem minimax_bound :
    ∀ (n : Nat) (board : Board), emptyCells board = n → board.length = 6 → Rect board 7 →
      ∀ (depth alpha beta : Int) (m : Bool), 0 ≤ depth → depth ≤ 5 →
        ∀ v c, minimaxFuel (n + 1) board depth alpha beta m = some (v, c) →
          -((depth + 1) * 100000) ≤ v ∧ v ≤ (depth + 1) * 100000 := by
  intro n
  induction n using Nat.strong_induction_on with
  | _ n ih =>
    intro board hn hlen hrect depth alpha beta m hd0 hd5 v c h
    have hrows : 0 < board.length := by omega
    have hm := valid_moves_spec hrows hrect
    obtain ⟨w, hw, hwrange, -, -⟩ := check_win_spec hrows hrect
    obtain ⟨s, hs, hslo, hshi⟩ := evaluate_board_bound_6x7 hlen hrect
    generalize hmoves : ((List.range 7).filter
        (fun c => cell board (board.length - 1) c = some 0)).map
          (fun c : Nat => (c : Int)) = moves at hm
    have hchild : ∀ (player : Int), player ≠ 0 → ∀ (m2 : Bool), 1 ≤ depth → ∀ col ∈ moves,
        ∀ b a bt res, makeMoveCopy board col player = some b →
          minimaxFuel n b (wrapInt (depth - 1)) a bt m2 = some res →
          -(depth * 100000) ≤ res.1 ∧ res.1 ≤ depth * 100000 := by
      intro player hp m2 hd1 col hcol b a bt res hb hres
      obtain ⟨b2, hb2, hlen2, hrb, hempty⟩ := child_shape hrows hrect hm hcol hp
      rw [hb] at hb2
      cases hb2
      have hlt : emptyCells b < n := by omega
      have hfuel : emptyCells b + 1 = n := by omega
      rw [wrapInt_eq_self (by omega) (by omega)] at hres
      rw [← hfuel] at hres
      have := ih (emptyCells b) hlt b rfl (by omega) hrb (depth - 1) a bt m2 (by omega)
        (by omega) res.1 res.2 hres
      omega
    unfold minimaxFuel at h
    simp only [hm, hw] at h
    by_cases hterm : w ≠ 0 ∨ depth = 0 ∨ moves.length = 0
    · simp only [if_pos hterm] at h
      by_cases hw0 : w ≠ 0
      · simp only [if_pos hw0, Option.some.injEq, Prod.mk.injEq] at h
        obtain ⟨h, -⟩ := h
        subst h
        have hwcases : w = 1 ∨ w = -1 := by
          rcases hwrange with h | h | h
          · exact Or.inl h
          · exact Or.inr h
          · exact absurd h hw0
        rw [wrapInt_win_score hwcases hd0 (by omega)]
        rcases hwcases with rfl | rfl <;> omega
      · simp only [if_neg hw0] at h
        by_cases hd : depth = 0
        · simp only [if_pos hd, hs, Option.some.injEq, Prod.mk.injEq] at h
          obtain ⟨h, -⟩ := h
          subst h
          exact ⟨by omega, by omega⟩
        · simp only [if_neg hd, Option.some.injEq, Prod.mk.injEq] at h
          obtain ⟨h, -⟩ := h
          subst h
          exact ⟨by omega, by omega⟩
    · simp only [if_neg hterm] at h
      push_neg at hterm
      obtain ⟨-, hd, -⟩ := hterm
      have hd1 : 1 ≤ depth := by omega
      cases hmv : moves with
      | nil => simp [hmv] at h
      | cons first rest =>
        rw [hmv] at h
        simp only at h
        rw [← hmv] at h
        have hne : moves ≠ [] := by rw [hmv]; exact List.cons_ne_nil _ _
        have key : -(depth * 100000) ≤ v ∧ v ≤ depth * 100000 := by
          cases m with
          | true =>
            simp only [if_true] at h
            exact maxLoop_range _ board _ _ _ moves alpha MinInt32 first
              (hchild 1 (by decide) false hd1) (by unfold MinInt32; omega) (Or.inl hne)
              v c h
          | false =>
            simp only [Bool.false_eq_true, if_false] at h
            exact minLoop_range _ board _ _ _ moves beta MaxInt32 first
              (hchild (-1) (by decide) true hd1) (by unfold MaxInt32; omega) (Or.inl hne)
              v c h
        omega

/-- C19: on every 6x7 board with cells in `{-1, 0, 1}`, `evaluate_board` returns a score
`s` with `|s| ≤ 3474`, hence `|s| < WIN_SCORE = 100000`; every terminal win score
`winner * (depth + 1) * WIN_SCORE` with `winner` in `{-1, +1}` and `depth ≥ 0` is larger
in magnitude than `s`; and for every depth from 0 to 5, every window and either side to
move, `minimax` returns a score strictly between `MinInt32` and `MaxInt32`. -/
theorem score_bounds (board : Board) (hlen : board.length = 6) (hrect : Rect board 7)
    (_hcells : CellsOK board) :
    (∃ s, evaluate_board board = some s ∧ |s| ≤ 3474 ∧ |s| < WIN_SCORE
        ∧ ∀ winner depth : Int, winner = 1 ∨ winner = -1 → 0 ≤ depth →
            |s| < |winner * (depth + 1) * WIN_SCORE|)
      ∧ ∀ (depth alpha beta : Int) (m : Bool), 0 ≤ depth → depth ≤ 5 →
          ∃ v c, minimax board depth alpha beta m = some (v, c)
            ∧ MinInt32 < v ∧ v < MaxInt32 := by
  constructor
  · obtain ⟨s, hs, hlo, hhi⟩ := evaluate_board_bound_6x7 hlen hrect
    have habs : |s| ≤ 3474 := abs_le.2 ⟨hlo, hhi⟩
    refine ⟨s, hs, habs, ?_, ?_⟩
    · unfold WIN_SCORE
      omega
    · intro winner depth hwin hd
      unfold WIN_SCORE
      have hpos : (0 : Int) < (depth + 1) * 100000 := by omega
      rcases hwin with rfl | rfl
      · rw [one_mul, abs_of_pos hpos]
        omega
      · have : (-1 : Int) * (depth + 1) * 100000 = -((depth + 1) * 100000) := by ring
        rw [this, abs_neg, abs_of_pos hpos]
        omega
  · intro depth alpha beta m hd0 hd5
    obtain ⟨v, c, -, -, hres, -⟩ := minimaxFuel_total (by omega : 2 ≤ 7) (emptyCells board)
      board rfl (by omega) hrect depth alpha beta m
    have hb := minimax_bound (emptyCells board) board rfl hlen hrect depth alpha beta m hd0
      hd5 v c hres
    refine ⟨v, c, hres, ?_, ?_⟩
    · unfold MinInt32
      omega
    · unfold MaxInt32
      omega

/-- Witness for C19: `boardThreat`. -/
theorem score_bounds_witness :
    (boardThreat.length = 6 ∧ Rect boardThreat 7 ∧ CellsOK boardThreat)
      ∧ (∃ s, evaluate_board boardThreat = some s ∧ |s| ≤ 3474 ∧ |s| < WIN_SCORE
          ∧ ∀ winner depth : Int, winner = 1 ∨ winner = -1 → 0 ≤ depth →
              |s| < |winner * (depth + 1) * WIN_SCORE|)
      ∧ ∀ (depth alpha beta : Int) (m : Bool), 0 ≤ depth → depth ≤ 5 →
          ∃ v c, minimax boardThreat depth alpha beta m = some (v, c)
            ∧ MinInt32 < v ∧ v < MaxInt32 :=
  ⟨by decide, score_bounds boardThreat (by decide) (by decide) (by decide)⟩

/-! ## The computer-move step on finished and unfinished games -/

theorem make_move_negative_column {board : Board} (hrows : 0 < board.length) (player : Int) :
    make_move board player (-1) = none := by
  unfold make_move
  obtain ⟨n, hn⟩ : ∃ n, board.length = n + 1 := ⟨board.length - 1, by omega⟩
  rw [hn]
  unfold dropLoop
  simp [cellI]

/-- C20: the computer-move step on a well-formed 6x7 board.  If the board has a winner or
no legal move, `minimax(board, 5, MinInt32, MaxInt32, true)` returns column `-1`, the
following `make_move(board, -1, -1)` reads `board[0][-1]`, an out-of-range index, and no
board is returned.  If the board has no winner and a legal move, the step returns a board
that differs from the input in exactly one cell, which held `0` and now holds `-1`. -/
theorem computerMove_spec (board : Board) (moves : List Int) (w : Int)
    (hlen : board.length = 6) (hrect : Rect board 7) (_hcells : CellsOK board)
    (hw : check_win board = some w) (hm : valid_moves board = some moves) :
    ((w ≠ 0 ∨ moves = []) →
        (∃ v, minimax board MAX_DEPTH MinInt32 MaxInt32 true = some (v, -1))
          ∧ cellI board 0 (-1) = none ∧ make_move board (-1) (-1) = none
          ∧ computerMove board = none)
      ∧ ((w = 0 ∧ moves ≠ []) →
        ∃ b r c, computerMove board = some b ∧ cell board r c = some 0
          ∧ cell b r c = some (-1)
          ∧ ∀ r2 c2 : Nat, (r2 ≠ r ∨ c2 ≠ c) → cell b r2 c2 = cell board r2 c2) := by
  have hrows : 0 < board.length := by omega
  obtain ⟨v, c, moves2, w2, hres, hm2, hw2, hleaf, hinner⟩ :=
    minimaxFuel_total (by omega : 2 ≤ 7) (emptyCells board) board rfl hrows hrect MAX_DEPTH
      MinInt32 MaxInt32 true
  rw [hm] at hm2
  rw [hw] at hw2
  cases hm2
  cases hw2
  have hres2 : minimax board MAX_DEPTH MinInt32 MaxInt32 true = some (v, c) := hres
  constructor
  · intro hfin
    have hc : c = -1 := by
      apply hleaf
      rcases hfin with h | h
      · exact Or.inl h
      · exact Or.inr (Or.inr h)
    subst hc
    refine ⟨⟨v, hres2⟩, by simp [cellI], make_move_negative_column hrows (-1), ?_⟩
    unfold computerMove
    rw [hres2]
    exact make_move_negative_column hrows (-1)
  · rintro ⟨hw0, hne⟩
    have hc : c ∈ moves := hinner ⟨hw0, by decide, hne⟩
    obtain ⟨rs, c2, rfl, -, hz, hmove⟩ := child_of_valid hrows hrect hm hc (-1)
    refine ⟨_, rs, c2, ?_, hz, cell_setCell_same (-1) hz, ?_⟩
    · unfold computerMove
      rw [hres2]
      exact hmove
    · intro r2 c3 h
      exact cell_setCell_other _ _ _ _ _ _ h

/-- Witness for C20: `boardThreat`, whose legal columns are 0 to 6 and which has no
winner. -/
theorem computerMove_spec_witness :
    (boardThreat.length = 6 ∧ Rect boardThreat 7 ∧ CellsOK boardThreat
        ∧ check_win boardThreat = some 0
        ∧ valid_moves boardThreat = some [0, 1, 2, 3, 4, 5, 6])
      ∧ (((0 : Int) ≠ 0 ∨ [(0 : Int), 1, 2, 3, 4, 5, 6] = []) →
          (∃ v, minimax boardThreat MAX_DEPTH MinInt32 MaxInt32 true = some (v, -1))
            ∧ cellI boardThreat 0 (-1) = none ∧ make_move boardThreat (-1) (-1) = none
            ∧ computerMove boardThreat = none)
      ∧ (((0 : Int) = 0 ∧ [(0 : Int), 1, 2, 3, 4, 5, 6] ≠ []) →
          ∃ b r c, computerMove boardThreat = some b ∧ cell boardThreat r c = some 0
            ∧ cell b r c = some (-1)
            ∧ ∀ r2 c2 : Nat, (r2 ≠ r ∨ c2 ≠ c) → cell b r2 c2 = cell boardThreat r2 c2) :=
  ⟨by decide, computerMove_spec boardThreat [0, 1, 2, 3, 4, 5, 6] 0 (by decide) (by decide)
    (by decide) (by decide) (by decide)⟩

/-! ## The search on the bit encoding of 6x7 boards -/

theorem forceNat_eq {α : Type} (x : Nat) (k : Nat → α) : forceNat x k = k x := by
  cases x <;> rfl

theorem forceInt_eq {α : Type} (x : Int) (k : Int → α) : forceInt x k = k x := by
  cases x <;> simp only [forceInt, forceNat_eq]

theorem bitGet_eq_zero {red yel i : Nat} :
    bitGet red yel i = 0 ↔ isEmp red yel i = true := by
  unfold bitGet isEmp
  cases red.testBit i <;> cases yel.testBit i <;> simp

theorem bitGet_eq_one {red yel i : Nat} :
    bitGet red yel i = 1 ↔ red.testBit i = true ∧ yel.testBit i = false := by
  unfold bitGet
  cases red.testBit i <;> cases yel.testBit i <;> simp

theorem bitGet_eq_neg_one {red yel i : Nat} :
    bitGet red yel i = -1 ↔ red.testBit i = false ∧ yel.testBit i = true := by
  unfold bitGet
  cases red.testBit i <;> cases yel.testBit i <;> simp

theorem testBit_or_bit (x i j : Nat) :
    (x ||| (1 <<< i)).testBit j = (x.testBit j || decide (i = j)) := by
  rw [Nat.testBit_or, Nat.one_shiftLeft, Nat.testBit_two_pow]

theorem bitGet_set_red {red yel i : Nat} (h : bitGet red yel i = 0) (j : Nat) :
    bitGet (red ||| (1 <<< i)) yel j = if j = i then 1 else bitGet red yel j := by
  have he := bitGet_eq_zero.1 h
  unfold isEmp at he
  unfold bitGet
  rw [testBit_or_bit]
  by_cases hji : j = i
  · subst hji
    revert he
    cases red.testBit j <;> cases yel.testBit j <;> simp
  · have hij : ¬ i = j := fun e => hji e.symm
    simp [hji, hij]

theorem bitGet_set_yel {red yel i : Nat} (h : bitGet red yel i = 0) (j : Nat) :
    bitGet red (yel ||| (1 <<< i)) j = if j = i then -1 else bitGet red yel j := by
  have he := bitGet_eq_zero.1 h
  unfold isEmp at he
  unfold bitGet
  rw [testBit_or_bit]
  by_cases hji : j = i
  · subst hji
    revert he
    cases red.testBit j <;> cases yel.testBit j <;> simp
  · have hij : ¬ i = j := fun e => hji e.symm
    simp [hji, hij]

theorem bitAt_pureBits (x y i : Nat) :
    bitAt (pureBits x y) i = if x.testBit i && !y.testBit i then 1 else 0 := by
  unfold bitAt pureBits
  rw [Nat.shiftRight_eq_div_pow, ← Nat.toNat_testBit, Nat.testBit_xor, Nat.testBit_and]
  cases x.testBit i <;> cases y.testBit i <;> rfl

theorem four_of_bits {x j s : Nat} (h0 : x.testBit j = true) (h1 : x.testBit (j + s) = true)
    (h2 : x.testBit (j + 2 * s) = true) (h3 : x.testBit (j + 3 * s) = true) :
    four x s = true := by
  unfold four
  have hb : ((x &&& (x >>> s)) &&& ((x &&& (x >>> s)) >>> (2 * s))).testBit j = true := by
    simp only [Nat.testBit_and, Nat.testBit_shiftRight]
    have e1 : s + j = j + s := by omega
    have e2 : 2 * s + j = j + 2 * s := by omega
    have e3 : s + (j + 2 * s) = j + 3 * s := by omega
    rw [e1, e2, e3, h0, h1, h2, h3]
    rfl
  rw [bne_iff_ne]
  intro hz
  rw [hz, Nat.zero_testBit] at hb
  cases hb

theorem encodes_zero {red yel : Nat} {board : Board} (henc : Encodes red yel board)
    {r c : Nat} (hr : r < 6) (hc : c < 7) :
    cell board r c = some 0 ↔ isEmp red yel (7 * r + c) = true := by
  rw [henc r hr c hc, Option.some.injEq, bitGet_eq_zero]

/-- The legal columns computed on the encoding. -/
theorem valid_moves_fast {red yel : Nat} {board : Board} (henc : Encodes red yel board)
    (hlen : board.length = 6) (hrect : Rect board 7) :
    valid_moves board = some (fastMoves red yel) := by
  rw [valid_moves_spec (by omega) hrect, hlen]
  unfold fastMoves
  have hrange : List.range 7 = [0, 1, 2, 3, 4, 5, 6] := by decide
  rw [hrange]
  congr 2
  apply List.filter_congr
  intro c hc
  have hc7 : c < 7 := by
    simp only [List.mem_cons, List.mem_singleton, List.not_mem_nil, or_false] at hc
    omega
  have h := encodes_zero henc (by omega : 5 < 6) hc7
  have e : 7 * 5 + c = 35 + c := by omega
  rw [e] at h
  by_cases hz : cell board (6 - 1) c = some 0
  · rw [decide_eq_true hz, h.1 hz]
  · rw [decide_eq_false hz]
    cases hi : isEmp red yel (35 + c) with
    | false => rfl
    | true => exact absurd (h.2 hi) hz

theorem lineOf_fast {red yel : Nat} {board : Board} (henc : Encodes red yel board) (p : Int)
    (line : List (Nat × Nat)) (hb : ∀ q ∈ line, q.1 < 6 ∧ q.2 < 7) :
    (lineIdx line).all (fun i => decide (bitGet red yel i = p)) = true ↔ LineOf board p line := by
  unfold lineIdx LineOf
  simp only [List.all_eq_true, List.mem_map, decide_eq_true_eq, forall_exists_index, and_imp,
    forall_apply_eq_imp_iff₂]
  constructor
  · intro h q hq
    rw [henc q.1 (hb q hq).1 q.2 (hb q hq).2, h q hq]
  · intro h q hq
    have := h q hq
    rw [henc q.1 (hb q hq).1 q.2 (hb q hq).2, Option.some.injEq] at this
    exact this

theorem lineWin_fast {red yel : Nat} {board : Board} (henc : Encodes red yel board)
    (line : List (Nat × Nat)) (hb : ∀ q ∈ line, q.1 < 6 ∧ q.2 < 7) :
    lineWin board line = some (fastLine red yel (lineIdx line)) := by
  rw [lineWin_spec board line (fun q hq => ⟨_, henc q.1 (hb q hq).1 q.2 (hb q hq).2⟩)]
  unfold fastLine
  by_cases h1 : LineOf board 1 line
  · rw [if_pos h1, if_pos ((lineOf_fast henc 1 line hb).2 h1)]
  · have h1f : ¬ ((lineIdx line).all (fun i => decide (bitGet red yel i = 1)) = true) :=
      fun h => h1 ((lineOf_fast henc 1 line hb).1 h)
    rw [if_neg h1, if_neg h1f]
    by_cases h2 : LineOf board (-1) line
    · rw [if_pos h2, if_pos ((lineOf_fast henc (-1) line hb).2 h2)]
    · have h2f : ¬ ((lineIdx line).all (fun i => decide (bitGet red yel i = -1)) = true) :=
        fun h => h2 ((lineOf_fast henc (-1) line hb).1 h)
      rw [if_neg h2, if_neg h2f]

theorem scan_fast {red yel : Nat} {board : Board} (henc : Encodes red yel board) :
    ∀ (lines : List (List (Nat × Nat))), (∀ line ∈ lines, ∀ q ∈ line, q.1 < 6 ∧ q.2 < 7) →
      scan board lines = some (fastScan red yel (lines.map lineIdx)) := by
  intro lines
  induction lines with
  | nil => intro _; rfl
  | cons line rest ih =>
    intro hb
    have hl := lineWin_fast henc line (hb line (List.mem_cons_self _ _))
    have ih2 := ih (fun l hl2 => hb l (List.mem_cons_of_mem _ hl2))
    rw [scan, hl, List.map_cons, fastScan]
    simp only []
    by_cases hw : fastLine red yel (lineIdx line) ≠ 0
    · rw [if_pos hw, if_pos hw]
    · rw [if_neg hw, if_neg hw, ih2]

theorem line_bits_red {red yel : Nat} {board : Board} (henc : Encodes red yel board)
    {line : List (Nat × Nat)} (hl : LineOf board 1 line) {q : Nat × Nat} (hq : q ∈ line)
    (hr : q.1 < 6) (hc : q.2 < 7) : red.testBit (7 * q.1 + q.2) = true := by
  have h := hl q hq
  rw [henc q.1 hr q.2 hc, Option.some.injEq] at h
  exact (bitGet_eq_one.1 h).1

theorem line_bits_yel {red yel : Nat} {board : Board} (henc : Encodes red yel board)
    {line : List (Nat × Nat)} (hl : LineOf board (-1) line) {q : Nat × Nat} (hq : q ∈ line)
    (hr : q.1 < 6) (hc : q.2 < 7) : yel.testBit (7 * q.1 + q.2) = true := by
  have h := hl q hq
  rw [henc q.1 hr q.2 hc, Option.some.injEq] at h
  exact (bitGet_eq_neg_one.1 h).2

theorem testBit_congr {x a b : Nat} (h : x.testBit a = true) (e : a = b) :
    x.testBit b = true :=
  e ▸ h

/-- Four set bits along a line that the loops of `check_win` visit on a 6x7 board satisfy
the necessary condition. -/
theorem anyFour_of_line {x : Nat} {line : List (Nat × Nat)} (hl : line ∈ winLines 6 7)
    (hbits : ∀ q ∈ line, x.testBit (7 * q.1 + q.2) = true) : anyFour x = true := by
  obtain ⟨r, c, (⟨rfl, hr, hc⟩ | ⟨rfl, hr, hc⟩ | ⟨rfl, hr, hc⟩ | ⟨rfl, hr, hc⟩)⟩ :=
    mem_winLines.1 hl
  · have h0 := hbits (r, c) (by simp [hLine])
    have h1 := hbits (r, c + 1) (by simp [hLine])
    have h2 := hbits (r, c + 2) (by simp [hLine])
    have h3 := hbits (r, c + 3) (by simp [hLine])
    have hf : four x 1 = true := by
      apply four_of_bits (j := 7 * r + c) (testBit_congr h0 (by omega))
      · exact testBit_congr h1 (by omega)
      · exact testBit_congr h2 (by omega)
      · exact testBit_congr h3 (by omega)
    simp [anyFour, hf]
  · have h0 := hbits (r, c) (by simp [vLine])
    have h1 := hbits (r + 1, c) (by simp [vLine])
    have h2 := hbits (r + 2, c) (by simp [vLine])
    have h3 := hbits (r + 3, c) (by simp [vLine])
    have hf : four x 7 = true := by
      apply four_of_bits (j := 7 * r + c) (testBit_congr h0 (by omega))
      · exact testBit_congr h1 (by omega)
      · exact testBit_congr h2 (by omega)
      · exact testBit_congr h3 (by omega)
    simp [anyFour, hf]
  · have h0 := hbits (r, c) (by simp [pLine])
    have h1 := hbits (r + 1, c + 1) (by simp [pLine])
    have h2 := hbits (r + 2, c + 2) (by simp [pLine])
    have h3 := hbits (r + 3, c + 3) (by simp [pLine])
    have hf : four x 8 = true := by
      apply four_of_bits (j := 7 * r + c) (testBit_congr h0 (by omega))
      · exact testBit_congr h1 (by omega)
      · exact testBit_congr h2 (by omega)
      · exact testBit_congr h3 (by omega)
    simp [anyFour, hf]
  · have h0 := hbits (r + 3, c) (by simp [nLine])
    have h1 := hbits (r + 3 - 1, c + 1) (by simp [nLine])
    have h2 := hbits (r + 3 - 2, c + 2) (by simp [nLine])
    have h3 := hbits (r + 3 - 3, c + 3) (by simp [nLine])
    have hf : four x 6 = true := by
      apply four_of_bits (j := 7 * r + c + 3)
      · exact testBit_congr h3 (by omega)
      · exact testBit_congr h2 (by omega)
      · exact testBit_congr h1 (by omega)
      · exact testBit_congr h0 (by omega)
    simp [anyFour, hf]

/-- The value of `check_win` computed on the encoding. -/
theorem check_win_fast {red yel : Nat} {board : Board} (henc : Encodes red yel board)
    (hlen : board.length = 6) (hrect : Rect board 7) :
    check_win board = some (fastWin red yel) := by
  obtain ⟨row0, h0⟩ := head_of_pos (by omega : 0 < board.length)
  have hcols := rect_head hrect h0
  have hb : ∀ line ∈ winLines 6 7, ∀ q ∈ line, q.1 < 6 ∧ q.2 < 7 :=
    fun line hl => (winLines_inBounds hl).2
  have hscan := scan_fast henc (winLines 6 7) hb
  unfold check_win
  rw [h0]
  simp only [hcols, hlen]
  rw [hscan]
  unfold fastWin
  by_cases hany : (anyFour red || anyFour yel) = true
  · rw [if_pos hany]
  · rw [if_neg hany]
    obtain ⟨w, hw, hrange, hnz, _⟩ := scan_spec board (winLines 6 7)
      (fun line hl q hq => ⟨_, henc q.1 (hb line hl q hq).1 q.2 (hb line hl q hq).2⟩)
      (fun line hl => (winLines_inBounds hl).1)
    rw [hscan] at hw
    rw [hw]
    by_contra hw0
    have hw0 : w ≠ 0 := fun e => hw0 (by rw [e])
    obtain ⟨line, hl, hline⟩ := hnz hw0
    apply hany
    rcases hrange with rfl | rfl | rfl
    · have := anyFour_of_line hl (fun q hq =>
        line_bits_red henc hline hq (hb line hl q hq).1 (hb line hl q hq).2)
      simp [this]
    · have := anyFour_of_line hl (fun q hq =>
        line_bits_yel henc hline hq (hb line hl q hq).1 (hb line hl q hq).2)
      simp [this]
    · exact absurd rfl hw0

/-! ### A disc dropped on the encoding -/

theorem fastDrop_found {red yel : Nat} (c rs : Nat) (hzero : isEmp red yel (7 * rs + c) = true) :
    ∀ (n r : Nat), r ≤ rs → rs < r + n →
      (∀ r2, r ≤ r2 → r2 < rs → isEmp red yel (7 * r2 + c) = false) →
      fastDrop red yel c n r = some (7 * rs + c) := by
  intro n
  induction n with
  | zero => intro r h1 h2; omega
  | succ n ih =>
    intro r h1 h2 hbelow
    rw [fastDrop]
    by_cases hr : r = rs
    · subst hr
      rw [if_pos hzero]
    · have hlt : r < rs := by omega
      rw [hbelow r (le_refl r) hlt]
      simp only [Bool.false_eq_true, if_false]
      exact ih (r + 1) (by omega) (by omega) (fun r2 h3 h4 => hbelow r2 (by omega) h4)

theorem encodes_setCell_red {red yel : Nat} {board : Board} (henc : Encodes red yel board)
    {rs c : Nat} (hrs : rs < 6) (hc : c < 7) (hzero : cell board rs c = some 0) :
    Encodes (red ||| (1 <<< (7 * rs + c))) yel (setCell board rs (c : Int) 1) := by
  have hg : bitGet red yel (7 * rs + c) = 0 := by
    have := henc rs hrs c hc
    rw [hzero, Option.some.injEq] at this
    exact this.symm
  intro r2 hr2 c2 hc2
  rw [bitGet_set_red hg]
  by_cases hsame : r2 = rs ∧ c2 = c
  · obtain ⟨rfl, rfl⟩ := hsame
    rw [if_pos rfl]
    exact cell_setCell_same 1 hzero
  · have hne : ¬ (7 * r2 + c2 = 7 * rs + c) := by omega
    rw [if_neg hne, cell_setCell_other board rs c 1 r2 c2 (by omega)]
    exact henc r2 hr2 c2 hc2

theorem encodes_setCell_yel {red yel : Nat} {board : Board} (henc : Encodes red yel board)
    {rs c : Nat} (hrs : rs < 6) (hc : c < 7) (hzero : cell board rs c = some 0) :
    Encodes red (yel ||| (1 <<< (7 * rs + c))) (setCell board rs (c : Int) (-1)) := by
  have hg : bitGet red yel (7 * rs + c) = 0 := by
    have := henc rs hrs c hc
    rw [hzero, Option.some.injEq] at this
    exact this.symm
  intro r2 hr2 c2 hc2
  rw [bitGet_set_yel hg]
  by_cases hsame : r2 = rs ∧ c2 = c
  · obtain ⟨rfl, rfl⟩ := hsame
    rw [if_pos rfl]
    exact cell_setCell_same (-1) hzero
  · have hne : ¬ (7 * r2 + c2 = 7 * rs + c) := by omega
    rw [if_neg hne, cell_setCell_other board rs c (-1) r2 c2 (by omega)]
    exact henc r2 hr2 c2 hc2

/-- The child of a legal column and the index of the cell that receives the disc. -/
theorem child_fast {red yel : Nat} {board : Board} (henc : Encodes red yel board)
    (hlen : board.length = 6) (hrect : Rect board 7) {col : Int}
    (hcol : col ∈ fastMoves red yel) (player : Int) :
    ∃ (rs c : Nat), rs < 6 ∧ c < 7 ∧ cell board rs c = some 0
      ∧ makeMoveCopy board col player = some (setCell board rs (c : Int) player)
      ∧ fastDrop red yel col.toNat 6 0 = some (7 * rs + c) := by
  have hm := valid_moves_fast henc hlen hrect
  obtain ⟨h0, hlt, hcell⟩ := (mem_valid_moves (by omega) hrect hm col).1 hcol
  obtain ⟨c, rfl⟩ := Int.eq_ofNat_of_zero_le h0
  have hc : c < 7 := by exact_mod_cast hlt
  rw [cellI_natCast] at hcell
  obtain ⟨rs, hz, hrs, hbelow, hmove⟩ := make_move_spec hrect player hc ⟨_, hcell⟩
  rw [hlen] at hrs
  refine ⟨rs, c, hrs, hc, hz, hmove, ?_⟩
  rw [Int.toNat_ofNat]
  apply fastDrop_found c rs ((encodes_zero henc hrs hc).1 hz) 6 0 (Nat.zero_le _) (by omega)
  intro r2 _ hr2
  obtain ⟨v, hv, hv0⟩ := hbelow r2 hr2
  cases hi : isEmp red yel (7 * r2 + c) with
  | false => rfl
  | true =>
    have := (encodes_zero henc (by omega : r2 < 6) hc).2 hi
    rw [hv, Option.some.injEq] at this
    exact absurd this hv0
/-! ### The evaluation on the encoding -/

/-- The value of a cell given by its two bits. -/
theorem bitGet_bits (red yel i : Nat) :
    bitGet red yel i =
      if red.testBit i then (if yel.testBit i then 2 else 1)
      else if yel.testBit i then -1 else 0 := rfl

theorem centerBonus_bitGet (red yel i : Nat) :
    centerBonus (bitGet red yel i)
      = 2 * (bitAt (pureBits red yel) i : Int) - 2 * (bitAt (pureBits yel red) i : Int) := by
  rw [bitAt_pureBits, bitAt_pureBits, bitGet_bits]
  cases red.testBit i <;> cases yel.testBit i <;> simp [centerBonus]

theorem center_fast {red yel : Nat} {board : Board} (henc : Encodes red yel board) :
    ∀ (rs : List Nat), (∀ r ∈ rs, r < 6) → ∀ (p n : Nat),
      centerLoop board 2 3 rs ((p : Int) - (n : Int))
        = some (((fastCenter (pureBits red yel) (pureBits yel red) rs p n).1 : Int)
            - ((fastCenter (pureBits red yel) (pureBits yel red) rs p n).2 : Int)) := by
  intro rs
  induction rs with
  | nil => intro _ p n; rfl
  | cons r rest ih =>
    intro hrs p n
    have hr := hrs r (List.mem_cons_self _ _)
    have ih2 := ih (fun r2 h2 => hrs r2 (List.mem_cons_of_mem _ h2))
      (p + 2 * bitAt (pureBits red yel) (7 * r + 2) + 2 * bitAt (pureBits red yel) (7 * r + 3))
      (n + 2 * bitAt (pureBits yel red) (7 * r + 2) + 2 * bitAt (pureBits yel red) (7 * r + 3))
    have ha : cellI board r 2 = some (bitGet red yel (7 * r + 2)) := by
      rw [cellI_of_nonneg board r (by decide : (0 : Int) ≤ 2)]
      exact henc r hr 2 (by decide)
    have hb : cellI board r 3 = some (bitGet red yel (7 * r + 3)) := by
      rw [cellI_of_nonneg board r (by decide : (0 : Int) ≤ 3)]
      exact henc r hr 3 (by decide)
    rw [fastCenter, ← ih2]
    unfold centerLoop
    rw [List.foldlM_cons]
    simp only [ha, hb, Option.bind_eq_bind, Option.some_bind]
    congr 1
    rw [centerBonus_bitGet, centerBonus_bitGet]
    push_cast
    ring

/-- One step of the window loop on the encoding, without the case distinction. -/
theorem fastEvalLoop_cons (pr py i0 i1 i2 i3 : Nat) (rest : List (Nat × Nat × Nat × Nat))
    (p n : Nat) :
    fastEvalLoop pr py ((i0, i1, i2, i3) :: rest) p n
      = fastEvalLoop pr py rest
          (p + if cnt4 py i0 i1 i2 i3 = 0 then tblN (cnt4 pr i0 i1 i2 i3) else 0)
          (n + if cnt4 pr i0 i1 i2 i3 = 0 then tblN (cnt4 py i0 i1 i2 i3) else 0) := by
  rw [fastEvalLoop]
  generalize cnt4 pr i0 i1 i2 i3 = rc
  generalize cnt4 py i0 i1 i2 i3 = yc
  cases rc <;> cases yc <;> simp [forceNat_eq, tblN]

theorem window_score (a0 a1 a2 a3 b0 b1 b2 b3 : Bool) :
    evaluateWindow
        [if a0 then (if b0 then 2 else 1) else if b0 then -1 else 0,
         if a1 then (if b1 then 2 else 1) else if b1 then -1 else 0,
         if a2 then (if b2 then 2 else 1) else if b2 then -1 else 0,
         if a3 then (if b3 then 2 else 1) else if b3 then -1 else 0]
      = (((if ((if b0 && !a0 then 1 else 0) + (if b1 && !a1 then 1 else 0)
              + (if b2 && !a2 then 1 else 0) + (if b3 && !a3 then 1 else 0) : Nat) = 0
            then tblN ((if a0 && !b0 then 1 else 0) + (if a1 && !b1 then 1 else 0)
              + (if a2 && !b2 then 1 else 0) + (if a3 && !b3 then 1 else 0)) else 0 : Nat) : Int)
        - ((if ((if a0 && !b0 then 1 else 0) + (if a1 && !b1 then 1 else 0)
              + (if a2 && !b2 then 1 else 0) + (if a3 && !b3 then 1 else 0) : Nat) = 0
            then tblN ((if b0 && !a0 then 1 else 0) + (if b1 && !a1 then 1 else 0)
              + (if b2 && !a2 then 1 else 0) + (if b3 && !a3 then 1 else 0)) else 0 : Nat) : Int)) := by
  cases a0 <;> cases a1 <;> cases a2 <;> cases a3 <;> cases b0 <;> cases b1 <;> cases b2
    <;> cases b3 <;> decide

theorem window_fast {red yel : Nat} {board : Board} (henc : Encodes red yel board)
    (q0 q1 q2 q3 : Nat × Nat) (hb : ∀ q ∈ [q0, q1, q2, q3], q.1 < 6 ∧ q.2 < 7) (p n : Nat) :
    ∃ w, readWindow board [q0, q1, q2, q3] = some w
      ∧ ((p : Int) - (n : Int)) + evaluateWindow w
        = ((p + if cnt4 (pureBits yel red) (7 * q0.1 + q0.2) (7 * q1.1 + q1.2)
                (7 * q2.1 + q2.2) (7 * q3.1 + q3.2) = 0
              then tblN (cnt4 (pureBits red yel) (7 * q0.1 + q0.2) (7 * q1.1 + q1.2)
                (7 * q2.1 + q2.2) (7 * q3.1 + q3.2)) else 0 : Nat) : Int)
          - ((n + if cnt4 (pureBits red yel) (7 * q0.1 + q0.2) (7 * q1.1 + q1.2)
                (7 * q2.1 + q2.2) (7 * q3.1 + q3.2) = 0
              then tblN (cnt4 (pureBits yel red) (7 * q0.1 + q0.2) (7 * q1.1 + q1.2)
                (7 * q2.1 + q2.2) (7 * q3.1 + q3.2)) else 0 : Nat) : Int) := by
  have h0 := henc q0.1 (hb q0 (by simp)).1 q0.2 (hb q0 (by simp)).2
  have h1 := henc q1.1 (hb q1 (by simp)).1 q1.2 (hb q1 (by simp)).2
  have h2 := henc q2.1 (hb q2 (by simp)).1 q2.2 (hb q2 (by simp)).2
  have h3 := henc q3.1 (hb q3 (by simp)).1 q3.2 (hb q3 (by simp)).2
  refine ⟨[bitGet red yel (7 * q0.1 + q0.2), bitGet red yel (7 * q1.1 + q1.2),
    bitGet red yel (7 * q2.1 + q2.2), bitGet red yel (7 * q3.1 + q3.2)], ?_, ?_⟩
  · unfold readWindow
    rw [List.mapM_cons, List.mapM_cons, List.mapM_cons, List.mapM_cons, h0, h1, h2, h3]
    rfl
  · simp only [bitGet_bits, window_score, cnt4, bitAt_pureBits]
    push_cast
    ring

theorem windows_fast {red yel : Nat} {board : Board} (henc : Encodes red yel board) :
    ∀ (lines : List (List (Nat × Nat))),
      (∀ line ∈ lines, ∃ q0 q1 q2 q3, line = [q0, q1, q2, q3]
        ∧ ∀ q ∈ [q0, q1, q2, q3], q.1 < 6 ∧ q.2 < 7) → ∀ (p n : Nat),
      windowLoop board lines ((p : Int) - (n : Int))
        = some (fastEvalLoop (pureBits red yel) (pureBits yel red) (lines.map tupleOf) p n) := by
  intro lines
  induction lines with
  | nil => intro _ p n; rfl
  | cons line rest ih =>
    intro h p n
    obtain ⟨q0, q1, q2, q3, rfl, hb⟩ := h _ (List.mem_cons_self _ _)
    obtain ⟨w, hw, hscore⟩ := window_fast henc q0 q1 q2 q3 hb p n
    have ih2 := ih (fun l hl => h l (List.mem_cons_of_mem _ hl))
    have ht : tupleOf [q0, q1, q2, q3]
        = (7 * q0.1 + q0.2, 7 * q1.1 + q1.2, 7 * q2.1 + q2.2, 7 * q3.1 + q3.2) := rfl
    rw [List.map_cons, ht, fastEvalLoop_cons, ← ih2]
    unfold windowLoop
    rw [List.foldlM_cons]
    simp only [hw, Option.bind_eq_bind, Option.some_bind]
    rw [hscore]

theorem evalLines_shape :
    ∀ line ∈ evalLines 6 7, ∃ q0 q1 q2 q3, line = [q0, q1, q2, q3]
      ∧ ∀ q ∈ [q0, q1, q2, q3], q.1 < 6 ∧ q.2 < 7 := by
  intro line hl
  have hb := evalLines_inBounds hl
  simp only [evalLines, List.mem_append, List.mem_map, Prod.exists] at hl
  rcases hl with ((⟨r, c, _, rfl⟩ | ⟨c, r, _, rfl⟩) | ⟨r, c, _, rfl⟩) | ⟨r, c, _, rfl⟩
  · exact ⟨_, _, _, _, rfl, hb⟩
  · exact ⟨_, _, _, _, rfl, hb⟩
  · exact ⟨_, _, _, _, rfl, hb⟩
  · exact ⟨_, _, _, _, rfl, hb⟩

theorem evalIdx_eq : (evalLines 6 7).map tupleOf = evalIdx := by
  decide

/-- The value of `evaluate_board` computed on the encoding. -/
theorem evaluate_board_fast {red yel : Nat} {board : Board} (henc : Encodes red yel board)
    (hlen : board.length = 6) (hrect : Rect board 7) :
    evaluate_board board = some (fastEval red yel) := by
  obtain ⟨row0, h0⟩ := head_of_pos (by omega : 0 < board.length)
  have hcols := rect_head hrect h0
  have hc := center_fast henc [0, 1, 2, 3, 4, 5] (by decide) 0 0
  have hw := windows_fast henc (evalLines 6 7) evalLines_shape
    (fastCenter (pureBits red yel) (pureBits yel red) [0, 1, 2, 3, 4, 5] 0 0).1
    (fastCenter (pureBits red yel) (pureBits yel red) [0, 1, 2, 3, 4, 5] 0 0).2
  have hrange : List.range 6 = [0, 1, 2, 3, 4, 5] := by decide
  have hc1 : ((7 : Nat) : Int) / 2 - 1 = 2 := by decide
  have hc2 : ((7 : Nat) : Int) / 2 = 3 := by decide
  have hz : ((0 : Nat) : Int) - ((0 : Nat) : Int) = 0 := by decide
  rw [hz] at hc
  unfold evaluate_board
  rw [h0]
  have h31 : (3 : Int) - 1 = 2 := by decide
  simp only [hcols, hlen, hrange, hc1, hc2, h31, hc, hw, evalIdx_eq]
  unfold fastEval
  simp only [forceNat_eq]

/-! ### The search on the encoding -/

theorem maxLoop_fast (child : Board → Int → Int → Option (Int × Int))
    (fchild : Nat → Nat → Int → Int → Option (Int × Int))
    (hchild : ∀ (b : Board) (r y : Nat), Encodes r y b → b.length = 6 → Rect b 7 →
      ∀ a β, child b a β = fchild r y a β)
    {red yel : Nat} {board : Board} (henc : Encodes red yel board)
    (hlen : board.length = 6) (hrect : Rect board 7) (beta : Int) :
    ∀ (moves : List Int), (∀ col ∈ moves, col ∈ fastMoves red yel) →
      ∀ (alpha bestVal bestCol : Int),
        maxLoop child board beta moves alpha bestVal bestCol
          = fastMaxLoop fchild red yel beta moves alpha bestVal bestCol := by
  intro moves
  induction moves with
  | nil => intro _ alpha bestVal bestCol; rfl
  | cons col rest ih =>
    intro hsub alpha bestVal bestCol
    obtain ⟨rs, c, hrs, hc, hz, hmove, hdrop⟩ :=
      child_fast henc hlen hrect (hsub col (List.mem_cons_self _ _)) 1
    have hc2 := hchild (setCell board rs (c : Int) 1) (red ||| (1 <<< (7 * rs + c))) yel
      (encodes_setCell_red henc hrs hc hz)
      (by rw [length_setCell, hlen]) (rect_setCell hrect rs (c : Int) 1) alpha beta
    have ih2 := ih (fun c2 h2 => hsub c2 (List.mem_cons_of_mem _ h2))
    rw [maxLoop, fastMaxLoop, hmove, hdrop]
    simp only [forceNat_eq, forceInt_eq, hc2]
    cases fchild (red ||| (1 <<< (7 * rs + c))) yel alpha beta with
    | none => rfl
    | some res =>
      simp only []
      split_ifs <;> first | rfl | exact ih2 _ _ _

theorem minLoop_fast (child : Board → Int → Int → Option (Int × Int))
    (fchild : Nat → Nat → Int → Int → Option (Int × Int))
    (hchild : ∀ (b : Board) (r y : Nat), Encodes r y b → b.length = 6 → Rect b 7 →
      ∀ a β, child b a β = fchild r y a β)
    {red yel : Nat} {board : Board} (henc : Encodes red yel board)
    (hlen : board.length = 6) (hrect : Rect board 7) (alpha : Int) :
    ∀ (moves : List Int), (∀ col ∈ moves, col ∈ fastMoves red yel) →
      ∀ (beta bestVal bestCol : Int),
        minLoop child board alpha moves beta bestVal bestCol
          = fastMinLoop fchild red yel alpha moves beta bestVal bestCol := by
  intro moves
  induction moves with
  | nil => intro _ beta bestVal bestCol; rfl
  | cons col rest ih =>
    intro hsub beta bestVal bestCol
    obtain ⟨rs, c, hrs, hc, hz, hmove, hdrop⟩ :=
      child_fast henc hlen hrect (hsub col (List.mem_cons_self _ _)) (-1)
    have hc2 := hchild (setCell board rs (c : Int) (-1)) red (yel ||| (1 <<< (7 * rs + c)))
      (encodes_setCell_yel henc hrs hc hz)
      (by rw [length_setCell, hlen]) (rect_setCell hrect rs (c : Int) (-1)) alpha beta
    have ih2 := ih (fun c2 h2 => hsub c2 (List.mem_cons_of_mem _ h2))
    rw [minLoop, fastMinLoop, hmove, hdrop]
    simp only [forceNat_eq, forceInt_eq, hc2]
    cases fchild red (yel ||| (1 <<< (7 * rs + c))) alpha beta with
    | none => rfl
    | some res =>
      simp only []
      split_ifs <;> first | rfl | exact ih2 _ _ _

/-- The search on a 6x7 board and the search on its encoding return the same result. -/
theorem minimaxFuel_fast :
    ∀ (fuel : Nat) (board : Board) (red yel : Nat), Encodes red yel board →
      board.length = 6 → Rect board 7 →
      ∀ (depth alpha beta : Int) (maximizingPlayer : Bool),
        minimaxFuel fuel board depth alpha beta maximizingPlayer
          = fastSearch noBase fuel red yel depth alpha beta maximizingPlayer := by
  intro fuel
  induction fuel with
  | zero => intro board red yel _ _ _ depth alpha beta m; rfl
  | succ fuel ih =>
    intro board red yel henc hlen hrect depth alpha beta m
    rw [minimaxFuel, fastSearch, valid_moves_fast henc hlen hrect,
      check_win_fast henc hlen hrect, evaluate_board_fast henc hlen hrect]
    simp only []
    by_cases hcond : fastWin red yel ≠ 0 ∨ depth = 0 ∨ (fastMoves red yel).length = 0
    · rw [if_pos hcond, if_pos hcond]
    · rw [if_neg hcond, if_neg hcond]
      cases hmv : fastMoves red yel with
      | nil => rfl
      | cons bestCol rest =>
        simp only []
        rw [← hmv]
        cases m with
        | true =>
          simp only [if_true]
          exact maxLoop_fast _ _
            (fun b r y he hl hr a β => ih b r y he hl hr (wrapInt (depth - 1)) a β false)
            henc hlen hrect beta (fastMoves red yel) (fun _ h => h) alpha MinInt32 bestCol
        | false =>
          simp only [Bool.false_eq_true, if_false]
          exact minLoop_fast _ _
            (fun b r y he hl hr a β => ih b r y he hl hr (wrapInt (depth - 1)) a β true)
            henc hlen hrect alpha (fastMoves red yel) (fun _ h => h) beta MaxInt32 bestCol

/-- A search with the nesting bound `k + n` is a search with the bound `k` whose base is
the search with the bound `n`. -/
theorem fastSearch_add (base : Nat → Nat → Int → Int → Int → Bool → Option (Int × Int))
    (n : Nat) :
    ∀ (k red yel : Nat) (depth alpha beta : Int) (maximizingPlayer : Bool),
      fastSearch base (k + n) red yel depth alpha beta maximizingPlayer
        = fastSearch (fastSearch base n) k red yel depth alpha beta maximizingPlayer := by
  intro k
  induction k with
  | zero =>
    intro red yel depth alpha beta m
    rw [Nat.zero_add]
    rfl
  | succ k ih =>
    intro red yel depth alpha beta m
    have h1 : (fun r y a b => fastSearch base (k + n) r y (wrapInt (depth - 1)) a b false)
        = (fun r y a b => fastSearch (fastSearch base n) k r y (wrapInt (depth - 1)) a b false) := by
      funext r y a b
      exact ih r y _ a b false
    have h2 : (fun r y a b => fastSearch base (k + n) r y (wrapInt (depth - 1)) a b true)
        = (fun r y a b => fastSearch (fastSearch base n) k r y (wrapInt (depth - 1)) a b true) := by
      funext r y a b
      exact ih r y _ a b true
    rw [Nat.succ_add, fastSearch, fastSearch, h1, h2]

theorem lookupCall_mem (key : Nat × Nat × Int × Int × Int × Bool) :
    ∀ (table : CallTable) (res : Option (Int × Int)),
      lookupCall key table = some res → (key, res) ∈ table := by
  intro table
  induction table with
  | nil => intro res h; cases h
  | cons e rest ih =>
    intro res h
    obtain ⟨k, v⟩ := e
    rw [lookupCall] at h
    by_cases hk : k = key
    · rw [if_pos hk, Option.some.injEq] at h
      rw [hk, h]
      exact List.mem_cons_self _ _
    · rw [if_neg hk] at h
      exact List.mem_cons_of_mem _ (ih res h)

/-- A table of results of `f` does not change `f`. -/
theorem memoBase_eq (table : CallTable)
    (f : Nat → Nat → Int → Int → Int → Bool → Option (Int × Int))
    (hsound : ∀ e ∈ table, f e.1.1 e.1.2.1 e.1.2.2.1 e.1.2.2.2.1 e.1.2.2.2.2.1 e.1.2.2.2.2.2 = e.2) :
    memoBase table f = f := by
  funext red yel depth alpha beta m
  unfold memoBase
  cases hl : lookupCall (red, yel, depth, alpha, beta, m) table with
  | none => rfl
  | some res => exact (hsound _ (lookupCall_mem _ table res hl)).symm

/-! ### The search on the empty board -/

theorem opening_call_01 :
    fastSearch noBase 41 1 128 3 (-2147483648) 2147483647 true = some (20, 3) := by
  set_option maxRecDepth 1000000 in
  decide!

theorem opening_call_02 :
    fastSearch noBase 41 1 2 3 (-2147483648) 20 true = some (20, 1) := by
  set_option maxRecDepth 1000000 in
  decide!

theorem opening_call_03 :
    fastSearch noBase 41 1 4 3 (-2147483648) 20 true = some (14, 2) := by
  set_option maxRecDepth 1000000 in
  decide!

theorem opening_call_04 :
    fastSearch noBase 41 1 8 3 (-2147483648) 14 true = some (12, 0) := by
  set_option maxRecDepth 1000000 in
  decide!

theorem opening_call_05 :
    fastSearch noBase 41 1 16 3 (-2147483648) 12 true = some (13, 0) := by
  set_option maxRecDepth 1000000 in
  decide!

theorem opening_call_06 :
    fastSearch noBase 41 1 32 3 (-2147483648) 12 true = some (12, 0) := by
  set_option maxRecDepth 1000000 in
  decide!

theorem opening_call_07 :
    fastSearch noBase 41 1 64 3 (-2147483648) 12 true = some (13, 0) := by
  set_option maxRecDepth 1000000 in
  decide!

theorem opening_call_08 :
    fastSearch noBase 41 2 1 3 (12) 2147483647 true = some (24, 2) := by
  set_option maxRecDepth 1000000 in
  decide!

theorem opening_call_09 :
    fastSearch noBase 41 2 256 3 (12) 24 true = some (24, 3) := by
  set_option maxRecDepth 1000000 in
  decide!

theorem opening_call_10 :
    fastSearch noBase 41 2 4 3 (12) 24 true = some (28, 1) := by
  set_option maxRecDepth 1000000 in
  decide!

theorem opening_call_11 :
    fastSearch noBase 41 2 8 3 (12) 24 true = some (17, 3) := by
  set_option maxRecDepth 1000000 in
  decide!

theorem opening_call_12 :
    fastSearch noBase 41 2 16 3 (12) 17 true = some (17, 3) := by
  set_option maxRecDepth 1000000 in
  decide!

theorem opening_call_13 :
    fastSearch noBase 41 2 32 3 (12) 17 true = some (19, 1) := by
  set_option maxRecDepth 1000000 in
  decide!

theorem opening_call_14 :
    fastSearch noBase 41 2 64 3 (12) 17 true = some (17, 1) := by
  set_option maxRecDepth 1000000 in
  decide!

theorem opening_call_15 :
    fastSearch noBase 41 4 1 3 (17) 2147483647 true = some (33, 3) := by
  set_option maxRecDepth 1000000 in
  decide!

theorem opening_call_16 :
    fastSearch noBase 41 4 2 3 (17) 33 true = some (33, 3) := by
  set_option maxRecDepth 1000000 in
  decide!

theorem opening_call_17 :
    fastSearch noBase 41 4 512 3 (17) 33 true = some (36, 3) := by
  set_option maxRecDepth 1000000 in
  decide!

theorem opening_call_18 :
    fastSearch noBase 41 4 8 3 (17) 33 true = some (36, 2) := by
  set_option maxRecDepth 1000000 in
  decide!

theorem opening_call_19 :
    fastSearch noBase 41 4 16 3 (17) 33 true = some (33, 3) := by
  set_option maxRecDepth 1000000 in
  decide!

theorem opening_call_20 :
    fastSearch noBase 41 4 32 3 (17) 33 true = some (33, 3) := by
  set_option maxRecDepth 1000000 in
  decide!

theorem opening_call_21 :
    fastSearch noBase 41 4 64 3 (17) 33 true = some (38, 2) := by
  set_option maxRecDepth 1000000 in
  decide!

theorem opening_call_22 :
    fastSearch noBase 41 8 1 3 (33) 2147483647 true = some (53, 4) := by
  set_option maxRecDepth 1000000 in
  decide!

theorem opening_call_23 :
    fastSearch noBase 41 8 2 3 (33) 53 true = some (33, 2) := by
  set_option maxRecDepth 1000000 in
  decide!

theorem opening_call_24 :
    fastSearch noBase 41 16 1 3 (33) 2147483647 true = some (53, 3) := by
  set_option maxRecDepth 1000000 in
  decide!

theorem opening_call_25 :
    fastSearch noBase 41 16 2 3 (33) 53 true = some (31, 3) := by
  set_option maxRecDepth 1000000 in
  decide!

theorem opening_call_26 :
    fastSearch noBase 41 32 1 3 (33) 2147483647 true = some (27, 3) := by
  set_option maxRecDepth 1000000 in
  decide!

theorem opening_call_27 :
    fastSearch noBase 41 64 1 3 (33) 2147483647 true = some (27, 2) := by
  set_option maxRecDepth 1000000 in
  decide!

/-- The table records results of the search. -/
theorem openingTable_sound :
    ∀ e ∈ openingTable,
      fastSearch noBase 41 e.1.1 e.1.2.1 e.1.2.2.1 e.1.2.2.2.1 e.1.2.2.2.2.1 e.1.2.2.2.2.2
        = e.2 := by
  intro e he
  simp only [openingTable, List.mem_cons, List.mem_singleton, List.not_mem_nil, or_false] at he
  rcases he with rfl | rfl | rfl | rfl | rfl | rfl | rfl | rfl | rfl | rfl | rfl | rfl | rfl | rfl | rfl | rfl | rfl | rfl | rfl | rfl | rfl | rfl | rfl | rfl | rfl | rfl | rfl
  · exact opening_call_01
  · exact opening_call_02
  · exact opening_call_03
  · exact opening_call_04
  · exact opening_call_05
  · exact opening_call_06
  · exact opening_call_07
  · exact opening_call_08
  · exact opening_call_09
  · exact opening_call_10
  · exact opening_call_11
  · exact opening_call_12
  · exact opening_call_13
  · exact opening_call_14
  · exact opening_call_15
  · exact opening_call_16
  · exact opening_call_17
  · exact opening_call_18
  · exact opening_call_19
  · exact opening_call_20
  · exact opening_call_21
  · exact opening_call_22
  · exact opening_call_23
  · exact opening_call_24
  · exact opening_call_25
  · exact opening_call_26
  · exact opening_call_27

/-- The search on the encoding of the empty board, evaluated. -/
theorem fastSearch_empty :
    fastSearch noBase 43 0 0 5 MinInt32 MaxInt32 true = some (33, 2) := by
  have h := fastSearch_add noBase 41 2 0 0 5 MinInt32 MaxInt32 true
  have h2 : 2 + 41 = 43 := rfl
  rw [h2, ← memoBase_eq openingTable (fastSearch noBase 41) openingTable_sound] at h
  rw [h]
  set_option maxRecDepth 1000000 in
  decide!

/-- C16: on the empty 6x7 board (six rows of seven cells holding `0`) the call
`minimax(board, 5, MinInt32, MaxInt32, true)` returns a result, and the column of this
result is one of the two center columns, column 3 or column 2: the call returns the score
`33` and the column `2`. -/
theorem minimax_opening_center :
    emptyBoard = List.replicate 6 (List.replicate 7 0)
      ∧ ∃ res, minimax emptyBoard 5 MinInt32 MaxInt32 true = some res
          ∧ (res.2 = 3 ∨ res.2 = 2) ∧ res = (33, 2) := by
  refine ⟨by decide, (33, 2), ?_, Or.inr rfl, rfl⟩
  have hcells : emptyCells emptyBoard + 1 = 43 := by decide
  unfold minimax
  rw [hcells, minimaxFuel_fast 43 emptyBoard 0 0 (by decide) (by decide) (by decide)]
  exact fastSearch_empty

end Connect4
